import Mathlib

/-! The passage message relay of corridor.

A shallow embedding of `src/corridor.cpp` / `src/corridor.hpp`.

* `std::map` is a list of key/value pairs kept in strictly increasing key order
  (the order in which the map's iterators walk it); an iterator is the suffix
  of the list that starts at its position, `end()` being the empty suffix.
* `uint64_t` fields are `Nat`, every arithmetic step reduced modulo `2 ^ 64`.
* `get_timestamp` is an input: every operation that reads the clock takes the
  reading as an argument (each path of `decorate` reads it exactly once).
* the outcome of `working_lock.try_lock()` is an input of `decorate`.
* an operation that dereferences `rbegin()` or an iterator of an empty map has
  no defined result and returns `none`.
-/

namespace corridor

/-- The modulus of `uint64_t` (`timestamp_type`, `index_type`, `size_t`). -/
def U64 : Nat := 2 ^ 64

/-- The enumeration `artifact_type` of corridor.hpp. -/
inductive artifact_type where
  | EMPTY
  | EMBEDED
  | ENTER
  | END
  | ERROR
  deriving DecidableEq, Repr

/-- The struct `artifact_index` of corridor.hpp: `(timestamp, index)`. -/
structure artifact_index where
  timestamp : Nat
  index : Nat
  deriving DecidableEq, Repr

/-- The static function `artifact_index::max()`: both fields `numeric_limits::max()`. -/
def artifact_index.max : artifact_index :=
  { timestamp := U64 - 1, index := U64 - 1 }

/-- The comparison `artifact_index::operator<`. -/
def artifact_index.lt (self other : artifact_index) : Bool :=
  if self.timestamp < other.timestamp then true
  else if self.timestamp = other.timestamp then
    (if self.index < other.index then true else false)
  else false

/-- The comparison `artifact_index::operator==`. -/
def artifact_index.eq (self other : artifact_index) : Bool :=
  if self.timestamp = other.timestamp ∧ self.index = other.index then true else false

/-- The class `artifact`: a kind, the payload bytes (`none` is the null
`shared_ptr`) and the recorded length. Copy and move both carry the three
fields over unchanged. -/
structure artifact where
  type : artifact_type
  data : Option (List Nat)
  data_length : Nat
  deriving DecidableEq, Repr

/-- The default constructor `artifact::artifact()`. -/
def artifact.empty : artifact :=
  { type := artifact_type.EMPTY, data := none, data_length := 0 }

/-! ## `std::map` as a key-ordered list -/

section map
variable {K V : Type}

/-- The equivalence of two keys under a `std::map` comparator. -/
def map_equiv (lt : K → K → Bool) (a b : K) : Bool := !lt a b && !lt b a

/-- The assignment `m[k] = v`: overwrite the value of the entry with an equivalent key,
or insert a new entry at its place in the order. -/
def map_assign (lt : K → K → Bool) (k : K) (v : V) : List (K × V) → List (K × V)
  | [] => [(k, v)]
  | e :: rest =>
    if lt k e.1 then (k, v) :: e :: rest
    else if lt e.1 k then e :: map_assign lt k v rest
    else (e.1, v) :: rest

/-- The lookup `m.find(k)` as an iterator: the suffix that starts at the entry
with an equivalent key, `[]` (that is `end()`) when there is none. -/
def map_find (lt : K → K → Bool) (k : K) : List (K × V) → List (K × V)
  | [] => []
  | e :: rest => if map_equiv lt e.1 k then e :: rest else map_find lt k rest

/-- The removal `m.erase(k)` by key. -/
def map_erase (lt : K → K → Bool) (k : K) : List (K × V) → List (K × V)
  | [] => []
  | e :: rest => if map_equiv lt e.1 k then rest else e :: map_erase lt k rest

/-- A write through a reference to the mapped value of the entry found for `k`. -/
def map_write (lt : K → K → Bool) (k : K) (v : V) : List (K × V) → List (K × V)
  | [] => []
  | e :: rest => if map_equiv lt e.1 k then (e.1, v) :: rest else e :: map_write lt k v rest

end map

/-- The comparator of `viewer_map` (`std::less<viwer_id_type>`). -/
def id_lt (a b : Nat) : Bool := decide (a < b)

/-- The data members of the class `passage` (locks and condition variables left out). -/
structure passage where
  display_limit : Nat
  storage_limit : Nat
  artifact_map : List (artifact_index × artifact)
  storage_list : List (Nat × artifact)
  viewer_map : List (Nat × artifact_index)
  deriving DecidableEq, Repr

/-- The constructor `passage::passage(display_limit, storage_limit)`; `now` is the clock reading. -/
def passage.construct (display_limit storage_limit now : Nat) : passage :=
  { display_limit := if display_limit < 10 then 10 else display_limit
    storage_limit := if storage_limit < 10 then 10 else storage_limit
    artifact_map := map_assign artifact_index.lt
      { timestamp := now % U64, index := 0 } artifact.empty []
    storage_list := []
    viewer_map := [] }

/-- The loop of the lambda `task` in `passage::decorate` that drains `storage_list`
into the map, returning the map and `current_index` after it. -/
def task_drain : List (Nat × artifact) → artifact_index → List (artifact_index × artifact) →
    List (artifact_index × artifact) × artifact_index
  | [], current_index, m => (m, current_index)
  | p :: rest, current_index, m =>
    let current_index : artifact_index :=
      { timestamp := p.1, index := (current_index.index + 1) % U64 }
    task_drain rest current_index (map_assign artifact_index.lt current_index p.2 m)

/-- The lambda `task` of `passage::decorate` (flush and append). -/
def task (s : passage) (art : artifact) (now : Nat) : Option passage :=
  match s.artifact_map.getLast? with
  | none => none
  | some last =>
    let r := task_drain s.storage_list last.1 s.artifact_map
    let current_index : artifact_index :=
      { timestamp := now % U64, index := (r.2.index + 1) % U64 }
    some { s with
      artifact_map := map_assign artifact_index.lt current_index art r.1
      storage_list := [] }

/-- The method `passage::decorate`; `acquired` is the result of `working_lock.try_lock()`. -/
def decorate (s : passage) (art : artifact) (now : Nat) (acquired : Bool) : Option passage :=
  if acquired then task s art now
  else if s.storage_list.length < s.storage_limit ∧
      art.type ≠ artifact_type.ENTER ∧
      art.type ≠ artifact_type.END ∧
      art.type ≠ artifact_type.ERROR then
    some { s with storage_list := s.storage_list ++ [(now % U64, art)] }
  else task s art now

/-- The loop of `passage::dismantle`: erase `begin()` while the size exceeds the limit. -/
def dismantle_loop (display_limit : Nat) :
    List (artifact_index × artifact) → List (artifact_index × artifact)
  | [] => []
  | e :: rest =>
    if (e :: rest).length > display_limit then dismantle_loop display_limit rest
    else e :: rest

/-- The method `passage::dismantle`. -/
def dismantle (s : passage) : passage :=
  { s with artifact_map := dismantle_loop s.display_limit s.artifact_map }

/-- The first loop of `passage::clear_all_viewed`: the least cursor, seeded with the argument. -/
def newest_all_viewed_loop : List (Nat × artifact_index) → artifact_index → artifact_index
  | [], newest_all_viewed => newest_all_viewed
  | p :: rest, newest_all_viewed =>
    newest_all_viewed_loop rest
      (if p.2.lt newest_all_viewed then p.2 else newest_all_viewed)

/-- The second loop of `passage::clear_all_viewed`: erase from `begin()` while the key
is below the bound, stop at the first key that is not. -/
def clear_loop (newest_all_viewed : artifact_index) :
    List (artifact_index × artifact) → List (artifact_index × artifact)
  | [] => []
  | e :: rest =>
    if e.1.lt newest_all_viewed then clear_loop newest_all_viewed rest
    else e :: rest

/-- The method `passage::clear_all_viewed`. -/
def clear_all_viewed (s : passage) : passage :=
  if s.artifact_map.length < s.display_limit then s
  else
    let newest_all_viewed := newest_all_viewed_loop s.viewer_map artifact_index.max
    { s with artifact_map := clear_loop newest_all_viewed s.artifact_map }

/-- The method `passage::subscribe`. -/
def subscribe (s : passage) (id : Nat) : passage :=
  { s with viewer_map := map_assign id_lt id { timestamp := 0, index := 0 } s.viewer_map }

/-- The method `passage::unsubscribe`. -/
def unsubscribe (s : passage) (id : Nat) : passage :=
  { s with viewer_map := map_erase id_lt id s.viewer_map }

/-- The method `passage::number_of_displayed`. -/
def number_of_displayed (s : passage) : Nat := s.artifact_map.length

/-- The method `passage::size_of_storage`. -/
def size_of_storage (s : passage) : Nat := s.storage_list.length

/-- The bytes of the array `error_msg` in `passage::view`: the characters of
"viewer id not found" and the terminating zero, `sizeof(error_msg)` = 20 in all. -/
def error_msg : List Nat :=
  [118, 105, 101, 119, 101, 114, 32, 105, 100, 32, 110, 111, 116, 32,
   102, 111, 117, 110, 100, 0]

/-- The artifact `error` built by `passage::view` for an unknown viewer. -/
def error_artifact : artifact :=
  { type := artifact_type.ERROR, data := some error_msg, data_length := error_msg.length }

/-- The do-while loop of `passage::view`, entered with the iterator at entry `e`
followed by `rest`: returns `artifact_list` and the viewer's index after the loop. -/
def view_loop (e : artifact_index × artifact) :
    List (artifact_index × artifact) → Nat → List artifact → List artifact × artifact_index
  | [], _, artifact_list => (artifact_list ++ [e.2], e.1)
  | e' :: rest, n, artifact_list =>
    let n := (n + (U64 - 1)) % U64
    if n ≠ 0 then view_loop e' rest n (artifact_list ++ [e.2])
    else (artifact_list ++ [e.2], e.1)

/-- The method `passage::view`: the returned list and the state afterwards. -/
def view (s : passage) (id : Nat) (n : Nat) : Option (List artifact × passage) :=
  match map_find id_lt id s.viewer_map with
  | [] => some ([error_artifact], s)
  | viewer :: _ =>
    match s.artifact_map.getLast? with
    | none => none
    | some newest =>
      if viewer.2.eq newest.1 then some ([], s)
      else
        let found := map_find artifact_index.lt viewer.2 s.artifact_map
        let it := match found with
          | [] => s.artifact_map
          | _ :: after => after
        match it with
        | [] => none
        | e :: rest =>
          let r := view_loop e rest n []
          some (r.1, { s with viewer_map := map_write id_lt id r.2 s.viewer_map })

/-! ## Notions used to state the properties -/

/-- The invariant of a `std::map`: along the iteration order the keys strictly increase. -/
@[reducible] def map_ok {K V : Type} (lt : K → K → Bool) (m : List (K × V)) : Prop :=
  m.Pairwise (fun x y => lt x.1 y.1 = true)

/-- The cursor that `viewer_map.find(id)` yields, `none` when `id` is not subscribed. -/
def cursor (s : passage) (id : Nat) : Option artifact_index :=
  match map_find id_lt id s.viewer_map with
  | [] => none
  | viewer :: _ => some viewer.2

/-- The key of the newest entry, `artifact_map.rbegin()->first`. -/
def newest_key (s : passage) : Option artifact_index :=
  s.artifact_map.getLast?.map Prod.fst

/-- Both fields of an index fit `uint64_t`. -/
@[reducible] def artifact_index.in_range (a : artifact_index) : Prop :=
  a.timestamp < U64 ∧ a.index < U64

/-- The entries a flush gives to the pending pairs: arrival timestamp kept,
sequence numbers counting up from `i + 1`. -/
def flushed (i : Nat) : List (Nat × artifact) → List (artifact_index × artifact)
  | [] => []
  | p :: rest => ({ timestamp := p.1, index := i + 1 }, p.2) :: flushed (i + 1) rest

/-- A run of uncontended `decorate` calls (`try_lock` succeeds each time), one per
pair of clock reading and artifact. -/
def decorate_all : passage → List (Nat × artifact) → Option passage
  | s, [] => some s
  | s, p :: rest =>
    match decorate s p.2 p.1 true with
    | none => none
    | some s' => decorate_all s' rest

/-- The number of entries the loop of `view` collects at most for the argument `n`:
the counter is decremented before it is tested, so that 0 wraps to `2 ^ 64 - 1` after
the first entry. -/
def view_count (n : Nat) : Nat := if n = 0 then U64 else n

/-- The zero cursor `{0, 0}` that `subscribe` assigns. -/
def zero_cursor : artifact_index := { timestamp := 0, index := 0 }

/-! ## Runs of operations -/

/-- A call of one of the state-changing public operations of `passage`, with the inputs
the embedding adds to it (clock reading and outcome of `try_lock` for `decorate`). -/
inductive operation where
  | decorate (art : artifact) (now : Nat) (acquired : Bool)
  | dismantle
  | clear_all_viewed
  | subscribe (id : Nat)
  | unsubscribe (id : Nat)
  | view (id : Nat) (n : Nat)
  deriving DecidableEq, Repr

/-- The state after one call, `none` when the call has no defined result. -/
def step (s : passage) : operation → Option passage
  | operation.decorate art now acquired => decorate s art now acquired
  | operation.dismantle => some (dismantle s)
  | operation.clear_all_viewed => some (clear_all_viewed s)
  | operation.subscribe id => some (subscribe s id)
  | operation.unsubscribe id => some (unsubscribe s id)
  | operation.view id n => (view s id n).map Prod.snd

/-- The state after a sequence of calls. -/
def run : passage → List operation → Option passage
  | s, [] => some s
  | s, op :: rest =>
    match step s op with
    | none => none
    | some s' => run s' rest

/-- The clock readings of the `decorate` calls of a sequence, in call order. -/
def readings : List operation → List Nat
  | [] => []
  | operation.decorate _ now _ :: rest => now :: readings rest
  | _ :: rest => readings rest

/-- Along the run from `s`, every call of `clear_all_viewed` is made while at least one
viewer is subscribed. -/
def clear_with_viewers : passage → List operation → Bool
  | _, [] => true
  | s, op :: rest =>
    (match op with
      | operation.clear_all_viewed => !s.viewer_map.isEmpty
      | _ => true) &&
    (match step s op with
      | none => true
      | some s' => clear_with_viewers s' rest)

/-- Every cursor of the registry is at most some key of the log (hence at most the
newest key of a well-formed log). -/
def cursors_bounded (s : passage) : Prop :=
  ∀ p ∈ s.viewer_map, ∃ e ∈ s.artifact_map, e.1.lt p.2 = false

/-- The invariant behind the "newest entry" lookups: the log is a non-empty well-formed
map, `display_limit` is at least 10 and no cursor is above the newest key. -/
def log_invariant (s : passage) : Prop :=
  s.artifact_map ≠ [] ∧ map_ok artifact_index.lt s.artifact_map ∧ 10 ≤ s.display_limit ∧
    cursors_bounded s

/-- A cursor is either a key of the log or below every key of the log (the zero cursor
of `subscribe`, or the key of an evicted entry). -/
def cursor_placed (c : artifact_index) (m : List (artifact_index × artifact)) : Prop :=
  c ∈ m.map Prod.fst ∨ ∀ e ∈ m, c.lt e.1 = true

/-- The invariant of runs with a non-decreasing clock: log and registry are well-formed
maps, the timestamps of the newest key and of the pending entries are non-decreasing
and at most the last clock reading, the newest sequence number plus the number of
pending entries is at most the number of `decorate` calls so far, and every cursor is
placed. -/
def order_invariant (s : passage) (clock count : Nat) : Prop :=
  map_ok artifact_index.lt s.artifact_map ∧ map_ok id_lt s.viewer_map ∧
    (∀ last, s.artifact_map.getLast? = some last →
      (last.1.timestamp :: s.storage_list.map Prod.fst ++ [clock]).Pairwise
        (fun a b => a ≤ b) ∧
      last.1.index + s.storage_list.length ≤ count) ∧
    (∀ p ∈ s.viewer_map, cursor_placed p.2 s.artifact_map)

/-- The entries of the log with a key above `c` and not above `c'`. -/
def entries_between (s : passage) (c c' : artifact_index) :
    List (artifact_index × artifact) :=
  s.artifact_map.filter (fun e => c.lt e.1 && !c'.lt e.1)

/-- The order "at most" on the cursor of a viewer before and after some calls, an
unsubscribed viewer (`none`) staying unsubscribed. -/
def cursor_le : Option artifact_index → Option artifact_index → Prop
  | _, none => True
  | none, some _ => False
  | some c, some c' => c'.lt c = false

/-! ## Lock events -/

/-- The three locks of `passage` that guard its data: `working` guards the log
`artifact_map`, `work_sync` the pending buffer `storage_list`, `subscribing` the
registry `viewer_map`. -/
inductive lock_name where
  | working
  | work_sync
  | subscribing
  deriving DecidableEq, Repr

/-- What a thread does to a lock: acquire it (constructor of a lock object, `lock()`, a
successful `try_lock()`) or release it (`unlock()`, destructor of the lock object). -/
inductive lock_event where
  | acquire (l : lock_name)
  | release (l : lock_name)
  deriving DecidableEq, Repr

/-- The lock events of one call, in program order, along the branch the call takes in
state `s`: `decorate` (corridor.cpp:114-133, the lock objects are destroyed in reverse
order of construction), `dismantle` (138), `clear_all_viewed` (147-161), `subscribe`
(177), `unsubscribe` (183), `view` (199-213). A failed `try_lock()` acquires nothing.
`number_of_displayed` and `size_of_storage` take no lock; `wait` and `receive` take
mutexes other than these three. -/
def lock_events (s : passage) : operation → List lock_event
  | operation.decorate art _ acquired =>
    [lock_event.acquire lock_name.work_sync] ++
    (if acquired then
      [lock_event.acquire lock_name.working, lock_event.release lock_name.working]
    else if s.storage_list.length < s.storage_limit ∧
        art.type ≠ artifact_type.ENTER ∧
        art.type ≠ artifact_type.END ∧
        art.type ≠ artifact_type.ERROR then []
    else [lock_event.acquire lock_name.working, lock_event.release lock_name.working]) ++
    [lock_event.release lock_name.work_sync]
  | operation.dismantle =>
    [lock_event.acquire lock_name.working, lock_event.release lock_name.working]
  | operation.clear_all_viewed =>
    if s.artifact_map.length < s.display_limit then []
    else [lock_event.acquire lock_name.subscribing, lock_event.release lock_name.subscribing,
      lock_event.acquire lock_name.working, lock_event.release lock_name.working]
  | operation.subscribe _ =>
    [lock_event.acquire lock_name.subscribing, lock_event.release lock_name.subscribing]
  | operation.unsubscribe _ =>
    [lock_event.acquire lock_name.subscribing, lock_event.release lock_name.subscribing]
  | operation.view id _ =>
    match map_find id_lt id s.viewer_map with
    | [] =>
      [lock_event.acquire lock_name.subscribing, lock_event.release lock_name.subscribing]
    | _ :: _ =>
      [lock_event.acquire lock_name.subscribing, lock_event.release lock_name.subscribing,
        lock_event.acquire lock_name.working, lock_event.release lock_name.working]

/-- The locks held after an event, given the locks held before it. -/
def held_after (held : List lock_name) : lock_event → List lock_name
  | lock_event.acquire l => l :: held
  | lock_event.release l => held.erase l

/-- The largest number of locks held at once along a sequence of events. -/
def max_held : List lock_name → List lock_event → Nat
  | held, [] => held.length
  | held, ev :: rest => max held.length (max_held (held_after held ev) rest)

/-- The locks held when the sequence of events is over. -/
def held_at_end : List lock_name → List lock_event → List lock_name
  | held, [] => held
  | held, ev :: rest => held_at_end (held_after held ev) rest

/-- The locks among the three that the sequence of events acquires. -/
def locks_acquired (events : List lock_event) : List lock_name :=
  [lock_name.working, lock_name.work_sync, lock_name.subscribing].filter
    (fun l => decide (lock_event.acquire l ∈ events))

/-- Whether the sequence of events acquires `target` at a moment when `first` is held. -/
def acquires_while_holding (first target : lock_name) :
    List lock_name → List lock_event → Bool
  | _, [] => false
  | held, ev :: rest =>
    (decide (ev = lock_event.acquire target) && decide (first ∈ held)) ||
      acquires_while_holding first target (held_after held ev) rest

/-- The locks a sequence of events acquires, in the order of acquisition. -/
def acquisitions : List lock_event → List lock_name
  | [] => []
  | lock_event.acquire l :: rest => l :: acquisitions rest
  | lock_event.release _ :: rest => acquisitions rest

/-- The locks a sequence of events releases, in the order of release. -/
def releases : List lock_event → List lock_name
  | [] => []
  | lock_event.acquire _ :: rest => releases rest
  | lock_event.release l :: rest => l :: releases rest

/-- The branch of `decorate` that buffers the artifact: the lock attempt failed, the
pending buffer has room and the kind is none of ENTER, END, ERROR. -/
def decorate_buffers (s : passage) (art : artifact) (acquired : Bool) : Prop :=
  acquired = false ∧ s.storage_list.length < s.storage_limit ∧
    art.type ≠ artifact_type.ENTER ∧ art.type ≠ artifact_type.END ∧
    art.type ≠ artifact_type.ERROR

/-! ## Concrete states -/

/-- A Data artifact with a one-byte payload. -/
def data_artifact (b : Nat) : artifact :=
  { type := artifact_type.EMBEDED, data := some [b], data_length := 1 }

/-- A passage holding the bootstrap entry and three Data entries, with viewer 1 at the
second entry and viewer 2 freshly subscribed, and limits 3 and 10. -/
def sample_passage : passage :=
  { display_limit := 3
    storage_limit := 10
    artifact_map :=
      [({ timestamp := 100, index := 0 }, artifact.empty),
       ({ timestamp := 101, index := 1 }, data_artifact 1),
       ({ timestamp := 102, index := 2 }, data_artifact 2),
       ({ timestamp := 103, index := 3 }, data_artifact 3)]
    storage_list := []
    viewer_map := [(1, { timestamp := 101, index := 1 }), (2, { timestamp := 0, index := 0 })] }

/-- The state `sample_passage` with viewer 1 at the second entry and viewer 2 at the third. -/
def sample_read_passage : passage :=
  { sample_passage with
    viewer_map := [(1, { timestamp := 101, index := 1 }), (2, { timestamp := 102, index := 2 })] }

/-- The state `sample_passage` with no viewer subscribed. -/
def sample_empty_passage : passage :=
  { sample_passage with viewer_map := [] }

/-- The state reached from `passage.construct 10 10 100` by one uncontended `decorate`
whose clock reading, 50, is earlier than the reading at construction. -/
def sample_regressed_passage : passage :=
  { display_limit := 10
    storage_limit := 10
    artifact_map :=
      [({ timestamp := 50, index := 1 }, data_artifact 1),
       ({ timestamp := 100, index := 0 }, artifact.empty)]
    storage_list := []
    viewer_map := [] }

/-- Five Data artifacts with the clock readings of their `decorate` calls. -/
def sample_submissions : List (Nat × artifact) :=
  [(101, data_artifact 1), (102, data_artifact 2), (103, data_artifact 3),
   (104, data_artifact 4), (105, data_artifact 5)]

/-- The state `sample_passage` with two Data artifacts waiting in the pending buffer. -/
def sample_pending_passage : passage :=
  { sample_passage with storage_list := [(104, data_artifact 4), (105, data_artifact 5)] }

/-- The state `sample_passage` with viewer 1 at the newest entry. -/
def sample_read_all_passage : passage :=
  { sample_passage with
    viewer_map := [(1, { timestamp := 103, index := 3 }), (2, { timestamp := 0, index := 0 })] }

/-- The state of a passage constructed with limits 10 and 10 at clock reading 100 whose
log holds the bootstrap entry and the Data entries `(100 + i, i)` for `i = 1..k`, with
an empty pending buffer and viewer 1 at the cursor `(t, i)`. -/
def sample_run_state (k t i : Nat) : passage :=
  { display_limit := 10
    storage_limit := 10
    artifact_map := ({ timestamp := 100, index := 0 }, artifact.empty) ::
      (List.range k).map (fun j =>
        (({ timestamp := 101 + j, index := j + 1 } : artifact_index), data_artifact (j + 1)))
    storage_list := []
    viewer_map := [(1, { timestamp := t, index := i })] }

/-- A state with no viewer, `display_limit` 1 and a log whose newest key is the sentinel
`artifact_index::max()`. -/
def sample_sentinel_passage : passage :=
  { display_limit := 1
    storage_limit := 10
    artifact_map :=
      [({ timestamp := 100, index := 0 }, artifact.empty),
       (artifact_index.max, data_artifact 1)]
    storage_list := []
    viewer_map := [] }

/-- A state whose only entry has the largest sequence number, with viewer 1 at it. -/
def sample_last_sequence_passage : passage :=
  { display_limit := 10
    storage_limit := 10
    artifact_map := [({ timestamp := 100, index := U64 - 1 }, artifact.empty)]
    storage_list := []
    viewer_map := [(1, { timestamp := 100, index := U64 - 1 })] }

/-- Calls after `construct(10, 10)` at clock reading 100, every `decorate` reading the
clock at 50: viewer 1 subscribes, two artifacts are buffered and a third call flushes. -/
def sample_early_calls : List operation :=
  [operation.subscribe 1, operation.decorate (data_artifact 1) 50 false,
    operation.decorate (data_artifact 2) 50 false,
    operation.decorate (data_artifact 3) 50 true]

/-- Further calls at clock reading 50: ten artifacts are buffered, an eleventh call
flushes, `dismantle` evicts the two oldest entries, then one more uncontended call. -/
def sample_early_calls_after : List operation :=
  (List.range 10).map (fun i => operation.decorate (data_artifact (4 + i)) 50 false) ++
    [operation.decorate (data_artifact 14) 50 true, operation.dismantle,
      operation.decorate (data_artifact 15) 50 true]

/-! ## The order on indices -/

theorem artifact_index.lt_iff (a b : artifact_index) :
    a.lt b = true ↔
      a.timestamp < b.timestamp ∨ (a.timestamp = b.timestamp ∧ a.index < b.index) := by
  unfold artifact_index.lt
  split_ifs <;> simp_all

theorem artifact_index.lt_irrefl (a : artifact_index) : a.lt a = false := by
  rw [Bool.eq_false_iff, Ne, artifact_index.lt_iff]
  omega

theorem artifact_index.lt_asymm {a b : artifact_index} (h : a.lt b = true) :
    b.lt a = false := by
  rw [artifact_index.lt_iff] at h
  rw [Bool.eq_false_iff, Ne, artifact_index.lt_iff]
  omega

theorem artifact_index.lt_trans {a b c : artifact_index} (h : a.lt b = true)
    (h' : b.lt c = true) : a.lt c = true := by
  rw [artifact_index.lt_iff] at *
  omega

theorem artifact_index.eq_iff (a b : artifact_index) : a.eq b = true ↔ a = b := by
  cases a
  cases b
  simp [artifact_index.eq]

theorem artifact_index.equiv_iff (a b : artifact_index) :
    map_equiv artifact_index.lt a b = true ↔ a = b := by
  cases a
  cases b
  simp only [map_equiv, Bool.and_eq_true, Bool.not_eq_true', ← Bool.not_eq_true,
    artifact_index.lt_iff, artifact_index.mk.injEq]
  omega

theorem id_equiv_iff (a b : Nat) : map_equiv id_lt a b = true ↔ a = b := by
  simp only [map_equiv, id_lt, Bool.and_eq_true, Bool.not_eq_true', decide_eq_false_iff_not]
  omega

/-! ## Lookups in a map -/

section map_lemmas
variable {K V : Type} {lt : K → K → Bool}

theorem map_find_eq_nil (hequiv : ∀ a b, map_equiv lt a b = true ↔ a = b) (k : K)
    (m : List (K × V)) : map_find lt k m = [] ↔ ∀ e ∈ m, e.1 ≠ k := by
  induction m with
  | nil => simp [map_find]
  | cons e rest ih =>
    by_cases h : e.1 = k
    · have hq := (hequiv e.1 k).2 h
      simp only [map_find, hq, if_true]
      simp [h]
    · have h' : ¬ map_equiv lt e.1 k = true := fun hc => h ((hequiv e.1 k).1 hc)
      simp [map_find, h', ih, h]

theorem map_find_split (hequiv : ∀ a b, map_equiv lt a b = true ↔ a = b) (k : K) (v : V)
    (pre post : List (K × V)) (hpre : ∀ e ∈ pre, e.1 ≠ k) :
    map_find lt k (pre ++ (k, v) :: post) = (k, v) :: post := by
  induction pre with
  | nil => simp [map_find, (hequiv k k).2 rfl]
  | cons e rest ih =>
    have h : ¬ map_equiv lt e.1 k = true :=
      fun hc => hpre e (List.mem_cons_self _ _) ((hequiv e.1 k).1 hc)
    simp only [List.cons_append, map_find, h, if_false]
    exact ih (fun x hx => hpre x (List.mem_cons_of_mem _ hx))

theorem map_write_find (hequiv : ∀ a b, map_equiv lt a b = true ↔ a = b) (k : K) (v : V)
    (m : List (K × V)) (hfound : map_find lt k m ≠ []) :
    ∃ tail, map_find lt k (map_write lt k v m) = (k, v) :: tail := by
  induction m with
  | nil => simp [map_find] at hfound
  | cons e rest ih =>
    by_cases h : map_equiv lt e.1 k = true
    · have hk : e.1 = k := (hequiv e.1 k).1 h
      refine ⟨rest, ?_⟩
      simp only [map_write, h, if_true, map_find]
      simp [hk]
    · simp only [map_find, h, if_false] at hfound
      obtain ⟨tail, ht⟩ := ih hfound
      exact ⟨tail, by simp [map_write, map_find, h, ht]⟩

end map_lemmas

theorem sorted_split {m : List (artifact_index × artifact)} (hm : map_ok artifact_index.lt m)
    {c : artifact_index} (hc : c ∈ m.map Prod.fst) :
    ∃ pre v post, m = pre ++ (c, v) :: post ∧ (∀ e ∈ pre, e.1.lt c = true) ∧
      (∀ e ∈ post, c.lt e.1 = true) := by
  obtain ⟨⟨c', v⟩, hmem, rfl⟩ := List.mem_map.1 hc
  obtain ⟨pre, post, rfl⟩ := List.append_of_mem hmem
  refine ⟨pre, v, post, rfl, ?_, ?_⟩
  · intro e he
    exact (List.pairwise_append.1 hm).2.2 e he _ (List.mem_cons_self _ _)
  · intro e he
    exact List.rel_of_pairwise_cons (List.pairwise_append.1 hm).2.1 he

theorem filter_after_split {c : artifact_index} {v : artifact}
    {pre post : List (artifact_index × artifact)} (hpre : ∀ e ∈ pre, e.1.lt c = true)
    (hpost : ∀ e ∈ post, c.lt e.1 = true) :
    (pre ++ (c, v) :: post).filter (fun e => c.lt e.1) = post := by
  rw [List.filter_append, List.filter_cons]
  have h1 : pre.filter (fun e => c.lt e.1) = [] := by
    rw [List.filter_eq_nil_iff]
    intro e he
    simp [artifact_index.lt_asymm (hpre e he)]
  have h2 : post.filter (fun e => c.lt e.1) = post := by
    rw [List.filter_eq_self]
    exact hpost
  simp [h1, h2, artifact_index.lt_irrefl]

/-! ## The loop of `view` -/

theorem view_loop_spec (rest : List (artifact_index × artifact)) :
    ∀ (e : artifact_index × artifact) (n : Nat) (acc : List artifact), 1 ≤ n → n < U64 →
      (view_loop e rest n acc).1 = acc ++ ((e :: rest).take n).map Prod.snd ∧
      some (view_loop e rest n acc).2 = ((e :: rest).take n).getLast?.map Prod.fst := by
  induction rest with
  | nil =>
    intro e n acc h1 _
    obtain ⟨n, rfl⟩ : ∃ j, n = j + 1 := ⟨n - 1, by omega⟩
    simp [view_loop]
  | cons e' rest ih =>
    intro e n acc h1 h2
    obtain ⟨n, rfl⟩ : ∃ j, n = j + 1 := ⟨n - 1, by omega⟩
    have hn : (n + 1 + (U64 - 1)) % U64 = n := by
      unfold U64 at *
      omega
    by_cases h0 : n = 0
    · subst h0
      simp [view_loop, hn]
    · have := ih e' n (acc ++ [e.2]) (by omega) (by omega)
      obtain ⟨j, rfl⟩ : ∃ j, n = j + 1 := ⟨n - 1, by omega⟩
      simp only [view_loop, hn, ne_eq, h0, not_false_eq_true, if_true]
      refine ⟨?_, ?_⟩
      · rw [this.1]
        simp
      · rw [this.2]
        simp [List.getLast?_cons_cons]

/-! ## The read path -/

theorem cursor_write (s : passage) (id : Nat) (k : artifact_index)
    (h : cursor s id ≠ none) :
    cursor { s with viewer_map := map_write id_lt id k s.viewer_map } id = some k := by
  have hfound : map_find id_lt id s.viewer_map ≠ [] := by
    intro hc
    simp [cursor, hc] at h
  obtain ⟨tail, ht⟩ := map_write_find id_equiv_iff id k s.viewer_map hfound
  simp [cursor, ht]

theorem view_from (s : passage) (id n : Nat) (c : artifact_index)
    (e : artifact_index × artifact) (rest : List (artifact_index × artifact))
    (hcur : cursor s id = some c) (hne : s.artifact_map ≠ [])
    (hnew : newest_key s ≠ some c)
    (hit : (match map_find artifact_index.lt c s.artifact_map with
      | [] => s.artifact_map
      | _ :: after => after) = e :: rest)
    (h1 : 1 ≤ n) (h2 : n < U64) :
    ∃ k, ((e :: rest).take n).getLast?.map Prod.fst = some k ∧
      view s id n = some (((e :: rest).take n).map Prod.snd,
        { s with viewer_map := map_write id_lt id k s.viewer_map }) ∧
      cursor { s with viewer_map := map_write id_lt id k s.viewer_map } id = some k := by
  obtain ⟨hl1, hl2⟩ := view_loop_spec rest e n [] h1 h2
  refine ⟨(view_loop e rest n []).2, hl2.symm, ?_, cursor_write s id _ (by simp [hcur])⟩
  unfold cursor at hcur
  unfold view
  split at hcur
  · simp at hcur
  · rename_i viewer tail hv
    simp only [Option.some.injEq] at hcur
    obtain ⟨newest, hlast⟩ : ∃ x, s.artifact_map.getLast? = some x := by
      cases hm : s.artifact_map.getLast? with
      | none => exact absurd (List.getLast?_eq_none_iff.1 hm) hne
      | some x => exact ⟨x, rfl⟩
    rw [hlast]
    simp only
    have hneq : viewer.2.eq newest.1 = false := by
      rw [Bool.eq_false_iff, Ne, artifact_index.eq_iff, hcur]
      intro hc
      apply hnew
      simp [newest_key, hlast, hc]
    rw [hneq, hcur]
    simp only [Bool.false_eq_true, if_false]
    rw [hit]
    simp only [hl1, List.nil_append]

theorem view_caught_up (s : passage) (id n : Nat) (c : artifact_index)
    (hcur : cursor s id = some c) (hnew : newest_key s = some c) :
    view s id n = some ([], s) := by
  unfold cursor at hcur
  unfold view
  split at hcur
  · simp at hcur
  · rename_i viewer tail hv
    simp only [Option.some.injEq] at hcur
    unfold newest_key at hnew
    cases hm : s.artifact_map.getLast? with
    | none => simp [hm] at hnew
    | some x =>
      simp only [hm, Option.map_some', Option.some.injEq] at hnew
      have : viewer.2.eq x.1 = true := by
        rw [artifact_index.eq_iff, hcur, hnew]
      simp [this]

/-! ## Claims on `view` -/

/-- C2: in a state whose log is a well-formed map, for a viewer `id` whose cursor `c`
is a key of the log and a count `1 ≤ n` (a `size_t`): if `c` is not the newest key,
`view id n` returns the artifacts of the first `min n k` entries with a key strictly
above `c` (`k` the number of such entries), in increasing key order, and sets the
cursor of `id` to the key of the last entry returned, leaving the rest of the state
as it was; if `c` is the newest key, `view` returns the empty list and the state is
unchanged. -/
theorem view_returns_entries_after_cursor (s : passage) (id n : Nat) (c : artifact_index)
    (hok : map_ok artifact_index.lt s.artifact_map)
    (hcur : cursor s id = some c)
    (hc : c ∈ s.artifact_map.map Prod.fst)
    (h1 : 1 ≤ n) (h2 : n < U64) :
    (newest_key s ≠ some c →
      (∃ k, ((s.artifact_map.filter (fun e => c.lt e.1)).take n).getLast?.map Prod.fst
            = some k ∧
          view s id n =
            some (((s.artifact_map.filter (fun e => c.lt e.1)).take n).map Prod.snd,
              { s with viewer_map := map_write id_lt id k s.viewer_map }) ∧
          cursor { s with viewer_map := map_write id_lt id k s.viewer_map } id = some k) ∧
        ((s.artifact_map.filter (fun e => c.lt e.1)).take n).length
          = min n (s.artifact_map.filter (fun e => c.lt e.1)).length ∧
        map_ok artifact_index.lt ((s.artifact_map.filter (fun e => c.lt e.1)).take n)) ∧
    (newest_key s = some c → view s id n = some ([], s)) := by
  refine ⟨fun hnew => ?_, fun hnew => view_caught_up s id n c hcur hnew⟩
  obtain ⟨pre, v, post, hm, hpre, hpost⟩ := sorted_split hok hc
  have hfilter : s.artifact_map.filter (fun e => c.lt e.1) = post := by
    rw [hm]
    exact filter_after_split hpre hpost
  have hne : s.artifact_map ≠ [] := by
    rw [hm]
    simp
  cases post with
  | nil =>
    exfalso
    apply hnew
    simp [newest_key, hm]
  | cons e rest =>
    have hfind : map_find artifact_index.lt c s.artifact_map = (c, v) :: e :: rest := by
      rw [hm]
      apply map_find_split artifact_index.equiv_iff
      intro x hx hxc
      have := hpre x hx
      rw [hxc, artifact_index.lt_irrefl] at this
      exact Bool.noConfusion this
    have hit : (match map_find artifact_index.lt c s.artifact_map with
        | [] => s.artifact_map
        | _ :: after => after) = e :: rest := by
      rw [hfind]
    rw [hfilter]
    refine ⟨view_from s id n c e rest hcur hne hnew hit h1 h2, List.length_take _ _, ?_⟩
    have hsorted : map_ok artifact_index.lt (e :: rest) := by
      have := hok
      rw [hm] at this
      exact (List.pairwise_cons.1 (List.pairwise_append.1 this).2.1).2
    exact List.Pairwise.sublist (List.take_sublist _ _) hsorted

/-- C3: for every state, every `id` that no entry of the viewer registry carries and
every `n`, `view id n` returns exactly one artifact, of kind ERROR, whose payload is
the 20 bytes of the C string "viewer id not found" (its 19 characters and the
terminating zero) with length 20, and leaves the whole state (log, pending buffer,
registry) unchanged. -/
theorem view_unknown_viewer (s : passage) (id n : Nat)
    (hid : ∀ p ∈ s.viewer_map, p.1 ≠ id) :
    view s id n = some ([error_artifact], s) ∧
      error_artifact.type = artifact_type.ERROR ∧
      error_artifact.data
        = some ("viewer id not found".toList.map Char.toNat ++ [0]) ∧
      error_artifact.data_length = 20 := by
  have hfind : map_find id_lt id s.viewer_map = [] :=
    (map_find_eq_nil id_equiv_iff id s.viewer_map).2 hid
  refine ⟨?_, rfl, by decide, rfl⟩
  unfold view
  rw [hfind]

/-- C4: in a state whose log is a non-empty well-formed map, for a viewer `id` whose
cursor `c` is not a key of the log and a count `1 ≤ n` (a `size_t`): `view id n`
returns the artifacts of the first `min n (size of the log)` entries of the log in
key order, the first of them being the artifact of the smallest key, and sets the
cursor to the key of the last entry returned. -/
theorem view_stale_cursor_starts_at_oldest (s : passage) (id n : Nat) (c : artifact_index)
    (hok : map_ok artifact_index.lt s.artifact_map)
    (hcur : cursor s id = some c)
    (hne : s.artifact_map ≠ [])
    (hc : c ∉ s.artifact_map.map Prod.fst)
    (h1 : 1 ≤ n) (h2 : n < U64) :
    (∃ k, (s.artifact_map.take n).getLast?.map Prod.fst = some k ∧
        view s id n = some ((s.artifact_map.take n).map Prod.snd,
          { s with viewer_map := map_write id_lt id k s.viewer_map }) ∧
        cursor { s with viewer_map := map_write id_lt id k s.viewer_map } id = some k) ∧
      (s.artifact_map.take n).length = min n s.artifact_map.length ∧
      (∃ e rest, s.artifact_map = e :: rest ∧ (∀ x ∈ rest, e.1.lt x.1 = true) ∧
        ((s.artifact_map.take n).map Prod.snd).head? = some e.2) := by
  have hfind : map_find artifact_index.lt c s.artifact_map = [] := by
    rw [map_find_eq_nil artifact_index.equiv_iff]
    intro e he hec
    exact hc (List.mem_map.2 ⟨e, he, hec⟩)
  obtain ⟨e, rest, hm⟩ := List.exists_cons_of_ne_nil hne
  · have hit : (match map_find artifact_index.lt c s.artifact_map with
        | [] => s.artifact_map
        | _ :: after => after) = e :: rest := by
      rw [hfind]
      exact hm
    have hnew : newest_key s ≠ some c := by
      intro hnew
      apply hc
      unfold newest_key at hnew
      cases hl : s.artifact_map.getLast? with
      | none => simp [hl] at hnew
      | some x =>
        simp only [hl, Option.map_some', Option.some.injEq] at hnew
        exact List.mem_map.2 ⟨x, List.mem_of_getLast?_eq_some hl, hnew⟩
    have hview := view_from s id n c e rest hcur hne hnew hit h1 h2
    rw [← hm] at hview
    refine ⟨hview, List.length_take _ _, e, rest, hm, ?_, ?_⟩
    · have := hok
      rw [hm] at this
      exact fun x hx => List.rel_of_pairwise_cons this hx
    · obtain ⟨j, rfl⟩ : ∃ j, n = j + 1 := ⟨n - 1, by omega⟩
      simp [hm]

theorem view_returns_entries_after_cursor_witness :
    map_ok artifact_index.lt sample_passage.artifact_map ∧
      cursor sample_passage 1 = some { timestamp := 101, index := 1 } ∧
      view sample_passage 1 1 = some ([data_artifact 2],
        { sample_passage with
          viewer_map := [(1, { timestamp := 102, index := 2 }),
            (2, { timestamp := 0, index := 0 })] }) := by
  have hok : map_ok artifact_index.lt sample_passage.artifact_map := by decide
  have hcur : cursor sample_passage 1 = some { timestamp := 101, index := 1 } := by decide
  refine ⟨hok, hcur, ?_⟩
  obtain ⟨⟨k, hk, hview, _⟩, _⟩ :=
    (view_returns_entries_after_cursor sample_passage 1 1 { timestamp := 101, index := 1 }
      hok hcur (by decide) (by decide) (by decide)).1 (by decide)
  rw [hview]
  have hk' : k = { timestamp := 102, index := 2 } := by
    have : (some k : Option artifact_index) = some { timestamp := 102, index := 2 } := by
      rw [← hk]
      decide
    exact Option.some.inj this
  subst hk'
  decide

theorem view_unknown_viewer_witness :
    (∀ p ∈ sample_passage.viewer_map, p.1 ≠ 7) ∧
      view sample_passage 7 5 = some ([error_artifact], sample_passage) :=
  ⟨by decide, (view_unknown_viewer sample_passage 7 5 (by decide)).1⟩

theorem view_stale_cursor_starts_at_oldest_witness :
    cursor sample_passage 2 = some { timestamp := 0, index := 0 } ∧
      { timestamp := 0, index := 0 } ∉ sample_passage.artifact_map.map Prod.fst ∧
      ∃ s, view sample_passage 2 2 = some ([artifact.empty, data_artifact 1], s) := by
  have hok : map_ok artifact_index.lt sample_passage.artifact_map := by decide
  have hcur : cursor sample_passage 2 = some { timestamp := 0, index := 0 } := by decide
  refine ⟨hcur, by decide, ?_⟩
  obtain ⟨⟨k, _, hview, _⟩, _⟩ :=
    view_stale_cursor_starts_at_oldest sample_passage 2 2 { timestamp := 0, index := 0 }
      hok hcur (by decide) (by decide) (by decide) (by decide)
  exact ⟨_, hview⟩

/-! ## The eviction paths -/

theorem dismantle_loop_eq_drop (display_limit : Nat) (m : List (artifact_index × artifact)) :
    dismantle_loop display_limit m = m.drop (m.length - display_limit) := by
  induction m with
  | nil => simp [dismantle_loop]
  | cons e rest ih =>
    by_cases h : (e :: rest).length > display_limit
    · simp only [dismantle_loop, h, if_true, ih]
      simp only [List.length_cons] at h ⊢
      have : rest.length + 1 - display_limit = (rest.length - display_limit) + 1 := by omega
      rw [this, List.drop_succ_cons]
    · simp only [dismantle_loop, h, if_false]
      simp only [List.length_cons] at h ⊢
      have : rest.length + 1 - display_limit = 0 := by omega
      rw [this, List.drop_zero]

theorem artifact_index.eq_of_not_lt {a b : artifact_index} (h : a.lt b = false)
    (h' : b.lt a = false) : a = b := by
  apply (artifact_index.equiv_iff a b).1
  simp [map_equiv, h, h']

theorem newest_all_viewed_loop_spec (vm : List (Nat × artifact_index)) :
    ∀ seed : artifact_index,
      (newest_all_viewed_loop vm seed = seed ∨
        newest_all_viewed_loop vm seed ∈ vm.map Prod.snd) ∧
      seed.lt (newest_all_viewed_loop vm seed) = false ∧
      ∀ p ∈ vm, p.2.lt (newest_all_viewed_loop vm seed) = false := by
  induction vm with
  | nil =>
    intro seed
    simp [newest_all_viewed_loop, artifact_index.lt_irrefl]
  | cons p rest ih =>
    intro seed
    simp only [newest_all_viewed_loop]
    by_cases hp : p.2.lt seed = true
    · simp only [hp, if_true]
      obtain ⟨h1, h2, h3⟩ := ih p.2
      refine ⟨?_, ?_, ?_⟩
      · rcases h1 with h1 | h1
        · right
          rw [h1]
          simp
        · right
          exact List.mem_map.2 (by
            obtain ⟨q, hq, hq'⟩ := List.mem_map.1 h1
            exact ⟨q, List.mem_cons_of_mem _ hq, hq'⟩)
      · rw [Bool.eq_false_iff]
        intro hc
        have := artifact_index.lt_trans hp hc
        rw [h2] at this
        exact Bool.noConfusion this
      · intro q hq
        rcases List.mem_cons.1 hq with rfl | hq
        · exact h2
        · exact h3 q hq
    · rw [Bool.not_eq_true] at hp
      simp only [hp, Bool.false_eq_true, if_false]
      obtain ⟨h1, h2, h3⟩ := ih seed
      refine ⟨?_, h2, ?_⟩
      · rcases h1 with h1 | h1
        · left
          exact h1
        · right
          exact List.mem_map.2 (by
            obtain ⟨q, hq, hq'⟩ := List.mem_map.1 h1
            exact ⟨q, List.mem_cons_of_mem _ hq, hq'⟩)
      · intro q hq
        rcases List.mem_cons.1 hq with rfl | hq
        · rw [Bool.eq_false_iff, Ne, artifact_index.lt_iff] at hp h2 ⊢
          omega
        · exact h3 q hq

theorem clear_loop_eq_filter (bound : artifact_index) (m : List (artifact_index × artifact))
    (hok : map_ok artifact_index.lt m) :
    clear_loop bound m = m.filter (fun e => !e.1.lt bound) := by
  induction m with
  | nil => simp [clear_loop]
  | cons e rest ih =>
    have hrest : map_ok artifact_index.lt rest := (List.pairwise_cons.1 hok).2
    by_cases h : e.1.lt bound = true
    · simp [clear_loop, h, ih hrest]
    · rw [Bool.not_eq_true] at h
      simp only [clear_loop, h, Bool.false_eq_true, if_false]
      symm
      rw [List.filter_eq_self]
      intro x hx
      rcases List.mem_cons.1 hx with rfl | hx
      · simp [h]
      · have hex : e.1.lt x.1 = true := List.rel_of_pairwise_cons hok hx
        have : x.1.lt bound = false := by
          rw [Bool.eq_false_iff]
          intro hc
          have := artifact_index.lt_trans hex hc
          rw [h] at this
          exact Bool.noConfusion this
        simp [this]

theorem clear_loop_all_below (bound : artifact_index) (m : List (artifact_index × artifact))
    (h : ∀ e ∈ m, e.1.lt bound = true) : clear_loop bound m = [] := by
  induction m with
  | nil => simp [clear_loop]
  | cons e rest ih =>
    simp only [clear_loop, h e (List.mem_cons_self _ _), if_true]
    exact ih (fun x hx => h x (List.mem_cons_of_mem _ hx))

theorem artifact_index.lt_max {a : artifact_index} (hr : a.in_range)
    (hne : a ≠ artifact_index.max) : a.lt artifact_index.max = true := by
  cases a with
  | mk t i =>
    simp only [artifact_index.in_range, artifact_index.max, U64, ne_eq,
      artifact_index.mk.injEq] at hr hne
    rw [artifact_index.lt_iff]
    simp only [artifact_index.max, U64]
    omega

theorem artifact_index.not_max_lt {a : artifact_index} (hr : a.in_range) :
    artifact_index.max.lt a = false := by
  cases a with
  | mk t i =>
    simp only [artifact_index.in_range, U64] at hr
    rw [Bool.eq_false_iff, Ne, artifact_index.lt_iff]
    simp only [artifact_index.max, U64]
    omega

/-! ## Claims on the eviction paths -/

/-- C5: in a state whose log is a well-formed map and in which at least one viewer is
subscribed, with `m` the least of the subscribed viewers' cursors: `clear_all_viewed`
keeps every entry whose key is not below `m` (and adds none); when the log holds at
least `display_limit` entries the log afterwards is exactly the log before restricted
to the keys not below `m`; the viewer registry and the pending buffer are unchanged. -/
theorem clear_all_viewed_keeps_unread (s : passage) (m : artifact_index)
    (hok : map_ok artifact_index.lt s.artifact_map)
    (hrange : m.in_range)
    (hm : m ∈ s.viewer_map.map Prod.snd)
    (hmin : ∀ p ∈ s.viewer_map, p.2.lt m = false) :
    (∀ e ∈ s.artifact_map, e.1.lt m = false → e ∈ (clear_all_viewed s).artifact_map) ∧
      (∀ e ∈ (clear_all_viewed s).artifact_map, e ∈ s.artifact_map) ∧
      (s.display_limit ≤ s.artifact_map.length →
        (clear_all_viewed s).artifact_map
          = s.artifact_map.filter (fun e => !e.1.lt m)) ∧
      (clear_all_viewed s).viewer_map = s.viewer_map ∧
      (clear_all_viewed s).storage_list = s.storage_list := by
  obtain ⟨h1, h2, h3⟩ := newest_all_viewed_loop_spec s.viewer_map artifact_index.max
  have hr : newest_all_viewed_loop s.viewer_map artifact_index.max = m := by
    obtain ⟨q, hq, hqm⟩ := List.mem_map.1 hm
    have hmr : m.lt (newest_all_viewed_loop s.viewer_map artifact_index.max) = false := by
      rw [← hqm]
      exact h3 q hq
    rcases h1 with h1 | h1
    · rw [h1] at hmr ⊢
      by_contra hne
      have := artifact_index.lt_max hrange (fun hc => hne hc.symm)
      rw [hmr] at this
      exact Bool.noConfusion this
    · obtain ⟨p, hp, hpr⟩ := List.mem_map.1 h1
      have := hmin p hp
      rw [hpr] at this
      exact artifact_index.eq_of_not_lt this hmr
  have hclear : clear_loop m s.artifact_map = s.artifact_map.filter (fun e => !e.1.lt m) :=
    clear_loop_eq_filter m s.artifact_map hok
  by_cases hsize : s.artifact_map.length < s.display_limit
  · have hsame : clear_all_viewed s = s := by simp [clear_all_viewed, hsize]
    rw [hsame]
    exact ⟨fun e he _ => he, fun e he => he, fun h => absurd hsize (Nat.not_lt.2 h), rfl, rfl⟩
  · have hmap : (clear_all_viewed s).artifact_map
        = s.artifact_map.filter (fun e => !e.1.lt m) := by
      simp only [clear_all_viewed, hsize, if_false, hr, hclear]
    refine ⟨?_, ?_, fun _ => hmap, ?_, ?_⟩
    · intro e he hem
      rw [hmap, List.mem_filter]
      exact ⟨he, by simp [hem]⟩
    · intro e he
      rw [hmap] at he
      exact (List.mem_filter.1 he).1
    · simp [clear_all_viewed, hsize]
    · simp [clear_all_viewed, hsize]

theorem clear_all_viewed_keeps_unread_witness :
    map_ok artifact_index.lt sample_read_passage.artifact_map ∧
      (∀ p ∈ sample_read_passage.viewer_map,
        p.2.lt { timestamp := 101, index := 1 } = false) ∧
      sample_read_passage.display_limit ≤ sample_read_passage.artifact_map.length ∧
      (clear_all_viewed sample_read_passage).artifact_map
        = sample_read_passage.artifact_map.drop 1 := by
  have h := clear_all_viewed_keeps_unread sample_read_passage { timestamp := 101, index := 1 }
    (by decide) (by decide) (by decide) (by decide)
  refine ⟨by decide, by decide, by decide, ?_⟩
  rw [h.2.2.1 (by decide)]
  decide

/-- C6 (as amended): in a state in which no viewer is subscribed, whose log holds at
least `display_limit` entries and whose keys are `uint64_t` pairs other than the
sentinel `artifact_index::max()`: `clear_all_viewed` removes every entry of the log,
the bootstrap entry included, so that `number_of_displayed()` is 0 afterwards. -/
theorem clear_all_viewed_no_viewer (s : passage)
    (hv : s.viewer_map = [])
    (hsize : s.display_limit ≤ s.artifact_map.length)
    (hkeys : ∀ e ∈ s.artifact_map, e.1.in_range ∧ e.1 ≠ artifact_index.max) :
    (clear_all_viewed s).artifact_map = [] ∧
      number_of_displayed (clear_all_viewed s) = 0 := by
  have hmap : (clear_all_viewed s).artifact_map = [] := by
    simp only [clear_all_viewed, Nat.not_lt.2 hsize, if_false, hv, newest_all_viewed_loop]
    exact clear_loop_all_below _ _
      (fun e he => artifact_index.lt_max (hkeys e he).1 (hkeys e he).2)
  exact ⟨hmap, by simp [number_of_displayed, hmap]⟩

theorem clear_all_viewed_no_viewer_witness :
    sample_empty_passage.viewer_map = [] ∧
      sample_empty_passage.display_limit ≤ sample_empty_passage.artifact_map.length ∧
      (∀ e ∈ sample_empty_passage.artifact_map,
        e.1.in_range ∧ e.1 ≠ artifact_index.max) ∧
      number_of_displayed (clear_all_viewed sample_empty_passage) = 0 :=
  ⟨rfl, by decide, by decide,
    (clear_all_viewed_no_viewer sample_empty_passage rfl (by decide) (by decide)).2⟩

/-- C6, the claim as stated fails: with no viewer subscribed and a log of two entries
against `display_limit` 1, the second key being `artifact_index::max()`, the erase loop
of `clear_all_viewed` removes the bootstrap entry and stops at the entry of key `max()`,
which does not compare below the bound `max()`: one entry is left. -/
theorem clear_all_viewed_keeps_sentinel_key :
    sample_sentinel_passage.viewer_map = [] ∧
      sample_sentinel_passage.display_limit ≤ sample_sentinel_passage.artifact_map.length ∧
      map_ok artifact_index.lt sample_sentinel_passage.artifact_map ∧
      (∀ e ∈ sample_sentinel_passage.artifact_map, e.1.in_range) ∧
      (clear_all_viewed sample_sentinel_passage).artifact_map
        = [(artifact_index.max, data_artifact 1)] ∧
      number_of_displayed (clear_all_viewed sample_sentinel_passage) = 1 := by
  decide

/-- C7: for every state whose log is a well-formed map: if the log holds more than
`display_limit` entries, `dismantle` leaves exactly `display_limit` entries, namely the
last `display_limit` entries of the log in key order, unchanged, every removed key
being below every kept key; if the log holds at most `display_limit` entries,
`dismantle` leaves it unchanged. In both cases the viewer registry, the pending buffer
and the two limits are unchanged. -/
theorem dismantle_keeps_newest (s : passage)
    (hok : map_ok artifact_index.lt s.artifact_map) :
    (s.display_limit < s.artifact_map.length →
      number_of_displayed (dismantle s) = s.display_limit ∧
      (dismantle s).artifact_map
        = s.artifact_map.drop (s.artifact_map.length - s.display_limit) ∧
      ∀ x ∈ s.artifact_map.take (s.artifact_map.length - s.display_limit),
        ∀ y ∈ (dismantle s).artifact_map, x.1.lt y.1 = true) ∧
      (s.artifact_map.length ≤ s.display_limit →
        (dismantle s).artifact_map = s.artifact_map) ∧
      (dismantle s).viewer_map = s.viewer_map ∧
      (dismantle s).storage_list = s.storage_list ∧
      (dismantle s).display_limit = s.display_limit ∧
      (dismantle s).storage_limit = s.storage_limit := by
  have hmap : (dismantle s).artifact_map
      = s.artifact_map.drop (s.artifact_map.length - s.display_limit) := by
    simp [dismantle, dismantle_loop_eq_drop]
  refine ⟨fun hlt => ⟨?_, hmap, ?_⟩, fun hle => ?_, rfl, rfl, rfl, rfl⟩
  · rw [number_of_displayed, hmap, List.length_drop]
    omega
  · intro x hx y hy
    rw [hmap] at hy
    have hsplit := List.take_append_drop (s.artifact_map.length - s.display_limit)
      s.artifact_map
    have hok' := hok
    rw [← hsplit] at hok'
    exact (List.pairwise_append.1 hok').2.2 x hx y hy
  · rw [hmap]
    have : s.artifact_map.length - s.display_limit = 0 := by omega
    rw [this, List.drop_zero]

theorem dismantle_keeps_newest_witness :
    map_ok artifact_index.lt sample_passage.artifact_map ∧
      sample_passage.display_limit < sample_passage.artifact_map.length ∧
      number_of_displayed (dismantle sample_passage) = 3 :=
  ⟨by decide, by decide, ((dismantle_keeps_newest sample_passage (by decide)).1 (by decide)).1⟩

/-! ## The append path -/

theorem map_assign_append (k : artifact_index) (v : artifact)
    (m : List (artifact_index × artifact)) (h : ∀ e ∈ m, e.1.lt k = true) :
    map_assign artifact_index.lt k v m = m ++ [(k, v)] := by
  induction m with
  | nil => simp [map_assign]
  | cons e rest ih =>
    have he := h e (List.mem_cons_self _ _)
    simp only [map_assign, artifact_index.lt_asymm he, Bool.false_eq_true, if_false, he,
      if_true, List.cons_append]
    rw [ih (fun x hx => h x (List.mem_cons_of_mem _ hx))]

theorem map_find_assign (k : artifact_index) (v : artifact)
    (m : List (artifact_index × artifact)) :
    ∃ tail, map_find artifact_index.lt k (map_assign artifact_index.lt k v m)
      = (k, v) :: tail := by
  have hkk : map_equiv artifact_index.lt k k = true := (artifact_index.equiv_iff k k).2 rfl
  induction m with
  | nil => exact ⟨[], by simp [map_assign, map_find, hkk]⟩
  | cons e rest ih =>
    cases h1 : k.lt e.1 with
    | true => exact ⟨e :: rest, by simp [map_assign, map_find, h1, hkk]⟩
    | false =>
      cases h2 : e.1.lt k with
      | true =>
        obtain ⟨tail, ht⟩ := ih
        exact ⟨tail, by simp [map_assign, map_find, h1, h2, map_equiv, ht]⟩
      | false =>
        have hek : e.1 = k := artifact_index.eq_of_not_lt h2 h1
        refine ⟨rest, ?_⟩
        simp only [map_assign, h1, h2, Bool.false_eq_true, if_false, map_find]
        simp [hek, hkk]

theorem sorted_le_last {m : List (artifact_index × artifact)}
    (hok : map_ok artifact_index.lt m) {x : artifact_index × artifact}
    (hlast : m.getLast? = some x) : ∀ e ∈ m, e.1 = x.1 ∨ e.1.lt x.1 = true := by
  obtain ⟨init, rfl⟩ := List.getLast?_eq_some_iff.1 hlast
  intro e he
  rcases List.mem_append.1 he with he | he
  · exact Or.inr ((List.pairwise_append.1 hok).2.2 e he x (List.mem_singleton_self _))
  · rw [List.mem_singleton.1 he]
    exact Or.inl rfl

theorem sorted_append_one {m : List (artifact_index × artifact)}
    (hok : map_ok artifact_index.lt m) (x : artifact_index × artifact)
    (h : ∀ e ∈ m, e.1.lt x.1 = true) : map_ok artifact_index.lt (m ++ [x]) := by
  apply List.pairwise_append.2
  refine ⟨hok, List.pairwise_singleton _ _, ?_⟩
  intro a ha b hb
  rw [List.mem_singleton.1 hb]
  exact h a ha

theorem lt_of_le_of_step {e cur next : artifact_index}
    (he : e = cur ∨ e.lt cur = true) (ht : cur.timestamp ≤ next.timestamp)
    (hi : cur.index < next.index) : e.lt next = true := by
  have hstep : cur.lt next = true := by
    rw [artifact_index.lt_iff]
    omega
  rcases he with rfl | he
  · exact hstep
  · exact artifact_index.lt_trans he hstep

theorem task_drain_spec (pending : List (Nat × artifact)) (t : Nat) :
    ∀ (cur : artifact_index) (m : List (artifact_index × artifact)),
      map_ok artifact_index.lt m →
      (∀ e ∈ m, e.1 = cur ∨ e.1.lt cur = true) →
      (cur.timestamp :: pending.map Prod.fst ++ [t]).Pairwise (fun a b => a ≤ b) →
      cur.index + pending.length < U64 →
      (task_drain pending cur m).1 = m ++ flushed cur.index pending ∧
      (task_drain pending cur m).2.index = cur.index + pending.length ∧
      (task_drain pending cur m).2.timestamp ≤ t ∧
      map_ok artifact_index.lt (task_drain pending cur m).1 ∧
      (∀ e ∈ (task_drain pending cur m).1,
        e.1 = (task_drain pending cur m).2 ∨ e.1.lt (task_drain pending cur m).2 = true) := by
  induction pending with
  | nil =>
    intro cur m hok hle htime _
    simp only [task_drain, flushed, List.append_nil, List.length_nil, Nat.add_zero, true_and]
    refine ⟨?_, hok, hle⟩
    simp only [List.map_nil, List.nil_append, List.cons_append] at htime
    exact List.rel_of_pairwise_cons htime (List.mem_singleton_self _)
  | cons p rest ih =>
    intro cur m hok hle htime hseq
    simp only [List.length_cons] at hseq
    have hmod : (cur.index + 1) % U64 = cur.index + 1 := Nat.mod_eq_of_lt (by omega)
    simp only [List.map_cons, List.cons_append] at htime
    have hcp : cur.timestamp ≤ p.1 := List.rel_of_pairwise_cons htime (List.mem_cons_self _ _)
    have hbelow : ∀ e ∈ m,
        e.1.lt { timestamp := p.1, index := cur.index + 1 } = true :=
      fun e he => lt_of_le_of_step (hle e he) hcp (Nat.lt_succ_self _)
    have hassign := map_assign_append { timestamp := p.1, index := cur.index + 1 } p.2 m hbelow
    have hok' := sorted_append_one hok ({ timestamp := p.1, index := cur.index + 1 }, p.2) hbelow
    have hle' : ∀ e ∈ m ++ [(({ timestamp := p.1, index := cur.index + 1 } : artifact_index), p.2)],
        e.1 = { timestamp := p.1, index := cur.index + 1 } ∨
          e.1.lt { timestamp := p.1, index := cur.index + 1 } = true := by
      intro e he
      rcases List.mem_append.1 he with he | he
      · exact Or.inr (hbelow e he)
      · rw [List.mem_singleton.1 he]
        exact Or.inl rfl
    obtain ⟨h1, h2, h3, h4, h5⟩ := ih { timestamp := p.1, index := cur.index + 1 }
      (m ++ [({ timestamp := p.1, index := cur.index + 1 }, p.2)]) hok' hle'
      (List.pairwise_cons.1 htime).2 (by simp only; omega)
    simp only [task_drain, hmod, hassign, flushed, List.length_cons]
    refine ⟨?_, ?_, h3, h4, h5⟩
    · rw [h1]
      simp
    · simp only [h2]
      omega

theorem task_drain_index (pending : List (Nat × artifact)) :
    ∀ (cur : artifact_index) (m : List (artifact_index × artifact)),
      ((task_drain pending cur m).2.index + 1) % U64
        = (cur.index + pending.length + 1) % U64 := by
  induction pending with
  | nil =>
    intro cur m
    simp [task_drain]
  | cons p rest ih =>
    intro cur m
    simp only [task_drain, List.length_cons]
    rw [ih]
    simp only [U64]
    omega

theorem flushed_length (pending : List (Nat × artifact)) :
    ∀ i, (flushed i pending).length = pending.length := by
  induction pending with
  | nil => simp [flushed]
  | cons p rest ih => simp [flushed, ih]

theorem task_spec (s : passage) (art : artifact) (now : Nat)
    (last : artifact_index × artifact)
    (hok : map_ok artifact_index.lt s.artifact_map)
    (hlast : s.artifact_map.getLast? = some last)
    (htime : (last.1.timestamp :: s.storage_list.map Prod.fst ++ [now % U64]).Pairwise
      (fun a b => a ≤ b))
    (hseq : last.1.index + s.storage_list.length + 1 < U64) :
    task s art now = some { s with
        artifact_map := s.artifact_map ++ (flushed last.1.index s.storage_list ++
          [({ timestamp := now % U64, index := last.1.index + s.storage_list.length + 1 },
            art)])
        storage_list := [] } ∧
      map_ok artifact_index.lt (s.artifact_map ++ (flushed last.1.index s.storage_list ++
        [({ timestamp := now % U64, index := last.1.index + s.storage_list.length + 1 },
          art)])) := by
  obtain ⟨h1, h2, h3, h4, h5⟩ := task_drain_spec s.storage_list (now % U64) last.1
    s.artifact_map hok (sorted_le_last hok hlast) htime (by omega)
  have hmod : ((task_drain s.storage_list last.1 s.artifact_map).2.index + 1) % U64
      = last.1.index + s.storage_list.length + 1 := by
    rw [h2]
    exact Nat.mod_eq_of_lt hseq
  have hbelow : ∀ e ∈ (task_drain s.storage_list last.1 s.artifact_map).1,
      e.1.lt (⟨now % U64, last.1.index + s.storage_list.length + 1⟩ : artifact_index)
        = true :=
    fun e he => lt_of_le_of_step (h5 e he) h3 (by simp only [h2]; omega)
  have hassign := map_assign_append
    ⟨now % U64, last.1.index + s.storage_list.length + 1⟩ art _ hbelow
  have hsorted := sorted_append_one h4
    (⟨now % U64, last.1.index + s.storage_list.length + 1⟩, art) hbelow
  rw [h1, List.append_assoc] at hassign hsorted
  refine ⟨?_, hsorted⟩
  simp only [task, hlast, hmod, h1, hassign]

/-! ## Claims on `decorate` -/

/-- C8 (as amended): in a state whose log is a non-empty well-formed map with newest key
`(t0, s0)`, when the arrival timestamps of the pending entries and the clock reading
are non-decreasing from `t0` and `s0 + (number of pending entries) + 1` fits `uint64_t`:
for every artifact and either outcome of the lock attempt, `decorate` returns and
`number_of_displayed() + size_of_storage()` is exactly one more than before; the log
afterwards is the log before followed by new entries (no existing key is written) and
is again a well-formed map; an uncontended `decorate` raises `number_of_displayed()` by
exactly 1 + the number of pending entries and leaves `size_of_storage()` at 0. -/
theorem decorate_accounts_for_artifact (s : passage) (art : artifact) (now : Nat)
    (acquired : Bool) (last : artifact_index × artifact)
    (hok : map_ok artifact_index.lt s.artifact_map)
    (hlast : s.artifact_map.getLast? = some last)
    (htime : (last.1.timestamp :: s.storage_list.map Prod.fst ++ [now % U64]).Pairwise
      (fun a b => a ≤ b))
    (hseq : last.1.index + s.storage_list.length + 1 < U64) :
    ∃ s', decorate s art now acquired = some s' ∧
      number_of_displayed s' + size_of_storage s'
        = number_of_displayed s + size_of_storage s + 1 ∧
      (∃ added, s'.artifact_map = s.artifact_map ++ added) ∧
      map_ok artifact_index.lt s'.artifact_map ∧
      (acquired = true →
        number_of_displayed s' = number_of_displayed s + 1 + s.storage_list.length ∧
        size_of_storage s' = 0) := by
  obtain ⟨htask, hsorted⟩ := task_spec s art now last hok hlast htime hseq
  have hflush : ∃ s', task s art now = some s' ∧
      number_of_displayed s' + size_of_storage s'
        = number_of_displayed s + size_of_storage s + 1 ∧
      (∃ added, s'.artifact_map = s.artifact_map ++ added) ∧
      map_ok artifact_index.lt s'.artifact_map ∧
      number_of_displayed s' = number_of_displayed s + 1 + s.storage_list.length ∧
      size_of_storage s' = 0 := by
    refine ⟨_, htask, ?_, ⟨_, rfl⟩, hsorted, ?_, rfl⟩
    · simp only [number_of_displayed, size_of_storage, List.length_append, flushed_length,
        List.length_singleton, List.length_nil]
      omega
    · simp only [number_of_displayed, List.length_append, flushed_length,
        List.length_singleton]
      omega
  obtain ⟨s', h1, h2, h3, h4, h5, h6⟩ := hflush
  unfold decorate
  cases acquired with
  | true => exact ⟨s', by simpa using h1, h2, h3, h4, fun _ => ⟨h5, h6⟩⟩
  | false =>
    simp only [Bool.false_eq_true, if_false]
    split_ifs with hcond
    · refine ⟨_, rfl, ?_, ⟨[], by simp⟩, hok, fun h => False.elim h⟩
      simp only [number_of_displayed, size_of_storage, List.length_append,
        List.length_singleton]
      omega
    · exact ⟨s', h1, h2, h3, h4, fun h => False.elim h⟩

theorem decorate_accounts_for_artifact_witness :
    map_ok artifact_index.lt sample_passage.artifact_map ∧
      sample_passage.artifact_map.getLast?
        = some ({ timestamp := 103, index := 3 }, data_artifact 3) ∧
      ∃ s', decorate sample_passage (data_artifact 4) 103 true = some s' ∧
        number_of_displayed s' + size_of_storage s' = 5 := by
  refine ⟨by decide, by decide, ?_⟩
  obtain ⟨s', h1, h2, _⟩ := decorate_accounts_for_artifact sample_passage (data_artifact 4)
    103 true ({ timestamp := 103, index := 3 }, data_artifact 3) (by decide) (by decide)
    (by decide) (by decide)
  exact ⟨s', h1, h2⟩

/-- C8, the claim as stated fails: in the state reached from `construct(10, 10)` at clock
reading 100 by one uncontended `decorate` at reading 50, a second uncontended `decorate`
at reading 50 is given the key `(50, 1)` again and overwrites the first artifact, so
that `number_of_displayed() + size_of_storage()` stays 2. -/
theorem decorate_overwrites_after_clock_regression :
    decorate (passage.construct 10 10 100) (data_artifact 1) 50 true
        = some sample_regressed_passage ∧
      sample_regressed_passage.artifact_map ≠ [] ∧
      map_ok artifact_index.lt sample_regressed_passage.artifact_map ∧
      decorate sample_regressed_passage (data_artifact 2) 50 true
        = some { sample_regressed_passage with
            artifact_map :=
              [({ timestamp := 50, index := 1 }, data_artifact 2),
               ({ timestamp := 100, index := 0 }, artifact.empty)] } ∧
      number_of_displayed sample_regressed_passage
        + size_of_storage sample_regressed_passage = 2 ∧
      ¬ (∀ s', decorate sample_regressed_passage (data_artifact 2) 50 true = some s' →
        number_of_displayed s' + size_of_storage s'
          = number_of_displayed sample_regressed_passage
            + size_of_storage sample_regressed_passage + 1) := by
  refine ⟨by decide, by decide, by decide, by decide, by decide, ?_⟩
  intro h
  have := h _ (by decide : decorate sample_regressed_passage (data_artifact 2) 50 true
    = some { sample_regressed_passage with
        artifact_map :=
          [({ timestamp := 50, index := 1 }, data_artifact 2),
           ({ timestamp := 100, index := 0 }, artifact.empty)] })
  revert this
  decide

theorem task_storage_empty (s s' : passage) (art : artifact) (now : Nat)
    (h : task s art now = some s') : s'.storage_list = [] := by
  unfold task at h
  split at h
  · exact Option.noConfusion h
  · simp only [Option.some.injEq] at h
    rw [← h]

theorem buffer_condition_iff (s : passage) (art : artifact) :
    (s.storage_list.length < s.storage_limit ∧ art.type ≠ artifact_type.ENTER ∧
        art.type ≠ artifact_type.END ∧ art.type ≠ artifact_type.ERROR) ↔
      ((art.type = artifact_type.EMBEDED ∨ art.type = artifact_type.EMPTY) ∧
        s.storage_list.length < s.storage_limit) := by
  cases art.type <;> simp

/-- C9 (as amended): when `decorate` fails to acquire the log's exclusive lock without
blocking, the artifact is appended to the pending buffer with the clock reading, the
log being left unchanged, if and only if its kind is EMBEDED (Data) or EMPTY and the
pending buffer holds fewer than `storage_limit` entries; for the kinds ENTER, END and
ERROR and whenever the buffer is full, `decorate` takes the blocking path and performs
the flush-and-append. -/
theorem decorate_contended_buffers_iff (s : passage) (art : artifact) (now : Nat) :
    (decorate s art now false
        = some { s with storage_list := s.storage_list ++ [(now % U64, art)] } ↔
      (art.type = artifact_type.EMBEDED ∨ art.type = artifact_type.EMPTY) ∧
        s.storage_list.length < s.storage_limit) ∧
      (¬ ((art.type = artifact_type.EMBEDED ∨ art.type = artifact_type.EMPTY) ∧
          s.storage_list.length < s.storage_limit) →
        decorate s art now false = task s art now) := by
  have hcond := buffer_condition_iff s art
  by_cases h : (art.type = artifact_type.EMBEDED ∨ art.type = artifact_type.EMPTY) ∧
      s.storage_list.length < s.storage_limit
  · have h' := hcond.2 h
    refine ⟨⟨fun _ => h, fun _ => ?_⟩, fun hn => absurd h hn⟩
    unfold decorate
    simp only [Bool.false_eq_true, if_false]
    rw [if_pos h']
  · have h' : ¬ (s.storage_list.length < s.storage_limit ∧
        art.type ≠ artifact_type.ENTER ∧ art.type ≠ artifact_type.END ∧
        art.type ≠ artifact_type.ERROR) := fun hc => h (hcond.1 hc)
    have htask : decorate s art now false = task s art now := by
      unfold decorate
      simp only [Bool.false_eq_true, if_false]
      rw [if_neg h']
    refine ⟨⟨fun hd => ?_, fun hc => absurd hc h⟩, fun _ => htask⟩
    rw [htask] at hd
    have := task_storage_empty s _ art now hd
    simp at this

/-- C9, the claim as stated fails for the kind EMPTY: a contended `decorate` of an
EMPTY artifact with room in the pending buffer appends it to the pending buffer and
leaves the log unchanged, instead of performing the flush-and-append. -/
theorem decorate_contended_buffers_empty_kind :
    artifact.empty.type = artifact_type.EMPTY ∧
      sample_passage.storage_list.length < sample_passage.storage_limit ∧
      decorate sample_passage artifact.empty 104 false
        = some { sample_passage with storage_list := [(104, artifact.empty)] } ∧
      decorate sample_passage artifact.empty 104 false
        ≠ task sample_passage artifact.empty 104 := by
  decide

/-- C10: in every state with a non-empty log (newest key of sequence number `s0`, `k`
pending entries) and for every artifact of kind ENTER, END or ERROR, whatever the
outcome of the lock attempt and however full the pending buffer is, `decorate` returns
with the pending buffer empty and the artifact stored in the log under the key that
the flush assigns last, `(now, s0 + k + 1)` in `uint64_t` arithmetic. -/
theorem decorate_control_never_deferred (s : passage) (art : artifact) (now : Nat)
    (acquired : Bool) (last : artifact_index × artifact)
    (hlast : s.artifact_map.getLast? = some last)
    (hkind : art.type = artifact_type.ENTER ∨ art.type = artifact_type.END ∨
      art.type = artifact_type.ERROR) :
    ∃ s', decorate s art now acquired = some s' ∧
      s'.storage_list = [] ∧
      ∃ tail, map_find artifact_index.lt
          ⟨now % U64, (last.1.index + s.storage_list.length + 1) % U64⟩ s'.artifact_map
        = ((⟨now % U64, (last.1.index + s.storage_list.length + 1) % U64⟩ : artifact_index),
            art) :: tail := by
  have hdec : decorate s art now acquired = task s art now := by
    cases acquired with
    | true => simp [decorate]
    | false =>
      have hc : ¬ (s.storage_list.length < s.storage_limit ∧
          art.type ≠ artifact_type.ENTER ∧ art.type ≠ artifact_type.END ∧
          art.type ≠ artifact_type.ERROR) := by
        rintro ⟨_, h1, h2, h3⟩
        rcases hkind with h | h | h
        · exact h1 h
        · exact h2 h
        · exact h3 h
      unfold decorate
      simp only [Bool.false_eq_true, if_false]
      rw [if_neg hc]
  rw [hdec]
  have hidx := task_drain_index s.storage_list last.1 s.artifact_map
  have htask : task s art now = some { s with
      artifact_map := map_assign artifact_index.lt
        ⟨now % U64, (last.1.index + s.storage_list.length + 1) % U64⟩ art
        (task_drain s.storage_list last.1 s.artifact_map).1
      storage_list := [] } := by
    simp only [task, hlast, hidx]
  exact ⟨_, htask, rfl, map_find_assign _ art _⟩

theorem decorate_control_never_deferred_witness :
    sample_passage.artifact_map.getLast?
        = some ({ timestamp := 103, index := 3 }, data_artifact 3) ∧
      ∃ s', decorate sample_passage
          { type := artifact_type.END, data := none, data_length := 0 } 104 false = some s' ∧
        s'.storage_list = [] := by
  refine ⟨by decide, ?_⟩
  obtain ⟨s', h1, h2, _⟩ := decorate_control_never_deferred sample_passage
    { type := artifact_type.END, data := none, data_length := 0 } 104 false
    ({ timestamp := 103, index := 3 }, data_artifact 3) (by decide) (by decide)
  exact ⟨s', h1, h2⟩

/-! ## Runs of uncontended `decorate` calls followed by `view` -/

theorem flushed_map_snd (l : List (Nat × artifact)) :
    ∀ i, (flushed i l).map Prod.snd = l.map Prod.snd := by
  induction l with
  | nil => simp [flushed]
  | cons p rest ih => simp [flushed, ih]

theorem flushed_index_pos (l : List (Nat × artifact)) :
    ∀ i, ∀ e ∈ flushed i l, i < e.1.index := by
  induction l with
  | nil => simp [flushed]
  | cons p rest ih =>
    intro i e he
    simp only [flushed, List.mem_cons] at he
    rcases he with rfl | he
    · exact Nat.lt_succ_self i
    · exact Nat.lt_trans (Nat.lt_succ_self i) (ih (i + 1) e he)

theorem decorate_all_spec (l : List (Nat × artifact)) :
    ∀ (s : passage) (last : artifact_index × artifact),
      map_ok artifact_index.lt s.artifact_map →
      s.storage_list = [] →
      s.artifact_map.getLast? = some last →
      (last.1.timestamp :: l.map Prod.fst).Pairwise (fun a b => a ≤ b) →
      (∀ p ∈ l, p.1 < U64) →
      last.1.index + l.length < U64 →
      decorate_all s l
          = some { s with artifact_map := s.artifact_map ++ flushed last.1.index l } ∧
        map_ok artifact_index.lt (s.artifact_map ++ flushed last.1.index l) := by
  induction l with
  | nil =>
    intro s last hok _ _ _ _ _
    simp only [decorate_all, flushed, List.append_nil]
    exact ⟨trivial, hok⟩
  | cons p rest ih =>
    intro s last hok hst hlast htime hrange hseq
    simp only [List.length_cons] at hseq
    simp only [List.map_cons] at htime
    have hp : p.1 % U64 = p.1 := Nat.mod_eq_of_lt (hrange p (List.mem_cons_self _ _))
    obtain ⟨htask, hsorted⟩ := task_spec s p.2 p.1 last hok hlast
      (by
        rw [hst, hp]
        simp only [List.map_nil, List.nil_append]
        exact List.pairwise_pair.2
          (List.rel_of_pairwise_cons htime (List.mem_cons_self _ _)))
      (by rw [hst]; simp only [List.length_nil]; omega)
    rw [hst, hp] at htask hsorted
    simp only [flushed, List.nil_append, List.length_nil, Nat.add_zero] at htask hsorted
    obtain ⟨h1, h2⟩ := ih
      { s with
        artifact_map := s.artifact_map ++ [(⟨p.1, last.1.index + 1⟩, p.2)]
        storage_list := [] }
      (⟨p.1, last.1.index + 1⟩, p.2) hsorted rfl (by simp)
      (List.pairwise_cons.1 htime).2
      (fun q hq => hrange q (List.mem_cons_of_mem _ hq)) (by simp only; omega)
    simp only [decorate_all, decorate, if_true, htask, h1, flushed, List.append_assoc,
      List.singleton_append, hst]
    refine ⟨trivial, ?_⟩
    simpa [List.append_assoc] using h2

theorem view_after_split (s : passage) (id n : Nat) (c : artifact_index) (v : artifact)
    (pre : List (artifact_index × artifact)) (e : artifact_index × artifact)
    (rest : List (artifact_index × artifact))
    (hm : s.artifact_map = pre ++ (c, v) :: e :: rest)
    (hok : map_ok artifact_index.lt s.artifact_map)
    (hcur : cursor s id = some c) (h1 : 1 ≤ n) (h2 : n < U64) :
    ∃ k, ((e :: rest).take n).getLast?.map Prod.fst = some k ∧
      view s id n = some (((e :: rest).take n).map Prod.snd,
        { s with viewer_map := map_write id_lt id k s.viewer_map }) ∧
      cursor { s with viewer_map := map_write id_lt id k s.viewer_map } id = some k := by
  have hok' := hok
  rw [hm] at hok'
  obtain ⟨hpre, htail, hcross⟩ := List.pairwise_append.1 hok'
  have hne : s.artifact_map ≠ [] := by
    rw [hm]
    simp
  have hnew : newest_key s ≠ some c := by
    unfold newest_key
    rw [hm, List.getLast?_append_of_ne_nil _ (by simp), List.getLast?_cons_cons]
    intro hc
    cases hl : (e :: rest).getLast? with
    | none => simp [hl] at hc
    | some z =>
      simp only [hl, Option.map_some', Option.some.injEq] at hc
      have hz := List.rel_of_pairwise_cons htail (List.mem_of_getLast?_eq_some hl)
      simp only at hz
      rw [hc, artifact_index.lt_irrefl] at hz
      exact Bool.noConfusion hz
  have hfind : map_find artifact_index.lt c s.artifact_map = (c, v) :: e :: rest := by
    rw [hm]
    apply map_find_split artifact_index.equiv_iff
    intro x hx hxc
    have := hcross x hx (c, v) (List.mem_cons_self _ _)
    simp only at this
    rw [hxc, artifact_index.lt_irrefl] at this
    exact Bool.noConfusion this
  have hit : (match map_find artifact_index.lt c s.artifact_map with
      | [] => s.artifact_map
      | _ :: after => after) = e :: rest := by
    rw [hfind]
  exact view_from s id n c e rest hcur hne hnew hit h1 h2

theorem split_last_two {α : Type} (L : List α) (h : 2 ≤ L.length) :
    ∃ init x y, L = init ++ [x, y] := by
  rcases List.eq_nil_or_concat L with rfl | ⟨L', y, rfl⟩
  · simp at h
  · rcases List.eq_nil_or_concat L' with rfl | ⟨init, x, rfl⟩
    · simp at h
    · exact ⟨init, x, y, by simp⟩

theorem fresh_state_fields (dl sl t0 id : Nat) (ht0 : t0 < U64) :
    (subscribe (passage.construct dl sl t0) id).artifact_map
        = [(⟨t0, 0⟩, artifact.empty)] ∧
      (subscribe (passage.construct dl sl t0) id).storage_list = [] ∧
      (subscribe (passage.construct dl sl t0) id).viewer_map = [(id, ⟨0, 0⟩)] := by
  simp [subscribe, passage.construct, map_assign, Nat.mod_eq_of_lt ht0]

/-- C1 (as amended): for every `k ≥ 1` and every list of `k` artifacts `a1..ak` (of any
kind, EMBEDED in particular) with non-decreasing `uint64_t` clock readings starting at
the reading `t0` of the constructor: on a freshly constructed passage on which viewer
`id` has just been subscribed, the `k` uncontended `decorate` calls all return; then, if
`t0 = 0`, `view(id, k)` returns `[a1, ..., ak]` and the next `view(id, k)` returns the
empty list; and if `t0 ≠ 0`, `view(id, k)` returns the EMPTY artifact of the bootstrap
entry followed by `a1, ..., a(k-1)`, and the next `view(id, k)` returns `[ak]`. -/
theorem fresh_viewer_reads_bootstrap_first (dl sl t0 id : Nat) (l : List (Nat × artifact))
    (hk : 1 ≤ l.length) (hk' : l.length < U64)
    (hmono : (t0 :: l.map Prod.fst).Pairwise (fun a b => a ≤ b))
    (hrange : ∀ t ∈ t0 :: l.map Prod.fst, t < U64) :
    ∃ s, decorate_all (subscribe (passage.construct dl sl t0) id) l = some s ∧
      (t0 = 0 → ∃ s1, view s id l.length = some (l.map Prod.snd, s1) ∧
        view s1 id l.length = some ([], s1)) ∧
      (t0 ≠ 0 → ∃ s1 s2 a, l.getLast?.map Prod.snd = some a ∧
        view s id l.length = some ((artifact.empty :: l.map Prod.snd).dropLast, s1) ∧
        view s1 id l.length = some ([a], s2)) := by
  have ht0 : t0 < U64 := hrange t0 (List.mem_cons_self _ _)
  obtain ⟨hmap, hst, hvm⟩ := fresh_state_fields dl sl t0 id ht0
  obtain ⟨hrun, hsorted⟩ := decorate_all_spec l (subscribe (passage.construct dl sl t0) id)
    (⟨t0, 0⟩, artifact.empty) (by rw [hmap]; exact List.pairwise_singleton _ _) hst
    (by rw [hmap]; rfl) hmono
    (fun p hp => hrange p.1 (List.mem_cons_of_mem _ (List.mem_map.2 ⟨p, hp, rfl⟩)))
    (by simp only; omega)
  rw [hmap] at hrun hsorted
  simp only [List.singleton_append] at hrun hsorted
  have hcur : cursor { subscribe (passage.construct dl sl t0) id with
      artifact_map := (⟨t0, 0⟩, artifact.empty) :: flushed 0 l } id = some ⟨0, 0⟩ := by
    simp [cursor, hvm, map_find, (id_equiv_iff id id).2 rfl]
  have hlen : (flushed 0 l).length = l.length := flushed_length l 0
  obtain ⟨e, rest, hfl⟩ := List.exists_cons_of_ne_nil
    (fun hc : flushed 0 l = [] => by rw [hc] at hlen; simp at hlen; omega)
  refine ⟨_, hrun, ?_, ?_⟩
  · intro h0
    subst h0
    obtain ⟨kk, hkk, hview, hcur1⟩ := view_after_split _ id l.length ⟨0, 0⟩ artifact.empty
      [] e rest (by simp [hfl]) hsorted hcur hk hk'
    have htake : (e :: rest).take l.length = e :: rest :=
      List.take_of_length_le (by rw [← hfl, hlen])
    rw [htake] at hkk hview
    rw [← hfl, flushed_map_snd] at hview
    refine ⟨_, hview, view_caught_up _ id l.length kk hcur1 ?_⟩
    simp only [newest_key, hfl, List.getLast?_cons_cons]
    exact hkk
  · intro h0
    have hnotin : (⟨0, 0⟩ : artifact_index) ∉
        (((⟨t0, 0⟩ : artifact_index), artifact.empty) :: flushed 0 l).map Prod.fst := by
      intro hc
      obtain ⟨x, hx, hx0⟩ := List.mem_map.1 hc
      rcases List.mem_cons.1 hx with rfl | hx
      · simp only [artifact_index.mk.injEq] at hx0
        exact h0 hx0.1
      · have := flushed_index_pos l 0 x hx
        rw [hx0] at this
        exact Nat.lt_irrefl 0 this
    have hfind : map_find artifact_index.lt ⟨0, 0⟩
        (((⟨t0, 0⟩ : artifact_index), artifact.empty) :: flushed 0 l) = [] := by
      rw [map_find_eq_nil artifact_index.equiv_iff]
      intro x hx hx0
      exact hnotin (List.mem_map.2 ⟨x, hx, hx0⟩)
    have hnew : newest_key { subscribe (passage.construct dl sl t0) id with
        artifact_map := (⟨t0, 0⟩, artifact.empty) :: flushed 0 l } ≠ some ⟨0, 0⟩ := by
      intro hc
      apply hnotin
      unfold newest_key at hc
      cases hl : (((⟨t0, 0⟩ : artifact_index), artifact.empty) :: flushed 0 l).getLast? with
      | none => simp [hl] at hc
      | some x =>
        simp only [hl, Option.map_some', Option.some.injEq] at hc
        exact List.mem_map.2 ⟨x, List.mem_of_getLast?_eq_some hl, hc⟩
    obtain ⟨c1, hc1, hview, hcur1⟩ := view_from _ id l.length ⟨0, 0⟩
      (⟨t0, 0⟩, artifact.empty) (flushed 0 l) hcur (by simp) hnew (by simp only [hfind])
      hk hk'
    obtain ⟨init, x, y, hL⟩ := split_last_two
      (((⟨t0, 0⟩ : artifact_index), artifact.empty) :: flushed 0 l)
      (by simp only [List.length_cons, hlen]; omega)
    have hinit : (init ++ [x]).length = l.length := by
      have := congrArg List.length hL
      simp only [List.length_cons, hlen, List.length_append, List.length_nil] at this
      simp only [List.length_append, List.length_singleton]
      omega
    have htake : (((⟨t0, 0⟩ : artifact_index), artifact.empty) :: flushed 0 l).take l.length
        = init ++ [x] := by
      rw [hL, show init ++ [x, y] = (init ++ [x]) ++ [y] by simp]
      exact List.take_left' hinit
    have hsnd : artifact.empty :: l.map Prod.snd = (init ++ [x]).map Prod.snd ++ [y.2] := by
      have := congrArg (List.map Prod.snd) hL
      simp only [List.map_cons, flushed_map_snd] at this
      rw [this]
      simp
    rw [htake] at hc1 hview
    simp only [List.getLast?_concat, Option.map_some', Option.some.injEq] at hc1
    subst hc1
    obtain ⟨c2, _, hview2, _⟩ := view_after_split
      { subscribe (passage.construct dl sl t0) id with
        artifact_map := (⟨t0, 0⟩, artifact.empty) :: flushed 0 l
        viewer_map := map_write id_lt id x.1
          (subscribe (passage.construct dl sl t0) id).viewer_map }
      id l.length x.1 x.2 init y [] (by simp only [hL]) hsorted hcur1 hk hk'
    have hty : List.take l.length [y] = [y] := List.take_of_length_le (by simpa using hk)
    rw [hty] at hview2
    refine ⟨_, _, y.2, ?_, ?_, hview2⟩
    · have hl : (l.map Prod.snd).getLast? = some y.2 := by
        have h1 : (artifact.empty :: l.map Prod.snd).getLast? = some y.2 := by
          rw [hsnd, List.getLast?_concat]
        obtain ⟨p, r, hpr⟩ := List.exists_cons_of_ne_nil
          (fun hc : l = [] => by rw [hc] at hk; simp at hk)
        rw [hpr] at h1 ⊢
        simpa [List.getLast?_cons_cons] using h1
      simpa [List.getLast?_map] using hl
    · rw [hview, hsnd, List.dropLast_concat]

theorem fresh_viewer_reads_bootstrap_first_witness :
    1 ≤ sample_submissions.length ∧
      (100 :: sample_submissions.map Prod.fst).Pairwise (fun a b => a ≤ b) ∧
      ∃ s, decorate_all (subscribe (passage.construct 10 10 100) 1) sample_submissions
          = some s ∧
        ∃ s1 s2 a, sample_submissions.getLast?.map Prod.snd = some a ∧
          view s 1 5 = some ([artifact.empty, data_artifact 1, data_artifact 2,
            data_artifact 3, data_artifact 4], s1) ∧
          view s1 1 5 = some ([a], s2) := by
  refine ⟨by decide, by decide, ?_⟩
  obtain ⟨s, hs, _, h⟩ := fresh_viewer_reads_bootstrap_first 10 10 100 1 sample_submissions
    (by decide) (by decide) (by decide) (by decide)
  exact ⟨s, hs, h (by decide)⟩

/-- C1, the claim as stated fails: after `construct(10, 10)` at clock reading 100,
`subscribe(1)` and five uncontended `decorate` calls of Data artifacts at readings
101..105, `view(1, 5)` returns the EMPTY artifact of the bootstrap entry followed by the
first four artifacts, not the five artifacts, and the next `view(1, 5)` returns the
fifth artifact, not the empty list. -/
theorem fresh_viewer_scenario_counterexample :
    ∃ s s1 s2,
      decorate_all (subscribe (passage.construct 10 10 100) 1) sample_submissions = some s ∧
      view s 1 5 = some ([artifact.empty, data_artifact 1, data_artifact 2,
        data_artifact 3, data_artifact 4], s1) ∧
      [artifact.empty, data_artifact 1, data_artifact 2, data_artifact 3, data_artifact 4]
        ≠ sample_submissions.map Prod.snd ∧
      view s1 1 5 = some ([data_artifact 5], s2) :=
  ⟨_, _, _, rfl, rfl, by decide, rfl⟩

/-! ## Claims on the order of indices and on the keys a flush assigns -/

/-- C20: `artifact_index::operator<` is the strict lexicographic order on
`(timestamp, sequence)`: it is irreflexive and transitive, for all `a`, `b` exactly one
of `a < b`, `a == b`, `b < a` holds, `operator==` holds iff both fields are equal, and
`artifact_index::max()` is an upper bound of the `uint64_t` indices: `max() < x` never
holds and `x < max()` holds for every `x` other than `max()`. -/
theorem artifact_index_strict_total_order (a b c x : artifact_index) (hx : x.in_range) :
    (a.lt b = true ↔
        a.timestamp < b.timestamp ∨ (a.timestamp = b.timestamp ∧ a.index < b.index)) ∧
      a.lt a = false ∧
      (a.lt b = true → b.lt c = true → a.lt c = true) ∧
      ((a.lt b = true ∧ a.eq b = false ∧ b.lt a = false) ∨
        (a.lt b = false ∧ a.eq b = true ∧ b.lt a = false) ∨
        (a.lt b = false ∧ a.eq b = false ∧ b.lt a = true)) ∧
      (a.eq b = true ↔ a.timestamp = b.timestamp ∧ a.index = b.index) ∧
      artifact_index.max.lt x = false ∧
      (x ≠ artifact_index.max → x.lt artifact_index.max = true) := by
  refine ⟨artifact_index.lt_iff a b, artifact_index.lt_irrefl a,
    fun h h' => artifact_index.lt_trans h h', ?_, ?_, artifact_index.not_max_lt hx,
    fun h => artifact_index.lt_max hx h⟩
  · cases hab : a.lt b with
    | true =>
      refine Or.inl ⟨rfl, ?_, artifact_index.lt_asymm hab⟩
      rw [Bool.eq_false_iff, Ne, artifact_index.eq_iff]
      intro h
      rw [h, artifact_index.lt_irrefl] at hab
      exact Bool.noConfusion hab
    | false =>
      cases hba : b.lt a with
      | true =>
        refine Or.inr (Or.inr ⟨rfl, ?_, rfl⟩)
        rw [Bool.eq_false_iff, Ne, artifact_index.eq_iff]
        intro h
        rw [h, artifact_index.lt_irrefl] at hba
        exact Bool.noConfusion hba
      | false =>
        exact Or.inr (Or.inl ⟨rfl, (artifact_index.eq_iff a b).2
          (artifact_index.eq_of_not_lt hab hba), rfl⟩)
  · rw [artifact_index.eq_iff]
    cases a
    cases b
    simp

theorem artifact_index_strict_total_order_witness :
    (⟨7, 3⟩ : artifact_index).in_range ∧
      artifact_index.max.lt ⟨7, 3⟩ = false ∧
      (⟨7, 3⟩ : artifact_index).lt artifact_index.max = true := by
  have h := artifact_index_strict_total_order ⟨1, 5⟩ ⟨2, 0⟩ ⟨2, 1⟩ ⟨7, 3⟩ (by decide)
  exact ⟨by decide, h.2.2.2.2.2.1, h.2.2.2.2.2.2 (by decide)⟩

theorem flushed_getElem (pending : List (Nat × artifact)) :
    ∀ (i j : Nat), (flushed i pending)[j]? =
      pending[j]?.map (fun p => (({ timestamp := p.1, index := i + j + 1 } : artifact_index),
        p.2)) := by
  induction pending with
  | nil => simp [flushed]
  | cons p rest ih =>
    intro i j
    cases j with
    | zero => simp [flushed]
    | succ j =>
      simp only [flushed, List.getElem?_cons_succ, ih]
      have : i + 1 + j + 1 = i + (j + 1) + 1 := by omega
      rw [this]

/-- C16: in a state whose log is a non-empty well-formed map with newest key `(t0, s0)`,
with pending buffer `[(t1, b1), ..., (tk, bk)]`, incoming artifact `a` and clock reading
`t` such that `t0 ≤ t1 ≤ ... ≤ tk ≤ t` and `s0 + k + 1` fits `uint64_t`: the flush (the
uncontended `decorate`) returns; the log afterwards is the log before, unchanged,
followed by exactly the `k + 1` new entries `(tj, s0 + j) -> bj` for `j = 1..k` and
`(t, s0 + k + 1) -> a`; the whole log is strictly increasing, so that every new key is
above every earlier key and above the new keys inserted before it; and the pending
buffer is empty afterwards. -/
theorem flush_assigns_consecutive_keys (s : passage) (art : artifact) (now : Nat)
    (last : artifact_index × artifact)
    (hok : map_ok artifact_index.lt s.artifact_map)
    (hlast : s.artifact_map.getLast? = some last)
    (htime : (last.1.timestamp :: s.storage_list.map Prod.fst ++ [now % U64]).Pairwise
      (fun a b => a ≤ b))
    (hseq : last.1.index + s.storage_list.length + 1 < U64) :
    ∃ s', task s art now = some s' ∧ decorate s art now true = some s' ∧
      s'.artifact_map = s.artifact_map ++ (flushed last.1.index s.storage_list ++
        [({ timestamp := now % U64, index := last.1.index + s.storage_list.length + 1 },
          art)]) ∧
      (flushed last.1.index s.storage_list).length = s.storage_list.length ∧
      (∀ j, (flushed last.1.index s.storage_list)[j]? = s.storage_list[j]?.map
        (fun p => (({ timestamp := p.1, index := last.1.index + j + 1 } : artifact_index),
          p.2))) ∧
      map_ok artifact_index.lt s'.artifact_map ∧
      (∀ old ∈ s.artifact_map, ∀ new ∈ flushed last.1.index s.storage_list ++
          [(({ timestamp := now % U64, index := last.1.index + s.storage_list.length + 1 }
            : artifact_index), art)], old.1.lt new.1 = true) ∧
      s'.storage_list = [] ∧ s'.viewer_map = s.viewer_map := by
  obtain ⟨htask, hsorted⟩ := task_spec s art now last hok hlast htime hseq
  refine ⟨_, htask, by simpa [decorate] using htask, rfl, flushed_length _ _,
    flushed_getElem _ _, hsorted, ?_, rfl, rfl⟩
  intro old hold new hnew
  exact (List.pairwise_append.1 hsorted).2.2 old hold new hnew

theorem flush_assigns_consecutive_keys_witness :
    map_ok artifact_index.lt sample_pending_passage.artifact_map ∧
      sample_pending_passage.artifact_map.getLast?
        = some ({ timestamp := 103, index := 3 }, data_artifact 3) ∧
      ∃ s', decorate sample_pending_passage (data_artifact 6) 106 true = some s' ∧
        s'.artifact_map = sample_pending_passage.artifact_map ++
          [({ timestamp := 104, index := 4 }, data_artifact 4),
           ({ timestamp := 105, index := 5 }, data_artifact 5),
           ({ timestamp := 106, index := 6 }, data_artifact 6)] := by
  refine ⟨by decide, by decide, ?_⟩
  obtain ⟨s', _, h2, h3, _⟩ := flush_assigns_consecutive_keys sample_pending_passage
    (data_artifact 6) 106 ({ timestamp := 103, index := 3 }, data_artifact 3)
    (by decide) (by decide) (by decide) (by decide)
  exact ⟨s', h2, h3⟩

/-! ## What each operation leaves unchanged -/

theorem view_loop_key_mem (rest : List (artifact_index × artifact)) :
    ∀ (e : artifact_index × artifact) (n : Nat) (acc : List artifact),
      ∃ x ∈ e :: rest, (view_loop e rest n acc).2 = x.1 := by
  induction rest with
  | nil =>
    intro e n acc
    exact ⟨e, List.mem_cons_self _ _, by simp [view_loop]⟩
  | cons e' rest ih =>
    intro e n acc
    simp only [view_loop]
    split_ifs with h
    · obtain ⟨x, hx, hx'⟩ := ih e' ((n + (U64 - 1)) % U64) (acc ++ [e.2])
      exact ⟨x, List.mem_cons_of_mem _ hx, hx'⟩
    · exact ⟨e, List.mem_cons_self _ _, rfl⟩

theorem map_find_suffix {K V : Type} (lt : K → K → Bool) (k : K) (m : List (K × V)) :
    ∃ pre, m = pre ++ map_find lt k m := by
  induction m with
  | nil => exact ⟨[], rfl⟩
  | cons e rest ih =>
    simp only [map_find]
    split_ifs with h
    · exact ⟨[], rfl⟩
    · obtain ⟨pre, hpre⟩ := ih
      exact ⟨e :: pre, by rw [List.cons_append, ← hpre]⟩

theorem view_start_subset (c : artifact_index) (m : List (artifact_index × artifact)) :
    ∀ x ∈ (match map_find artifact_index.lt c m with
      | [] => m
      | _ :: after => after), x ∈ m := by
  intro x hx
  obtain ⟨pre, hpre⟩ := map_find_suffix artifact_index.lt c m
  cases hfound : map_find artifact_index.lt c m with
  | nil =>
    rw [hfound] at hx
    exact hx
  | cons y after =>
    rw [hfound] at hx hpre
    rw [hpre]
    exact List.mem_append_right _ (List.mem_cons_of_mem _ hx)

theorem view_frame (s s' : passage) (id n : Nat) (r : List artifact)
    (h : view s id n = some (r, s')) :
    s'.display_limit = s.display_limit ∧ s'.storage_limit = s.storage_limit ∧
      s'.artifact_map = s.artifact_map ∧ s'.storage_list = s.storage_list ∧
      (s'.viewer_map = s.viewer_map ∨
        ∃ e ∈ s.artifact_map, s'.viewer_map = map_write id_lt id e.1 s.viewer_map) := by
  unfold view at h
  split at h
  · simp only [Option.some.injEq, Prod.mk.injEq] at h
    rw [← h.2]
    exact ⟨rfl, rfl, rfl, rfl, Or.inl rfl⟩
  · split at h
    · exact Option.noConfusion h
    · split_ifs at h with heq
      · simp only [Option.some.injEq, Prod.mk.injEq] at h
        rw [← h.2]
        exact ⟨rfl, rfl, rfl, rfl, Or.inl rfl⟩
      · rename_i viewer tail hv opt newest hlast
        have hsub := view_start_subset viewer.2 s.artifact_map
        dsimp only at h
        generalize (match map_find artifact_index.lt viewer.2 s.artifact_map with
          | [] => s.artifact_map
          | _ :: after => after) = it at h hsub
        cases it with
        | nil => exact Option.noConfusion h
        | cons e rest =>
          simp only [Option.some.injEq, Prod.mk.injEq] at h
          rw [← h.2]
          obtain ⟨x, hx, hx'⟩ := view_loop_key_mem rest e n []
          exact ⟨rfl, rfl, rfl, rfl, Or.inr ⟨x, hsub x hx, by rw [hx']⟩⟩

theorem task_frame (s s' : passage) (art : artifact) (now : Nat)
    (h : task s art now = some s') :
    s'.display_limit = s.display_limit ∧ s'.storage_limit = s.storage_limit ∧
      s'.storage_list = [] ∧ s'.viewer_map = s.viewer_map := by
  unfold task at h
  split at h
  · exact Option.noConfusion h
  · simp only [Option.some.injEq] at h
    rw [← h]
    exact ⟨rfl, rfl, rfl, rfl⟩

theorem decorate_frame (s s' : passage) (art : artifact) (now : Nat) (acquired : Bool)
    (h : decorate s art now acquired = some s') :
    s'.display_limit = s.display_limit ∧ s'.storage_limit = s.storage_limit ∧
      s'.viewer_map = s.viewer_map ∧
      (s.storage_list.length ≤ s.storage_limit →
        s'.storage_list.length ≤ s.storage_limit) := by
  unfold decorate at h
  split_ifs at h with h1 h2
  · obtain ⟨a, b, c, d⟩ := task_frame s s' art now h
    exact ⟨a, b, d, fun _ => by simp [c]⟩
  · simp only [Option.some.injEq] at h
    rw [← h]
    refine ⟨rfl, rfl, rfl, fun _ => ?_⟩
    simp only [List.length_append, List.length_singleton]
    omega
  · obtain ⟨a, b, c, d⟩ := task_frame s s' art now h
    exact ⟨a, b, d, fun _ => by simp [c]⟩

/-! ## Claims on the pending buffer bound and on `clear_all_viewed` doing nothing -/

theorem step_storage_bound (s s' : passage) (op : operation) (h : step s op = some s')
    (hb : s.storage_list.length ≤ s.storage_limit) :
    s'.storage_limit = s.storage_limit ∧ s'.storage_list.length ≤ s'.storage_limit := by
  cases op with
  | decorate art now acquired =>
    obtain ⟨_, h2, _, h4⟩ := decorate_frame s s' art now acquired h
    exact ⟨h2, by rw [h2]; exact h4 hb⟩
  | dismantle =>
    simp only [step, Option.some.injEq] at h
    rw [← h]
    exact ⟨rfl, hb⟩
  | clear_all_viewed =>
    simp only [step, Option.some.injEq] at h
    rw [← h]
    unfold clear_all_viewed
    split_ifs
    · exact ⟨rfl, hb⟩
    · exact ⟨rfl, hb⟩
  | subscribe id =>
    simp only [step, Option.some.injEq] at h
    rw [← h]
    exact ⟨rfl, hb⟩
  | unsubscribe id =>
    simp only [step, Option.some.injEq] at h
    rw [← h]
    exact ⟨rfl, hb⟩
  | view id n =>
    simp only [step, Option.map_eq_some', Prod.exists, exists_eq_right] at h
    obtain ⟨r, hr⟩ := h
    obtain ⟨_, h2, _, h4, _⟩ := view_frame s s' id n r hr
    exact ⟨h2, by rw [h2, h4]; exact hb⟩

theorem run_storage_bound (ops : List operation) :
    ∀ (s s' : passage), run s ops = some s' → s.storage_list.length ≤ s.storage_limit →
      s'.storage_limit = s.storage_limit ∧ s'.storage_list.length ≤ s'.storage_limit := by
  induction ops with
  | nil =>
    intro s s' h hb
    simp only [run, Option.some.injEq] at h
    rw [← h]
    exact ⟨rfl, hb⟩
  | cons op rest ih =>
    intro s s' h hb
    simp only [run] at h
    cases hstep : step s op with
    | none => simp [hstep] at h
    | some s1 =>
      simp only [hstep] at h
      obtain ⟨h1, h2⟩ := step_storage_bound s s1 op hstep hb
      obtain ⟨h3, h4⟩ := ih s1 s' h h2
      exact ⟨by rw [h3, h1], h4⟩

/-- C18: in every state reached from `construct(display_limit, storage_limit)` by any
sequence of `decorate` (with any outcome of the lock attempt), `dismantle`,
`clear_all_viewed`, `subscribe`, `unsubscribe` and `view` calls,
`size_of_storage() <= storage_limit`, where `storage_limit` is the constructor argument
raised to at least 10. -/
theorem pending_buffer_bounded (display_limit storage_limit now : Nat)
    (ops : List operation) (s : passage)
    (h : run (passage.construct display_limit storage_limit now) ops = some s) :
    size_of_storage s ≤ s.storage_limit ∧
      s.storage_limit = (if storage_limit < 10 then 10 else storage_limit) ∧
      10 ≤ s.storage_limit := by
  obtain ⟨h1, h2⟩ := run_storage_bound ops _ s h (by simp [passage.construct])
  refine ⟨h2, h1, ?_⟩
  rw [h1]
  simp only [passage.construct]
  split_ifs <;> omega

theorem pending_buffer_bounded_witness :
    ∃ s, run (passage.construct 3 3 100)
        [operation.decorate (data_artifact 1) 101 false, operation.subscribe 1,
          operation.decorate (data_artifact 2) 102 false, operation.view 1 0] = some s ∧
      size_of_storage s = 2 ∧ size_of_storage s ≤ s.storage_limit ∧ s.storage_limit = 10 := by
  refine ⟨_, rfl, rfl, ?_⟩
  have h := pending_buffer_bounded 3 3 100
    [operation.decorate (data_artifact 1) 101 false, operation.subscribe 1,
      operation.decorate (data_artifact 2) 102 false, operation.view 1 0] _ rfl
  exact ⟨h.1, h.2.1⟩

theorem artifact_index.not_lt_zero (a : artifact_index) : a.lt zero_cursor = false := by
  rw [Bool.eq_false_iff, Ne, artifact_index.lt_iff]
  simp [zero_cursor]

theorem artifact_index.eq_zero_of_not_lt {r : artifact_index}
    (h : zero_cursor.lt r = false) : r = zero_cursor :=
  artifact_index.eq_of_not_lt (artifact_index.not_lt_zero r) h

theorem clear_loop_head_kept (bound : artifact_index) (m : List (artifact_index × artifact))
    (h : ∀ e ∈ m.head?, e.1.lt bound = false) : clear_loop bound m = m := by
  cases m with
  | nil => rfl
  | cons e rest =>
    have he := h e (by simp)
    simp [clear_loop, he]

/-- C14: `clear_all_viewed` leaves the whole state, the log in particular, exactly as it
was whenever the log holds fewer than `display_limit` entries, and also, whatever the
log size, whenever some subscribed viewer's cursor is the zero cursor assigned by
`subscribe`. -/
theorem clear_all_viewed_no_deletion (s : passage) :
    (s.artifact_map.length < s.display_limit → clear_all_viewed s = s) ∧
      ((∃ p ∈ s.viewer_map, p.2 = zero_cursor) → clear_all_viewed s = s) := by
  refine ⟨fun h => by simp [clear_all_viewed, h], ?_⟩
  rintro ⟨p, hp, hzero⟩
  unfold clear_all_viewed
  split_ifs with hsize
  · rfl
  · have hr := (newest_all_viewed_loop_spec s.viewer_map artifact_index.max).2.2 p hp
    rw [hzero] at hr
    rw [artifact_index.eq_zero_of_not_lt hr]
    dsimp only
    rw [clear_loop_head_kept _ _ (fun e _ => artifact_index.not_lt_zero e.1)]

theorem clear_all_viewed_no_deletion_witness :
    ∃ s, run (passage.construct 10 10 100)
        (operation.subscribe 1 :: operation.subscribe 2 ::
          ((List.range 20).map
            (fun i => operation.decorate (data_artifact i) (101 + i) true) ++
          [operation.view 1 20])) = some s ∧
      s.display_limit ≤ number_of_displayed s ∧
      clear_all_viewed s = s := by
  refine ⟨_, rfl, by decide, ?_⟩
  exact (clear_all_viewed_no_deletion _).2 ⟨(2, zero_cursor), by decide, rfl⟩

/-! ## `view` for every count, and lookups after a change of a map -/

theorem view_loop_count (rest : List (artifact_index × artifact))
    (e : artifact_index × artifact) (n : Nat) (acc : List artifact) (h2 : n < U64) :
    (view_loop e rest n acc).1 = acc ++ ((e :: rest).take (view_count n)).map Prod.snd ∧
      some (view_loop e rest n acc).2
        = ((e :: rest).take (view_count n)).getLast?.map Prod.fst := by
  by_cases h0 : n = 0
  · subst h0
    have hU : U64 = (U64 - 1) + 1 := by simp [U64]
    cases rest with
    | nil =>
      rw [view_count, if_pos rfl, hU]
      simp [view_loop]
    | cons e' rest =>
      have hn : (0 + (U64 - 1)) % U64 = U64 - 1 := by simp [U64]
      have hne : U64 - 1 ≠ 0 := by simp [U64]
      obtain ⟨h1, h2⟩ := view_loop_spec rest e' (U64 - 1) (acc ++ [e.2])
        (by simp [U64]) (by simp [U64])
      obtain ⟨j, hj⟩ : ∃ j, U64 - 1 = j + 1 := ⟨U64 - 2, by simp [U64]⟩
      have htake : List.take U64 (e :: e' :: rest)
          = e :: List.take (U64 - 1) (e' :: rest) := by
        have := @List.take_succ_cons _ e (e' :: rest) (U64 - 1)
        rw [← hU] at this
        exact this
      simp only [view_loop, hn, ne_eq, hne, not_false_eq_true, if_true]
      rw [view_count, if_pos rfl, h1, h2, htake, hj]
      simp [List.getLast?_cons_cons]
  · rw [view_count, if_neg h0]
    exact view_loop_spec rest e n acc (by omega) h2

theorem view_from_count (s : passage) (id n : Nat) (c : artifact_index)
    (e : artifact_index × artifact) (rest : List (artifact_index × artifact))
    (hcur : cursor s id = some c) (hne : s.artifact_map ≠ [])
    (hnew : newest_key s ≠ some c)
    (hit : (match map_find artifact_index.lt c s.artifact_map with
      | [] => s.artifact_map
      | _ :: after => after) = e :: rest)
    (h2 : n < U64) :
    ∃ k, ((e :: rest).take (view_count n)).getLast?.map Prod.fst = some k ∧
      view s id n = some (((e :: rest).take (view_count n)).map Prod.snd,
        { s with viewer_map := map_write id_lt id k s.viewer_map }) ∧
      cursor { s with viewer_map := map_write id_lt id k s.viewer_map } id = some k := by
  obtain ⟨hl1, hl2⟩ := view_loop_count rest e n [] h2
  refine ⟨(view_loop e rest n []).2, hl2.symm, ?_, cursor_write s id _ (by simp [hcur])⟩
  unfold cursor at hcur
  unfold view
  split at hcur
  · simp at hcur
  · rename_i viewer tail hv
    simp only [Option.some.injEq] at hcur
    obtain ⟨newest, hlast⟩ : ∃ x, s.artifact_map.getLast? = some x := by
      cases hm : s.artifact_map.getLast? with
      | none => exact absurd (List.getLast?_eq_none_iff.1 hm) hne
      | some x => exact ⟨x, rfl⟩
    rw [hlast]
    simp only
    have hneq : viewer.2.eq newest.1 = false := by
      rw [Bool.eq_false_iff, Ne, artifact_index.eq_iff, hcur]
      intro hc
      apply hnew
      simp [newest_key, hlast, hc]
    rw [hneq, hcur]
    simp only [Bool.false_eq_true, if_false]
    rw [hit]
    simp only [hl1, List.nil_append]

theorem cursor_eq_head (s : passage) (id : Nat) :
    cursor s id = (map_find id_lt id s.viewer_map).head?.map Prod.snd := by
  unfold cursor
  split <;> rename_i h <;> simp [h]

section map_change
variable {K V : Type} {lt : K → K → Bool}

theorem map_find_assign_same (hequiv : ∀ a b, map_equiv lt a b = true ↔ a = b) (k : K)
    (v : V) (m : List (K × V)) :
    ∃ tail, map_find lt k (map_assign lt k v m) = (k, v) :: tail := by
  have hkk : map_equiv lt k k = true := (hequiv k k).2 rfl
  induction m with
  | nil => exact ⟨[], by simp [map_assign, map_find, hkk]⟩
  | cons e rest ih =>
    cases h1 : lt k e.1 with
    | true => exact ⟨e :: rest, by simp [map_assign, map_find, h1, hkk]⟩
    | false =>
      cases h2 : lt e.1 k with
      | true =>
        obtain ⟨tail, ht⟩ := ih
        exact ⟨tail, by simp [map_assign, map_find, h1, h2, map_equiv, ht]⟩
      | false =>
        have hek : e.1 = k := (hequiv e.1 k).1 (by simp [map_equiv, h1, h2])
        refine ⟨rest, ?_⟩
        simp only [map_assign, h1, h2, Bool.false_eq_true, if_false, map_find]
        simp [hek, hkk]

theorem map_find_assign_other (hequiv : ∀ a b, map_equiv lt a b = true ↔ a = b) (k k' : K)
    (v : V) (hne : k ≠ k') (m : List (K × V)) :
    (map_find lt k' (map_assign lt k v m)).head? = (map_find lt k' m).head? := by
  have hkk' : map_equiv lt k k' = false := by
    rw [Bool.eq_false_iff]
    exact fun h => hne ((hequiv k k').1 h)
  induction m with
  | nil => simp [map_assign, map_find, hkk']
  | cons e rest ih =>
    cases h1 : lt k e.1 with
    | true => simp [map_assign, map_find, h1, hkk']
    | false =>
      cases h2 : lt e.1 k with
      | true =>
        simp only [map_assign, h1, h2, Bool.false_eq_true, if_false, if_true, map_find]
        split_ifs
        · rfl
        · exact ih
      | false =>
        have hek : map_equiv lt e.1 k' = false := by
          rw [(hequiv e.1 k).1 (by simp [map_equiv, h1, h2])]
          exact hkk'
        simp only [map_assign, h1, h2, Bool.false_eq_true, if_false, map_find, hek]

theorem map_find_write_other (hequiv : ∀ a b, map_equiv lt a b = true ↔ a = b) (k k' : K)
    (v : V) (hne : k ≠ k') (m : List (K × V)) :
    (map_find lt k' (map_write lt k v m)).head? = (map_find lt k' m).head? := by
  induction m with
  | nil => simp [map_write, map_find]
  | cons e rest ih =>
    by_cases h : map_equiv lt e.1 k = true
    · have hek : e.1 = k := (hequiv e.1 k).1 h
      have hkk' : map_equiv lt e.1 k' = false := by
        rw [Bool.eq_false_iff, hek]
        exact fun h => hne ((hequiv k k').1 h)
      simp only [map_write, h, if_true, map_find, hkk', Bool.false_eq_true, if_false]
    · simp only [map_write, h, if_false, map_find]
      split_ifs
      · rfl
      · exact ih

theorem map_find_erase_other (hequiv : ∀ a b, map_equiv lt a b = true ↔ a = b) (k k' : K)
    (hne : k ≠ k') (m : List (K × V)) :
    (map_find lt k' (map_erase lt k m)).head? = (map_find lt k' m).head? := by
  induction m with
  | nil => simp [map_erase, map_find]
  | cons e rest ih =>
    by_cases h : map_equiv lt e.1 k = true
    · have hek : e.1 = k := (hequiv e.1 k).1 h
      have hkk' : map_equiv lt e.1 k' = false := by
        rw [Bool.eq_false_iff, hek]
        exact fun h => hne ((hequiv k k').1 h)
      simp only [map_erase, h, if_true, map_find, hkk', Bool.false_eq_true, if_false]
    · simp only [map_erase, h, if_false, map_find]
      split_ifs
      · rfl
      · exact ih

theorem map_assign_idem (hirr : ∀ a, lt a a = false) (k : K) (v : V) (m : List (K × V)) :
    map_assign lt k v (map_assign lt k v m) = map_assign lt k v m := by
  induction m with
  | nil => simp [map_assign, hirr]
  | cons e rest ih =>
    cases h1 : lt k e.1 with
    | true => simp [map_assign, h1, hirr]
    | false =>
      cases h2 : lt e.1 k with
      | true => simp [map_assign, h1, h2, ih]
      | false => simp [map_assign, h1, h2]

end map_change

/-! ## Claims on `view` with count 0, on `subscribe` and on the round trip -/

theorem view_count_pos (n : Nat) : 1 ≤ view_count n := by
  unfold view_count
  split_ifs with h
  · simp [U64]
  · omega

theorem take_view_count_head (n : Nat) (e : artifact_index × artifact)
    (rest : List (artifact_index × artifact)) :
    (((e :: rest).take (view_count n)).map Prod.snd).head? = some e.2 := by
  obtain ⟨j, hj⟩ : ∃ j, view_count n = j + 1 := ⟨view_count n - 1, by
    have := view_count_pos n
    omega⟩
  rw [hj]
  simp

/-- C19: in a state whose log is a non-empty well-formed map holding fewer than
`2 ^ 64 - 1` entries, for a viewer `id` whose cursor `c` is not the newest key:
`view(id, 0)` returns the artifacts of every entry from its start position to the end of
the log (every entry with a key above `c` when `c` is a key of the log, the whole log
when it is not) and sets the cursor to the newest key. -/
theorem view_zero_returns_rest_of_log (s : passage) (id : Nat) (c : artifact_index)
    (hok : map_ok artifact_index.lt s.artifact_map)
    (hcur : cursor s id = some c)
    (hne : s.artifact_map ≠ [])
    (hlen : s.artifact_map.length < U64 - 1)
    (hnew : newest_key s ≠ some c) :
    ∃ newest, newest_key s = some newest ∧
      cursor { s with viewer_map := map_write id_lt id newest s.viewer_map } id
        = some newest ∧
      (c ∈ s.artifact_map.map Prod.fst →
        view s id 0 = some ((s.artifact_map.filter (fun e => c.lt e.1)).map Prod.snd,
          { s with viewer_map := map_write id_lt id newest s.viewer_map })) ∧
      (c ∉ s.artifact_map.map Prod.fst →
        view s id 0 = some (s.artifact_map.map Prod.snd,
          { s with viewer_map := map_write id_lt id newest s.viewer_map })) := by
  have hU : (0 : Nat) < U64 := by simp [U64]
  have hvc : view_count 0 = U64 := by simp [view_count]
  obtain ⟨newest, hlast⟩ : ∃ x, s.artifact_map.getLast? = some x := by
    cases hm : s.artifact_map.getLast? with
    | none => exact absurd (List.getLast?_eq_none_iff.1 hm) hne
    | some x => exact ⟨x, rfl⟩
  have hnk : newest_key s = some newest.1 := by simp [newest_key, hlast]
  refine ⟨newest.1, hnk, cursor_write s id _ (by simp [hcur]), ?_, ?_⟩
  · intro hc
    obtain ⟨pre, v, post, hm, hpre, hpost⟩ := sorted_split hok hc
    have hfilter : s.artifact_map.filter (fun e => c.lt e.1) = post := by
      rw [hm]
      exact filter_after_split hpre hpost
    cases post with
    | nil =>
      exfalso
      apply hnew
      simp [newest_key, hm]
    | cons e rest =>
      have hfind : map_find artifact_index.lt c s.artifact_map = (c, v) :: e :: rest := by
        rw [hm]
        apply map_find_split artifact_index.equiv_iff
        intro x hx hxc
        have := hpre x hx
        rw [hxc, artifact_index.lt_irrefl] at this
        exact Bool.noConfusion this
      obtain ⟨k, hk, hview, _⟩ := view_from_count s id 0 c e rest hcur hne hnew
        (by rw [hfind]) hU
      have htake : (e :: rest).take (view_count 0) = e :: rest := by
        apply List.take_of_length_le
        have := congrArg List.length hm
        simp only [List.length_append, List.length_cons] at this ⊢
        omega
      rw [htake] at hk hview
      rw [hm, List.getLast?_append_of_ne_nil _ (by simp), List.getLast?_cons_cons] at hlast
      rw [hlast] at hk
      simp only [Option.map_some', Option.some.injEq] at hk
      rw [hfilter, hview, hk]
  · intro hc
    have hfind : map_find artifact_index.lt c s.artifact_map = [] := by
      rw [map_find_eq_nil artifact_index.equiv_iff]
      intro e he hec
      exact hc (List.mem_map.2 ⟨e, he, hec⟩)
    obtain ⟨e, rest, hm⟩ := List.exists_cons_of_ne_nil hne
    obtain ⟨k, hk, hview, _⟩ := view_from_count s id 0 c e rest hcur hne hnew
      (by rw [hfind]; exact hm) hU
    have htake : (e :: rest).take (view_count 0) = e :: rest := by
      apply List.take_of_length_le
      rw [← hm]
      omega
    rw [htake, ← hm] at hk hview
    rw [hlast] at hk
    simp only [Option.map_some', Option.some.injEq] at hk
    rw [hview, hk]

theorem view_zero_returns_rest_of_log_witness :
    cursor sample_passage 1 = some { timestamp := 101, index := 1 } ∧
      newest_key sample_passage ≠ some { timestamp := 101, index := 1 } ∧
      view sample_passage 1 0 = some ([data_artifact 2, data_artifact 3],
        { sample_passage with
          viewer_map := [(1, { timestamp := 103, index := 3 }),
            (2, { timestamp := 0, index := 0 })] }) := by
  refine ⟨by decide, by decide, ?_⟩
  obtain ⟨newest, hn, _, h, _⟩ := view_zero_returns_rest_of_log sample_passage 1
    { timestamp := 101, index := 1 } (by decide) (by decide) (by decide) (by decide)
    (by decide)
  have hnewest : newest = { timestamp := 103, index := 3 } := by
    have h' : newest_key sample_passage = some { timestamp := 103, index := 3 } := by decide
    rw [hn] at h'
    exact Option.some.inj h'
  subst hnewest
  rw [h (by decide)]
  decide

/-- C13: for every state and every `id`, `subscribe(id)` sets the cursor of `id` to the
zero cursor whether or not `id` was subscribed, leaves the cursor of every other viewer,
the log, the pending buffer and the limits unchanged, and is idempotent; on a log that
is a non-empty well-formed map whose oldest key is not the zero key, a `view(id, n)`
that follows returns the entries of the log from the oldest one on (as many as the
count allows). -/
theorem subscribe_resets_cursor (s : passage) (id : Nat) :
    cursor (subscribe s id) id = some zero_cursor ∧
      (∀ id', id' ≠ id → cursor (subscribe s id) id' = cursor s id') ∧
      (subscribe s id).artifact_map = s.artifact_map ∧
      (subscribe s id).storage_list = s.storage_list ∧
      (subscribe s id).display_limit = s.display_limit ∧
      (subscribe s id).storage_limit = s.storage_limit ∧
      subscribe (subscribe s id) id = subscribe s id ∧
      (∀ n e rest, map_ok artifact_index.lt s.artifact_map → s.artifact_map = e :: rest →
        e.1 ≠ zero_cursor → n < U64 →
        ∃ s', view (subscribe s id) id n
            = some (((e :: rest).take (view_count n)).map Prod.snd, s') ∧
          (((e :: rest).take (view_count n)).map Prod.snd).head? = some e.2) := by
  have hself : cursor (subscribe s id) id = some zero_cursor := by
    obtain ⟨tail, ht⟩ := map_find_assign_same id_equiv_iff id zero_cursor s.viewer_map
    rw [cursor_eq_head]
    simp only [subscribe]
    rw [show ({ timestamp := 0, index := 0 } : artifact_index) = zero_cursor from rfl, ht]
    rfl
  refine ⟨hself, ?_, rfl, rfl, rfl, rfl, ?_, ?_⟩
  · intro id' hne
    rw [cursor_eq_head, cursor_eq_head]
    simp only [subscribe]
    rw [map_find_assign_other id_equiv_iff id id' _ (fun h => hne h.symm)]
  · simp only [subscribe]
    rw [map_assign_idem (fun a => by simp [id_lt])]
  · intro n e rest hok hm he hn
    have hnot : ∀ x ∈ s.artifact_map, x.1 ≠ zero_cursor := by
      intro x hx hx0
      rw [hm] at hx hok
      rcases List.mem_cons.1 hx with rfl | hx
      · exact he hx0
      · have := List.rel_of_pairwise_cons hok hx
        simp only at this
        rw [hx0, artifact_index.not_lt_zero] at this
        exact Bool.noConfusion this
    have hfind : map_find artifact_index.lt zero_cursor (subscribe s id).artifact_map = [] :=
      (map_find_eq_nil artifact_index.equiv_iff _ _).2 hnot
    have hnew : newest_key (subscribe s id) ≠ some zero_cursor := by
      intro hc
      unfold newest_key at hc
      cases hl : (subscribe s id).artifact_map.getLast? with
      | none => simp [hl] at hc
      | some x =>
        simp only [hl, Option.map_some', Option.some.injEq] at hc
        exact hnot x (List.mem_of_getLast?_eq_some hl) hc
    obtain ⟨k, _, hview, _⟩ := view_from_count (subscribe s id) id n zero_cursor e rest hself
      (by simp [subscribe, hm]) hnew (by rw [hfind]; exact hm) hn
    exact ⟨_, hview, take_view_count_head n e rest⟩

theorem subscribe_resets_cursor_witness :
    cursor sample_passage 1 = some { timestamp := 101, index := 1 } ∧
      cursor (subscribe sample_passage 1) 1 = some zero_cursor ∧
      ∃ s', view (subscribe sample_passage 1) 1 2
        = some ([artifact.empty, data_artifact 1], s') := by
  have h := subscribe_resets_cursor sample_passage 1
  obtain ⟨s', hv, _⟩ := h.2.2.2.2.2.2.2 2 _ _ (by decide) rfl (by decide) (by decide)
  exact ⟨by decide, h.1, s', hv⟩

/-- C11 (as amended): in a state whose log is a non-empty well-formed map, whose pending
buffer is empty and in which the cursor of viewer `id` is the newest key `(t0, s0)`:
after an uncontended `decorate(a)` whose clock reading is later than `t0`, or equal to
`t0` with `s0 + 1` fitting `uint64_t`, `view(id, 1)` returns exactly one artifact, equal
to `a` in kind, payload bytes and payload length. -/
theorem decorate_view_round_trip (s : passage) (a : artifact) (now id : Nat)
    (last : artifact_index × artifact)
    (hok : map_ok artifact_index.lt s.artifact_map)
    (hlast : s.artifact_map.getLast? = some last)
    (hpending : s.storage_list = [])
    (hcur : cursor s id = some last.1)
    (htime : last.1.timestamp ≤ now % U64)
    (hseq : last.1.timestamp < now % U64 ∨ last.1.index + 1 < U64) :
    ∃ s1 s2 r, decorate s a now true = some s1 ∧
      view s1 id 1 = some ([r], s2) ∧
      r.type = a.type ∧ r.data = a.data ∧ r.data_length = a.data_length := by
  have hstep : last.1.lt ⟨now % U64, (last.1.index + 1) % U64⟩ = true := by
    rw [artifact_index.lt_iff]
    rcases hseq with h | h
    · exact Or.inl h
    · rw [Nat.mod_eq_of_lt h]
      simp only
      omega
  have hbelow : ∀ e ∈ s.artifact_map,
      e.1.lt (⟨now % U64, (last.1.index + 1) % U64⟩ : artifact_index) = true := by
    intro e he
    rcases sorted_le_last hok hlast e he with heq | hlt
    · rw [heq]
      exact hstep
    · exact artifact_index.lt_trans hlt hstep
  have hassign := map_assign_append ⟨now % U64, (last.1.index + 1) % U64⟩ a _ hbelow
  have hsorted := sorted_append_one hok (⟨now % U64, (last.1.index + 1) % U64⟩, a) hbelow
  have htask : task s a now = some { s with
      artifact_map := s.artifact_map ++ [(⟨now % U64, (last.1.index + 1) % U64⟩, a)]
      storage_list := [] } := by
    simp only [task, hlast, hpending, task_drain, hassign]
  obtain ⟨init, hinit⟩ := List.getLast?_eq_some_iff.1 hlast
  obtain ⟨k, _, hview, _⟩ := view_after_split
    { s with
      artifact_map := s.artifact_map ++ [(⟨now % U64, (last.1.index + 1) % U64⟩, a)]
      storage_list := [] }
    id 1 last.1 last.2 init (⟨now % U64, (last.1.index + 1) % U64⟩, a) []
    (by simp [hinit]) hsorted (by rw [cursor_eq_head] at hcur ⊢; exact hcur)
    (by decide) (by simp [U64])
  exact ⟨_, _, a, by simpa [decorate] using htask, hview, rfl, rfl, rfl⟩

theorem decorate_view_round_trip_witness :
    sample_read_all_passage.artifact_map.getLast?
        = some ({ timestamp := 103, index := 3 }, data_artifact 3) ∧
      cursor sample_read_all_passage 1 = some { timestamp := 103, index := 3 } ∧
      ∃ s1 s2, decorate sample_read_all_passage (data_artifact 9) 103 true = some s1 ∧
        view s1 1 1 = some ([data_artifact 9], s2) := by
  refine ⟨by decide, by decide, ?_⟩
  obtain ⟨s1, s2, r, h1, h2, ht, hd, hl⟩ := decorate_view_round_trip sample_read_all_passage
    (data_artifact 9) 103 1 ({ timestamp := 103, index := 3 }, data_artifact 3)
    (by decide) (by decide) (by decide) (by decide) (by decide) (by decide)
  have hr : r = data_artifact 9 := by
    cases r
    simp only [data_artifact] at ht hd hl ⊢
    rw [ht, hd, hl]
  rw [hr] at h2
  exact ⟨s1, s2, h1, h2⟩

/-- C11, the claim as stated fails: with the only entry at key `(100, 2 ^ 64 - 1)` and
the cursor of viewer 1 at it, an uncontended `decorate` at clock reading 100 assigns
the wrapped key `(100, 0)`, which sorts before the cursor; the newest key is still
the cursor, and `view(1, 1)` returns the empty list. -/
theorem decorate_view_round_trip_wraps :
    map_ok artifact_index.lt sample_last_sequence_passage.artifact_map ∧
      sample_last_sequence_passage.storage_list = [] ∧
      newest_key sample_last_sequence_passage = cursor sample_last_sequence_passage 1 ∧
      decorate sample_last_sequence_passage (data_artifact 9) 100 true
        = some { sample_last_sequence_passage with
            artifact_map :=
              [({ timestamp := 100, index := 0 }, data_artifact 9),
               ({ timestamp := 100, index := U64 - 1 }, artifact.empty)] } ∧
      view { sample_last_sequence_passage with
            artifact_map :=
              [({ timestamp := 100, index := 0 }, data_artifact 9),
               ({ timestamp := 100, index := U64 - 1 }, artifact.empty)] } 1 1
        = some ([], { sample_last_sequence_passage with
            artifact_map :=
              [({ timestamp := 100, index := 0 }, data_artifact 9),
               ({ timestamp := 100, index := U64 - 1 }, artifact.empty)] }) := by
  decide

/-! ## Claim on the lock discipline -/

/-- C15 (as amended): for every state and every call, along the branch the call takes.
No call acquires the log lock while it holds the registry lock, no call acquires any
lock while it holds the log lock, and every lock is released when the call is over.
`dismantle` acquires and releases the log lock only; `subscribe`, `unsubscribe` and
`view` of an unknown viewer the registry lock only; `clear_all_viewed` below its size
guard no lock. `clear_all_viewed` past its size guard and `view` of a subscribed viewer
acquire the registry lock first and the log lock second, releasing the registry lock
before they acquire the log lock, so they hold at most one lock at a time. `decorate`
acquires the pending-buffer lock first and releases it last; when it buffers the
artifact that is its only lock; otherwise it acquires the log lock while holding the
pending-buffer lock, releases the log lock first, and holds two locks at once. -/
theorem lock_discipline (s : passage) (op : operation) :
    acquires_while_holding lock_name.subscribing lock_name.working [] (lock_events s op)
        = false ∧
      acquires_while_holding lock_name.working lock_name.work_sync [] (lock_events s op)
        = false ∧
      acquires_while_holding lock_name.working lock_name.subscribing [] (lock_events s op)
        = false ∧
      held_at_end [] (lock_events s op) = [] ∧
      (op = operation.dismantle →
        acquisitions (lock_events s op) = [lock_name.working] ∧
        releases (lock_events s op) = [lock_name.working] ∧
        max_held [] (lock_events s op) = 1) ∧
      (∀ id, op = operation.subscribe id ∨ op = operation.unsubscribe id →
        acquisitions (lock_events s op) = [lock_name.subscribing] ∧
        releases (lock_events s op) = [lock_name.subscribing] ∧
        max_held [] (lock_events s op) = 1) ∧
      (op = operation.clear_all_viewed →
        (s.artifact_map.length < s.display_limit → lock_events s op = []) ∧
        (s.display_limit ≤ s.artifact_map.length →
          acquisitions (lock_events s op) = [lock_name.subscribing, lock_name.working] ∧
          releases (lock_events s op) = [lock_name.subscribing, lock_name.working] ∧
          max_held [] (lock_events s op) = 1)) ∧
      (∀ id n, op = operation.view id n →
        (cursor s id = none →
          acquisitions (lock_events s op) = [lock_name.subscribing] ∧
          releases (lock_events s op) = [lock_name.subscribing] ∧
          max_held [] (lock_events s op) = 1) ∧
        (cursor s id ≠ none →
          acquisitions (lock_events s op) = [lock_name.subscribing, lock_name.working] ∧
          releases (lock_events s op) = [lock_name.subscribing, lock_name.working] ∧
          max_held [] (lock_events s op) = 1)) ∧
      (∀ art now acquired, op = operation.decorate art now acquired →
        (lock_events s op).head? = some (lock_event.acquire lock_name.work_sync) ∧
        (lock_events s op).getLast? = some (lock_event.release lock_name.work_sync) ∧
        (decorate_buffers s art acquired →
          acquisitions (lock_events s op) = [lock_name.work_sync] ∧
          releases (lock_events s op) = [lock_name.work_sync] ∧
          max_held [] (lock_events s op) = 1 ∧
          decorate s art now acquired
            = some { s with storage_list := s.storage_list ++ [(now % U64, art)] }) ∧
        (¬ decorate_buffers s art acquired →
          acquisitions (lock_events s op) = [lock_name.work_sync, lock_name.working] ∧
          releases (lock_events s op) = [lock_name.working, lock_name.work_sync] ∧
          max_held [] (lock_events s op) = 2 ∧
          acquires_while_holding lock_name.work_sync lock_name.working []
            (lock_events s op) = true ∧
          decorate s art now acquired = task s art now)) := by
  cases op with
  | decorate art now acquired =>
    refine ⟨?_, ?_, ?_, ?_, fun h => operation.noConfusion h,
      fun _ h => h.elim (fun h => operation.noConfusion h) (fun h => operation.noConfusion h),
      fun h => operation.noConfusion h, fun _ _ h => operation.noConfusion h, ?_⟩
    · simp only [lock_events]
      split_ifs <;> decide
    · simp only [lock_events]
      split_ifs <;> decide
    · simp only [lock_events]
      split_ifs <;> decide
    · simp only [lock_events]
      split_ifs <;> decide
    · intro art' now' acquired' heq
      simp only [operation.decorate.injEq] at heq
      obtain ⟨rfl, rfl, rfl⟩ := heq
      simp only [lock_events, decorate, decorate_buffers]
      split_ifs with h1 h2
      · refine ⟨by decide, by decide, fun h => ?_, fun _ => ⟨by decide, by decide,
          by decide, by decide, rfl⟩⟩
        rw [h1] at h
        exact absurd h.1 (by decide)
      · refine ⟨by decide, by decide, fun _ => ⟨by decide, by decide, by decide, rfl⟩,
          fun h => ?_⟩
        exact absurd ⟨Bool.eq_false_iff.2 h1, h2⟩ h
      · refine ⟨by decide, by decide, fun h => absurd h.2 h2, fun _ => ⟨by decide,
          by decide, by decide, by decide, rfl⟩⟩
  | dismantle =>
    refine ⟨?_, ?_, ?_, ?_, fun _ => ⟨?_, ?_, ?_⟩,
      fun _ h => h.elim (fun h => operation.noConfusion h) (fun h => operation.noConfusion h),
      fun h => operation.noConfusion h, fun _ _ h => operation.noConfusion h,
      fun _ _ _ h => operation.noConfusion h⟩
    all_goals
      simp only [lock_events]
      decide
  | clear_all_viewed =>
    refine ⟨?_, ?_, ?_, ?_, fun h => operation.noConfusion h,
      fun _ h => h.elim (fun h => operation.noConfusion h) (fun h => operation.noConfusion h),
      fun _ => ⟨fun hsize => ?_, fun hsize => ?_⟩, fun _ _ h => operation.noConfusion h,
      fun _ _ _ h => operation.noConfusion h⟩
    · simp only [lock_events]
      split_ifs <;> decide
    · simp only [lock_events]
      split_ifs <;> decide
    · simp only [lock_events]
      split_ifs <;> decide
    · simp only [lock_events]
      split_ifs <;> decide
    · simp only [lock_events, hsize, if_true]
    · simp only [lock_events, Nat.not_lt.2 hsize, if_false]
      decide
  | subscribe id =>
    refine ⟨?_, ?_, ?_, ?_, fun h => operation.noConfusion h, fun _ _ => ⟨?_, ?_, ?_⟩,
      fun h => operation.noConfusion h, fun _ _ h => operation.noConfusion h,
      fun _ _ _ h => operation.noConfusion h⟩
    all_goals
      simp only [lock_events]
      decide
  | unsubscribe id =>
    refine ⟨?_, ?_, ?_, ?_, fun h => operation.noConfusion h, fun _ _ => ⟨?_, ?_, ?_⟩,
      fun h => operation.noConfusion h, fun _ _ h => operation.noConfusion h,
      fun _ _ _ h => operation.noConfusion h⟩
    all_goals
      simp only [lock_events]
      decide
  | view id n =>
    refine ⟨?_, ?_, ?_, ?_, fun h => operation.noConfusion h,
      fun _ h => h.elim (fun h => operation.noConfusion h) (fun h => operation.noConfusion h),
      fun h => operation.noConfusion h, ?_, fun _ _ _ h => operation.noConfusion h⟩
    · simp only [lock_events]
      split <;> decide
    · simp only [lock_events]
      split <;> decide
    · simp only [lock_events]
      split <;> decide
    · simp only [lock_events]
      split <;> decide
    · intro id' n' heq
      simp only [operation.view.injEq] at heq
      obtain ⟨rfl, rfl⟩ := heq
      simp only [lock_events]
      unfold cursor
      split
      · exact ⟨fun _ => by decide, fun h => absurd rfl h⟩
      · exact ⟨fun h => Option.noConfusion h, fun _ => by decide⟩

theorem lock_discipline_witness :
    cursor sample_passage 1 ≠ none ∧
      acquisitions (lock_events sample_passage (operation.view 1 5))
        = [lock_name.subscribing, lock_name.working] ∧
      max_held [] (lock_events sample_passage (operation.view 1 5)) = 1 := by
  have h := (lock_discipline sample_passage (operation.view 1 5)).2.2.2.2.2.2.2.1 1 5 rfl
  exact ⟨by decide, (h.2 (by decide)).1, (h.2 (by decide)).2.2⟩

/-- C15, the claim as stated fails: an uncontended `decorate` acquires the pending-buffer
lock and then, still holding it, the log lock, so it holds two of the three locks at
once; and `view` of a subscribed viewer acquires two of the three locks (registry, then
log), so `clear_all_viewed` is not the only call that acquires more than one. -/
theorem decorate_holds_two_locks :
    lock_events sample_passage (operation.decorate (data_artifact 4) 104 true)
        = [lock_event.acquire lock_name.work_sync, lock_event.acquire lock_name.working,
            lock_event.release lock_name.working, lock_event.release lock_name.work_sync] ∧
      max_held [] (lock_events sample_passage
        (operation.decorate (data_artifact 4) 104 true)) = 2 ∧
      (locks_acquired (lock_events sample_passage
        (operation.decorate (data_artifact 4) 104 true))).length = 2 ∧
      (locks_acquired (lock_events sample_passage (operation.view 1 5))).length = 2 := by
  decide

/-! ## Membership and order after a change of a map -/

section map_members
variable {K V : Type} {lt : K → K → Bool}

theorem mem_map_assign (k : K) (v : V) (m : List (K × V)) (p : K × V)
    (h : p ∈ map_assign lt k v m) : p.2 = v ∨ p ∈ m := by
  induction m with
  | nil =>
    simp only [map_assign, List.mem_singleton] at h
    exact Or.inl (by rw [h])
  | cons e rest ih =>
    simp only [map_assign] at h
    split_ifs at h with h1 h2
    · rcases List.mem_cons.1 h with rfl | h
      · exact Or.inl rfl
      · exact Or.inr h
    · rcases List.mem_cons.1 h with rfl | h
      · exact Or.inr (List.mem_cons_self _ _)
      · rcases ih h with h | h
        · exact Or.inl h
        · exact Or.inr (List.mem_cons_of_mem _ h)
    · rcases List.mem_cons.1 h with rfl | h
      · exact Or.inl rfl
      · exact Or.inr (List.mem_cons_of_mem _ h)

theorem map_assign_key_mem (hequiv : ∀ a b, map_equiv lt a b = true ↔ a = b) (k : K) (v : V)
    (m : List (K × V)) (p : K × V) (h : p ∈ map_assign lt k v m) : p.1 = k ∨ p ∈ m := by
  induction m with
  | nil =>
    simp only [map_assign, List.mem_singleton] at h
    exact Or.inl (by rw [h])
  | cons e rest ih =>
    simp only [map_assign] at h
    split_ifs at h with h1 h2
    · rcases List.mem_cons.1 h with rfl | h
      · exact Or.inl rfl
      · exact Or.inr h
    · rcases List.mem_cons.1 h with rfl | h
      · exact Or.inr (List.mem_cons_self _ _)
      · rcases ih h with h | h
        · exact Or.inl h
        · exact Or.inr (List.mem_cons_of_mem _ h)
    · rcases List.mem_cons.1 h with rfl | h
      · exact Or.inl ((hequiv e.1 k).1 (by simp [map_equiv, h1, h2]))
      · exact Or.inr (List.mem_cons_of_mem _ h)

theorem map_assign_keys (k : K) (v : V) (m : List (K × V)) (e : K × V) (h : e ∈ m) :
    ∃ x ∈ map_assign lt k v m, x.1 = e.1 := by
  induction m with
  | nil => simp at h
  | cons y rest ih =>
    simp only [map_assign]
    split_ifs with h1 h2
    · exact ⟨e, List.mem_cons_of_mem _ h, rfl⟩
    · rcases List.mem_cons.1 h with rfl | h
      · exact ⟨e, List.mem_cons_self _ _, rfl⟩
      · obtain ⟨x, hx, hx'⟩ := ih h
        exact ⟨x, List.mem_cons_of_mem _ hx, hx'⟩
    · rcases List.mem_cons.1 h with rfl | h
      · exact ⟨(e.1, v), List.mem_cons_self _ _, rfl⟩
      · exact ⟨e, List.mem_cons_of_mem _ h, rfl⟩

theorem map_assign_ne_nil (k : K) (v : V) (m : List (K × V)) : map_assign lt k v m ≠ [] := by
  cases m with
  | nil => simp [map_assign]
  | cons e rest =>
    simp only [map_assign]
    split_ifs <;> simp

theorem map_assign_ok (hequiv : ∀ a b, map_equiv lt a b = true ↔ a = b)
    (htrans : ∀ a b c, lt a b = true → lt b c = true → lt a c = true) (k : K) (v : V)
    (m : List (K × V)) (hok : map_ok lt m) : map_ok lt (map_assign lt k v m) := by
  induction m with
  | nil => exact List.pairwise_singleton _ _
  | cons e rest ih =>
    obtain ⟨he, hrest⟩ := List.pairwise_cons.1 hok
    simp only [map_assign]
    split_ifs with h1 h2
    · apply List.pairwise_cons.2
      refine ⟨?_, hok⟩
      intro x hx
      rcases List.mem_cons.1 hx with rfl | hx
      · exact h1
      · exact htrans _ _ _ h1 (he x hx)
    · apply List.pairwise_cons.2
      refine ⟨?_, ih hrest⟩
      intro x hx
      rcases map_assign_key_mem hequiv k v rest x hx with hk | hx
      · rw [hk]
        exact h2
      · exact he x hx
    · exact List.pairwise_cons.2 ⟨he, hrest⟩

theorem mem_map_write (k : K) (v : V) (m : List (K × V)) (p : K × V)
    (h : p ∈ map_write lt k v m) : (p.2 = v ∧ ∃ y ∈ m, y.1 = p.1) ∨ p ∈ m := by
  induction m with
  | nil => simp [map_write] at h
  | cons e rest ih =>
    simp only [map_write] at h
    split_ifs at h with h1
    · rcases List.mem_cons.1 h with rfl | h
      · exact Or.inl ⟨rfl, e, List.mem_cons_self _ _, rfl⟩
      · exact Or.inr (List.mem_cons_of_mem _ h)
    · rcases List.mem_cons.1 h with rfl | h
      · exact Or.inr (List.mem_cons_self _ _)
      · rcases ih h with ⟨h, y, hy, hy'⟩ | h
        · exact Or.inl ⟨h, y, List.mem_cons_of_mem _ hy, hy'⟩
        · exact Or.inr (List.mem_cons_of_mem _ h)

theorem map_write_ok (k : K) (v : V) (m : List (K × V)) (hok : map_ok lt m) :
    map_ok lt (map_write lt k v m) := by
  induction m with
  | nil => exact List.Pairwise.nil
  | cons e rest ih =>
    obtain ⟨he, hrest⟩ := List.pairwise_cons.1 hok
    simp only [map_write]
    split_ifs with h1
    · exact List.pairwise_cons.2 ⟨he, hrest⟩
    · apply List.pairwise_cons.2
      refine ⟨?_, ih hrest⟩
      intro x hx
      rcases mem_map_write k v rest x hx with ⟨_, y, hy, hy'⟩ | hx
      · rw [← hy']
        exact he y hy
      · exact he x hx

theorem map_erase_sublist (k : K) (m : List (K × V)) : (map_erase lt k m).Sublist m := by
  induction m with
  | nil => exact List.Sublist.refl _
  | cons e rest ih =>
    simp only [map_erase]
    split_ifs
    · exact List.sublist_cons_self _ _
    · exact List.Sublist.cons₂ _ ih

end map_members

/-! ## The log stays non-empty -/

theorem artifact_index.lt_of_lt_of_not_lt {a b c : artifact_index} (h : a.lt b = true)
    (h' : c.lt b = false) : a.lt c = true := by
  rw [Bool.eq_false_iff, Ne, artifact_index.lt_iff] at h'
  rw [artifact_index.lt_iff] at h ⊢
  omega

theorem le_last_of_exists {m : List (artifact_index × artifact)}
    (hok : map_ok artifact_index.lt m) {x : artifact_index × artifact}
    (hlast : m.getLast? = some x) {c : artifact_index}
    (h : ∃ e ∈ m, e.1.lt c = false) : x.1.lt c = false := by
  obtain ⟨e, he, hec⟩ := h
  rw [Bool.eq_false_iff]
  intro hx
  rcases sorted_le_last hok hlast e he with heq | hlt
  · rw [heq, hx] at hec
    exact Bool.noConfusion hec
  · rw [artifact_index.lt_trans hlt hx] at hec
    exact Bool.noConfusion hec

theorem task_drain_ok (pending : List (Nat × artifact)) :
    ∀ (cur : artifact_index) (m : List (artifact_index × artifact)),
      map_ok artifact_index.lt m →
      map_ok artifact_index.lt (task_drain pending cur m).1 ∧
        ∀ e ∈ m, ∃ x ∈ (task_drain pending cur m).1, x.1 = e.1 := by
  induction pending with
  | nil =>
    intro cur m hok
    exact ⟨hok, fun e he => ⟨e, he, rfl⟩⟩
  | cons p rest ih =>
    intro cur m hok
    simp only [task_drain]
    obtain ⟨h1, h2⟩ := ih ⟨p.1, (cur.index + 1) % U64⟩ _
      (map_assign_ok artifact_index.equiv_iff
        (fun _ _ _ h h' => artifact_index.lt_trans h h')
        ⟨p.1, (cur.index + 1) % U64⟩ p.2 m hok)
    refine ⟨h1, fun e he => ?_⟩
    obtain ⟨y, hy, hy'⟩ := @map_assign_keys _ _ artifact_index.lt
      ⟨p.1, (cur.index + 1) % U64⟩ p.2 m e he
    obtain ⟨x, hx, hx'⟩ := h2 y hy
    exact ⟨x, hx, by rw [hx', hy']⟩

theorem task_total (s : passage) (art : artifact) (now : Nat)
    (hne : s.artifact_map ≠ []) (hok : map_ok artifact_index.lt s.artifact_map) :
    ∃ s', task s art now = some s' ∧ s'.artifact_map ≠ [] ∧
      map_ok artifact_index.lt s'.artifact_map ∧
      (∀ e ∈ s.artifact_map, ∃ x ∈ s'.artifact_map, x.1 = e.1) ∧
      s'.viewer_map = s.viewer_map ∧ s'.display_limit = s.display_limit := by
  obtain ⟨last, hlast⟩ : ∃ x, s.artifact_map.getLast? = some x := by
    cases hm : s.artifact_map.getLast? with
    | none => exact absurd (List.getLast?_eq_none_iff.1 hm) hne
    | some x => exact ⟨x, rfl⟩
  obtain ⟨h1, h2⟩ := task_drain_ok s.storage_list last.1 s.artifact_map hok
  have htask : task s art now = some { s with
      artifact_map := map_assign artifact_index.lt
        ⟨now % U64, ((task_drain s.storage_list last.1 s.artifact_map).2.index + 1) % U64⟩
        art (task_drain s.storage_list last.1 s.artifact_map).1
      storage_list := [] } := by
    simp only [task, hlast]
  refine ⟨_, htask, map_assign_ne_nil _ _ _, ?_, ?_, rfl, rfl⟩
  · exact map_assign_ok artifact_index.equiv_iff
      (fun _ _ _ h h' => artifact_index.lt_trans h h') _ _ _ h1
  · intro e he
    obtain ⟨y, hy, hy'⟩ := h2 e he
    obtain ⟨x, hx, hx'⟩ := @map_assign_keys _ _ artifact_index.lt
      ⟨now % U64, ((task_drain s.storage_list last.1 s.artifact_map).2.index + 1) % U64⟩
      art _ y hy
    exact ⟨x, hx, by rw [hx', hy']⟩

theorem decorate_total (s : passage) (art : artifact) (now : Nat) (acquired : Bool)
    (hne : s.artifact_map ≠ []) (hok : map_ok artifact_index.lt s.artifact_map) :
    ∃ s', decorate s art now acquired = some s' ∧ s'.artifact_map ≠ [] ∧
      map_ok artifact_index.lt s'.artifact_map ∧
      (∀ e ∈ s.artifact_map, ∃ x ∈ s'.artifact_map, x.1 = e.1) ∧
      s'.viewer_map = s.viewer_map ∧ s'.display_limit = s.display_limit := by
  unfold decorate
  split_ifs
  · exact task_total s art now hne hok
  · exact ⟨_, rfl, hne, hok, fun e he => ⟨e, he, rfl⟩, rfl, rfl⟩
  · exact task_total s art now hne hok

theorem map_find_head_equiv {K V : Type} (lt : K → K → Bool) (k : K) (m : List (K × V))
    (y : K × V) (after : List (K × V)) (h : map_find lt k m = y :: after) :
    map_equiv lt y.1 k = true := by
  induction m with
  | nil => simp [map_find] at h
  | cons e rest ih =>
    simp only [map_find] at h
    split_ifs at h with h1
    · simp only [List.cons.injEq] at h
      rw [← h.1]
      exact h1
    · exact ih h

theorem view_total (s : passage) (id n : Nat) (hne : s.artifact_map ≠ []) :
    ∃ r s', view s id n = some (r, s') := by
  obtain ⟨newest, hlast⟩ : ∃ x, s.artifact_map.getLast? = some x := by
    cases hm : s.artifact_map.getLast? with
    | none => exact absurd (List.getLast?_eq_none_iff.1 hm) hne
    | some x => exact ⟨x, rfl⟩
  unfold view
  split
  · exact ⟨_, _, rfl⟩
  · rename_i viewer tail hv
    rw [hlast]
    dsimp only
    split_ifs with heq
    · exact ⟨_, _, rfl⟩
    · cases hfound : map_find artifact_index.lt viewer.2 s.artifact_map with
      | nil =>
        dsimp only
        obtain ⟨e, rest, hm⟩ := List.exists_cons_of_ne_nil hne
        rw [hm]
        exact ⟨_, _, rfl⟩
      | cons y after =>
        dsimp only
        cases after with
        | nil =>
          exfalso
          apply heq
          obtain ⟨pre, hpre⟩ := map_find_suffix artifact_index.lt viewer.2 s.artifact_map
          rw [hfound] at hpre
          rw [hpre, List.getLast?_concat] at hlast
          have hy := map_find_head_equiv _ _ _ _ _ hfound
          rw [artifact_index.equiv_iff] at hy
          rw [artifact_index.eq_iff, ← hy]
          simp only [Option.some.injEq] at hlast
          rw [hlast]
        | cons e rest => exact ⟨_, _, rfl⟩

theorem clear_loop_suffix (bound : artifact_index) (m : List (artifact_index × artifact)) :
    ∃ pre, m = pre ++ clear_loop bound m := by
  induction m with
  | nil => exact ⟨[], rfl⟩
  | cons e rest ih =>
    simp only [clear_loop]
    split_ifs
    · obtain ⟨pre, hpre⟩ := ih
      exact ⟨e :: pre, by rw [List.cons_append, ← hpre]⟩
    · exact ⟨[], rfl⟩

theorem bounded_suffix {pre suf : List (artifact_index × artifact)}
    (hok : map_ok artifact_index.lt (pre ++ suf)) (hsuf : suf ≠ []) {c : artifact_index}
    (h : ∃ e ∈ pre ++ suf, e.1.lt c = false) : ∃ e ∈ suf, e.1.lt c = false := by
  obtain ⟨x, hx⟩ : ∃ x, suf.getLast? = some x := by
    cases hm : suf.getLast? with
    | none => exact absurd (List.getLast?_eq_none_iff.1 hm) hsuf
    | some x => exact ⟨x, rfl⟩
  have hlast : (pre ++ suf).getLast? = some x := by
    rw [List.getLast?_append_of_ne_nil _ hsuf, hx]
  exact ⟨x, List.mem_of_getLast?_eq_some hx, le_last_of_exists hok hlast h⟩

theorem log_invariant_suffix (s s' : passage) (pre : List (artifact_index × artifact))
    (hinv : log_invariant s) (hm : s.artifact_map = pre ++ s'.artifact_map)
    (hne : s'.artifact_map ≠ []) (hv : s'.viewer_map = s.viewer_map)
    (hd : s'.display_limit = s.display_limit) : log_invariant s' := by
  obtain ⟨_, hok, h10, hcur⟩ := hinv
  rw [hm] at hok
  refine ⟨hne, (List.pairwise_append.1 hok).2.1, by rw [hd]; exact h10, ?_⟩
  intro p hp
  rw [hv] at hp
  have := hcur p hp
  rw [hm] at this
  exact bounded_suffix hok hne this

theorem log_invariant_registry (s s' : passage) (hinv : log_invariant s)
    (hm : s'.artifact_map = s.artifact_map) (hd : s'.display_limit = s.display_limit)
    (hv : ∀ p ∈ s'.viewer_map, (∃ e ∈ s.artifact_map, p.2 = e.1) ∨ p.2 = zero_cursor ∨
      p ∈ s.viewer_map) : log_invariant s' := by
  obtain ⟨hne, hok, h10, hcur⟩ := hinv
  refine ⟨by rw [hm]; exact hne, by rw [hm]; exact hok, by rw [hd]; exact h10, ?_⟩
  intro p hp
  rw [hm]
  rcases hv p hp with ⟨e, he, hpe⟩ | hz | hold
  · exact ⟨e, he, by rw [hpe]; exact artifact_index.lt_irrefl _⟩
  · obtain ⟨e, rest, hcons⟩ := List.exists_cons_of_ne_nil hne
    exact ⟨e, by rw [hcons]; exact List.mem_cons_self _ _, by
      rw [hz]; exact artifact_index.not_lt_zero _⟩
  · exact hcur p hold

theorem step_log_invariant (s : passage) (op : operation) (hinv : log_invariant s)
    (hguard : op = operation.clear_all_viewed → s.viewer_map ≠ []) :
    ∃ s', step s op = some s' ∧ log_invariant s' := by
  obtain ⟨hne, hok, h10, hcur⟩ := hinv
  cases op with
  | decorate art now acquired =>
    obtain ⟨s', h1, h2, h3, h4, h5, h6⟩ := decorate_total s art now acquired hne hok
    refine ⟨s', h1, h2, h3, by rw [h6]; exact h10, ?_⟩
    intro p hp
    rw [h5] at hp
    obtain ⟨e, he, hep⟩ := hcur p hp
    obtain ⟨x, hx, hxe⟩ := h4 e he
    exact ⟨x, hx, by rw [hxe]; exact hep⟩
  | dismantle =>
    refine ⟨_, rfl, log_invariant_suffix s (dismantle s)
      (s.artifact_map.take (s.artifact_map.length - s.display_limit))
      ⟨hne, hok, h10, hcur⟩ ?_ ?_ rfl rfl⟩
    · simp only [dismantle, dismantle_loop_eq_drop, List.take_append_drop]
    · simp only [dismantle, dismantle_loop_eq_drop, ne_eq, List.drop_eq_nil_iff, not_le]
      have := List.length_pos.2 hne
      omega
  | clear_all_viewed =>
    refine ⟨_, rfl, ?_⟩
    by_cases hsize : s.artifact_map.length < s.display_limit
    · have : clear_all_viewed s = s := by simp [clear_all_viewed, hsize]
      rw [this]
      exact ⟨hne, hok, h10, hcur⟩
    · obtain ⟨p, rest, hp⟩ := List.exists_cons_of_ne_nil (hguard rfl)
      have hpm : p ∈ s.viewer_map := by
        rw [hp]
        exact List.mem_cons_self _ _
      obtain ⟨x, hx⟩ : ∃ x, s.artifact_map.getLast? = some x := by
        cases hm : s.artifact_map.getLast? with
        | none => exact absurd (List.getLast?_eq_none_iff.1 hm) hne
        | some x => exact ⟨x, rfl⟩
      have hxp : x.1.lt p.2 = false := le_last_of_exists hok hx (hcur p hpm)
      have hpr := (newest_all_viewed_loop_spec s.viewer_map artifact_index.max).2.2 p hpm
      have hxr : x.1.lt (newest_all_viewed_loop s.viewer_map artifact_index.max) = false := by
        rw [Bool.eq_false_iff]
        intro hc
        rw [artifact_index.lt_of_lt_of_not_lt hc hpr] at hxp
        exact Bool.noConfusion hxp
      have hmap : (clear_all_viewed s).artifact_map
          = clear_loop (newest_all_viewed_loop s.viewer_map artifact_index.max)
            s.artifact_map := by
        simp [clear_all_viewed, hsize]
      obtain ⟨pre, hpre⟩ := clear_loop_suffix
        (newest_all_viewed_loop s.viewer_map artifact_index.max) s.artifact_map
      refine log_invariant_suffix s (clear_all_viewed s) pre ⟨hne, hok, h10, hcur⟩
        (by rw [hmap]; exact hpre) ?_ (by simp [clear_all_viewed, hsize])
        (by simp [clear_all_viewed, hsize])
      rw [hmap, clear_loop_eq_filter _ _ hok]
      intro hnil
      have hmem : x ∈ s.artifact_map.filter
          (fun e => !e.1.lt (newest_all_viewed_loop s.viewer_map artifact_index.max)) :=
        List.mem_filter.2 ⟨List.mem_of_getLast?_eq_some hx, by simp [hxr]⟩
      rw [hnil] at hmem
      exact List.not_mem_nil _ hmem
  | subscribe id =>
    refine ⟨_, rfl, log_invariant_registry s (subscribe s id) ⟨hne, hok, h10, hcur⟩ rfl rfl ?_⟩
    intro p hp
    rcases mem_map_assign _ _ _ p hp with h | h
    · exact Or.inr (Or.inl h)
    · exact Or.inr (Or.inr h)
  | unsubscribe id =>
    refine ⟨_, rfl, log_invariant_registry s (unsubscribe s id) ⟨hne, hok, h10, hcur⟩ rfl rfl
      ?_⟩
    intro p hp
    exact Or.inr (Or.inr ((map_erase_sublist _ _).subset hp))
  | view id n =>
    obtain ⟨r, s', hview⟩ := view_total s id n hne
    obtain ⟨h1, _, h3, _, h5⟩ := view_frame s s' id n r hview
    refine ⟨s', by simp [step, hview], log_invariant_registry s s' ⟨hne, hok, h10, hcur⟩
      h3 h1 ?_⟩
    intro p hp
    rcases h5 with h5 | ⟨e, he, h5⟩
    · rw [h5] at hp
      exact Or.inr (Or.inr hp)
    · rw [h5] at hp
      rcases mem_map_write _ _ _ p hp with ⟨h, _⟩ | h
      · exact Or.inl ⟨e, he, h⟩
      · exact Or.inr (Or.inr h)

theorem run_log_invariant (ops : List operation) :
    ∀ s : passage, log_invariant s → clear_with_viewers s ops = true →
      ∃ s', run s ops = some s' ∧ log_invariant s' := by
  induction ops with
  | nil =>
    intro s hinv _
    exact ⟨s, rfl, hinv⟩
  | cons op rest ih =>
    intro s hinv hguard
    simp only [clear_with_viewers, Bool.and_eq_true] at hguard
    obtain ⟨s1, hstep, hinv1⟩ := step_log_invariant s op hinv (by
      intro hop
      rw [hop] at hguard
      simpa using hguard.1)
    rw [hstep] at hguard
    obtain ⟨s', hrun, hinv'⟩ := ih s1 hinv1 hguard.2
    exact ⟨s', by simp only [run, hstep, hrun], hinv'⟩

theorem construct_log_invariant (display_limit storage_limit now : Nat) :
    log_invariant (passage.construct display_limit storage_limit now) := by
  refine ⟨by simp [passage.construct, map_assign], ?_, ?_, ?_⟩
  · simp [passage.construct, map_assign]
  · simp only [passage.construct]
    split_ifs <;> omega
  · intro p hp
    simp [passage.construct] at hp

/-! ## Claim on the non-empty log -/

/-- C17: every sequence of `decorate` (either outcome of the lock attempt), `dismantle`,
`subscribe`, `unsubscribe`, `view` and `clear_all_viewed` calls from construction in
which `clear_all_viewed` is only called while at least one viewer is subscribed runs to
its end with every call defined, and in the state it reaches the log holds at least one
entry, no cursor of the registry is above the newest key, `decorate` and `view` have a
defined result for every argument, `display_limit` is at least 10 and `dismantle`
leaves the log non-empty. -/
theorem log_never_empty (display_limit storage_limit now : Nat) (ops : List operation)
    (hguard : clear_with_viewers (passage.construct display_limit storage_limit now) ops
      = true) :
    ∃ s, run (passage.construct display_limit storage_limit now) ops = some s ∧
      1 ≤ number_of_displayed s ∧
      (∀ p ∈ s.viewer_map, ∀ newest, newest_key s = some newest →
        newest.lt p.2 = false) ∧
      (∀ art t acquired, ∃ s', decorate s art t acquired = some s') ∧
      (∀ id n, ∃ r s', view s id n = some (r, s')) ∧
      10 ≤ s.display_limit ∧
      (dismantle s).artifact_map ≠ [] := by
  obtain ⟨s, hrun, hinv⟩ := run_log_invariant ops _
    (construct_log_invariant display_limit storage_limit now) hguard
  obtain ⟨s1, _, hinv1⟩ := step_log_invariant s operation.dismantle hinv
    (fun h => operation.noConfusion h)
  obtain ⟨hne, hok, h10, hcur⟩ := hinv
  refine ⟨s, hrun, List.length_pos.2 hne, ?_, ?_, fun id n => view_total s id n hne, h10, ?_⟩
  · intro p hp newest hnewest
    unfold newest_key at hnewest
    cases hl : s.artifact_map.getLast? with
    | none => simp [hl] at hnewest
    | some x =>
      simp only [hl, Option.map_some', Option.some.injEq] at hnewest
      rw [← hnewest]
      exact le_last_of_exists hok hl (hcur p hp)
  · intro art t acquired
    obtain ⟨s', h, _⟩ := decorate_total s art t acquired hne hok
    exact ⟨s', h⟩
  · simp only [step, Option.some.injEq] at *
    rename_i hstep
    rw [hstep]
    exact hinv1.1

theorem log_never_empty_witness :
    clear_with_viewers (passage.construct 3 3 100)
        [operation.subscribe 1, operation.decorate (data_artifact 1) 101 true,
          operation.view 1 0, operation.clear_all_viewed, operation.dismantle] = true ∧
      ∃ s, run (passage.construct 3 3 100)
        [operation.subscribe 1, operation.decorate (data_artifact 1) 101 true,
          operation.view 1 0, operation.clear_all_viewed, operation.dismantle] = some s ∧
        1 ≤ number_of_displayed s := by
  refine ⟨by decide, ?_⟩
  obtain ⟨s, h1, h2, _⟩ := log_never_empty 3 3 100
    [operation.subscribe 1, operation.decorate (data_artifact 1) 101 true,
      operation.view 1 0, operation.clear_all_viewed, operation.dismantle] (by decide)
  exact ⟨s, h1, h2⟩

/-! ## Runs with a non-decreasing clock -/

theorem chain_extend {l : List Nat} {clock now : Nat}
    (h : (l ++ [clock]).Pairwise (fun a b => a ≤ b)) (hle : clock ≤ now) :
    (l ++ [now]).Pairwise (fun a b => a ≤ b) ∧
      (l ++ [now] ++ [now]).Pairwise (fun a b => a ≤ b) := by
  obtain ⟨h1, _, h3⟩ := List.pairwise_append.1 h
  have h4 : ∀ x ∈ l, x ≤ now :=
    fun x hx => Nat.le_trans (h3 x hx clock (List.mem_singleton_self _)) hle
  have h5 : (l ++ [now]).Pairwise (fun a b => a ≤ b) := by
    apply List.pairwise_append.2
    refine ⟨h1, List.pairwise_singleton _ _, ?_⟩
    intro a ha b hb
    rw [List.mem_singleton.1 hb]
    exact h4 a ha
  refine ⟨h5, ?_⟩
  apply List.pairwise_append.2
  refine ⟨h5, List.pairwise_singleton _ _, ?_⟩
  intro a ha b hb
  rw [List.mem_singleton.1 hb]
  rcases List.mem_append.1 ha with ha | ha
  · exact h4 a ha
  · rw [List.mem_singleton.1 ha]

theorem cursor_placed_zero (m : List (artifact_index × artifact)) :
    cursor_placed zero_cursor m := by
  by_cases h : zero_cursor ∈ m.map Prod.fst
  · exact Or.inl h
  · refine Or.inr (fun e he => ?_)
    cases hlt : zero_cursor.lt e.1 with
    | true => rfl
    | false =>
      exfalso
      apply h
      exact List.mem_map.2 ⟨e, he, artifact_index.eq_zero_of_not_lt hlt⟩

theorem cursor_placed_suffix {pre suf : List (artifact_index × artifact)}
    (hok : map_ok artifact_index.lt (pre ++ suf)) {c : artifact_index}
    (h : cursor_placed c (pre ++ suf)) : cursor_placed c suf := by
  rcases h with h | h
  · obtain ⟨x, hx, hxc⟩ := List.mem_map.1 h
    rcases List.mem_append.1 hx with hx | hx
    · refine Or.inr (fun e he => ?_)
      rw [← hxc]
      exact (List.pairwise_append.1 hok).2.2 x hx e he
    · exact Or.inl (List.mem_map.2 ⟨x, hx, hxc⟩)
  · exact Or.inr (fun e he => h e (List.mem_append_right _ he))

theorem cursor_placed_append {m new : List (artifact_index × artifact)}
    (hok : map_ok artifact_index.lt (m ++ new)) (hne : m ≠ []) {c : artifact_index}
    (h : cursor_placed c m) : cursor_placed c (m ++ new) := by
  rcases h with h | h
  · obtain ⟨x, hx, hxc⟩ := List.mem_map.1 h
    exact Or.inl (List.mem_map.2 ⟨x, List.mem_append_left _ hx, hxc⟩)
  · refine Or.inr (fun e he => ?_)
    rcases List.mem_append.1 he with he | he
    · exact h e he
    · obtain ⟨x, rest, hm⟩ := List.exists_cons_of_ne_nil hne
      have hx : x ∈ m := by
        rw [hm]
        exact List.mem_cons_self _ _
      exact artifact_index.lt_trans (h x hx) ((List.pairwise_append.1 hok).2.2 x hx e he)

theorem order_invariant_suffix (s s' : passage) (clock count : Nat)
    (pre : List (artifact_index × artifact)) (hinv : order_invariant s clock count)
    (hm : s.artifact_map = pre ++ s'.artifact_map) (hv : s'.viewer_map = s.viewer_map)
    (hst : s'.storage_list = s.storage_list) : order_invariant s' clock count := by
  obtain ⟨hok, hvok, hlast, hcur⟩ := hinv
  rw [hm] at hok
  refine ⟨(List.pairwise_append.1 hok).2.1, by rw [hv]; exact hvok, ?_, ?_⟩
  · intro last h
    rw [hst]
    apply hlast
    rw [hm, List.getLast?_append_of_ne_nil _ (fun hc => by rw [hc] at h; simp at h)]
    exact h
  · intro p hp
    rw [hv] at hp
    have := hcur p hp
    rw [hm] at this
    exact cursor_placed_suffix hok this

theorem order_invariant_registry (s s' : passage) (clock count : Nat)
    (hinv : order_invariant s clock count) (hm : s'.artifact_map = s.artifact_map)
    (hst : s'.storage_list = s.storage_list) (hvok : map_ok id_lt s'.viewer_map)
    (hv : ∀ p ∈ s'.viewer_map, (∃ e ∈ s.artifact_map, p.2 = e.1) ∨ p.2 = zero_cursor ∨
      p ∈ s.viewer_map) : order_invariant s' clock count := by
  obtain ⟨hok, _, hlast, hcur⟩ := hinv
  refine ⟨by rw [hm]; exact hok, hvok, ?_, ?_⟩
  · intro last h
    rw [hst]
    apply hlast
    rw [← hm]
    exact h
  · intro p hp
    rw [hm]
    rcases hv p hp with ⟨e, he, hpe⟩ | hz | hold
    · exact Or.inl (List.mem_map.2 ⟨e, he, hpe.symm⟩)
    · rw [hz]
      exact cursor_placed_zero _
    · exact hcur p hold

theorem decorate_order_invariant (s s' : passage) (art : artifact) (now : Nat)
    (acquired : Bool) (clock count : Nat) (hinv : order_invariant s clock count)
    (h : decorate s art now acquired = some s') (hclock : clock ≤ now) (hnow : now < U64)
    (hcount : count + 1 < U64) : order_invariant s' now (count + 1) := by
  obtain ⟨hok, hvok, hlast, hcur⟩ := hinv
  have hmod : now % U64 = now := Nat.mod_eq_of_lt hnow
  have hflush : ∀ s', task s art now = some s' → order_invariant s' now (count + 1) := by
    intro s' htask
    cases hl : s.artifact_map.getLast? with
    | none => simp [task, hl] at htask
    | some last =>
      obtain ⟨hchain, hidx⟩ := hlast last hl
      have hchain' := (chain_extend (l := last.1.timestamp :: s.storage_list.map Prod.fst)
        hchain hclock).1
      obtain ⟨hspec, hsorted⟩ := task_spec s art now last hok hl
        (by rw [hmod]; exact hchain') (by omega)
      rw [hspec, hmod] at htask
      rw [hmod] at hsorted
      simp only [Option.some.injEq] at htask
      rw [← htask]
      have hne : s.artifact_map ≠ [] := fun hc => by rw [hc] at hl; simp at hl
      refine ⟨hsorted, hvok, ?_, ?_⟩
      · intro last' hl'
        simp only [← List.append_assoc, List.getLast?_concat, Option.some.injEq] at hl'
        rw [← hl']
        simp only [List.map_nil, List.nil_append, List.length_nil]
        exact ⟨List.pairwise_pair.2 (Nat.le_refl _), by omega⟩
      · intro p hp
        exact cursor_placed_append hsorted hne (hcur p hp)
  unfold decorate at h
  split_ifs at h with h1 h2
  · exact hflush s' h
  · simp only [Option.some.injEq] at h
    rw [← h]
    refine ⟨hok, hvok, ?_, hcur⟩
    intro last hl
    obtain ⟨hchain, hidx⟩ := hlast last hl
    have hchain' := (chain_extend (l := last.1.timestamp :: s.storage_list.map Prod.fst)
      hchain hclock).2
    simp only [List.map_append, List.map_cons, List.map_nil, hmod, List.length_append,
      List.length_singleton]
    exact ⟨by simpa [List.append_assoc] using hchain', by omega⟩
  · exact hflush s' h

theorem id_lt_trans (a b c : Nat) (h : id_lt a b = true) (h' : id_lt b c = true) :
    id_lt a c = true := by
  simp only [id_lt, decide_eq_true_eq] at *
  omega

theorem other_order_invariant (s s' : passage) (op : operation) (clock count : Nat)
    (hinv : order_invariant s clock count) (hstep : step s op = some s')
    (hop : readings [op] = []) : order_invariant s' clock count := by
  cases op with
  | decorate art now acquired => simp [readings] at hop
  | dismantle =>
    simp only [step, Option.some.injEq] at hstep
    rw [← hstep]
    refine order_invariant_suffix s (dismantle s) clock count
      (s.artifact_map.take (s.artifact_map.length - s.display_limit)) hinv ?_ rfl rfl
    simp only [dismantle, dismantle_loop_eq_drop, List.take_append_drop]
  | clear_all_viewed =>
    simp only [step, Option.some.injEq] at hstep
    rw [← hstep]
    by_cases hsize : s.artifact_map.length < s.display_limit
    · have : clear_all_viewed s = s := by simp [clear_all_viewed, hsize]
      rw [this]
      exact hinv
    · obtain ⟨pre, hpre⟩ := clear_loop_suffix
        (newest_all_viewed_loop s.viewer_map artifact_index.max) s.artifact_map
      exact order_invariant_suffix s (clear_all_viewed s) clock count pre hinv
        (by simpa [clear_all_viewed, hsize] using hpre) (by simp [clear_all_viewed, hsize])
        (by simp [clear_all_viewed, hsize])
  | subscribe id =>
    simp only [step, Option.some.injEq] at hstep
    rw [← hstep]
    refine order_invariant_registry s (subscribe s id) clock count hinv rfl rfl
      (map_assign_ok id_equiv_iff id_lt_trans _ _ _ hinv.2.1) ?_
    intro p hp
    rcases mem_map_assign _ _ _ p hp with h | h
    · exact Or.inr (Or.inl h)
    · exact Or.inr (Or.inr h)
  | unsubscribe id =>
    simp only [step, Option.some.injEq] at hstep
    rw [← hstep]
    refine order_invariant_registry s (unsubscribe s id) clock count hinv rfl rfl
      (List.Pairwise.sublist (map_erase_sublist _ _) hinv.2.1) ?_
    intro p hp
    exact Or.inr (Or.inr ((map_erase_sublist _ _).subset hp))
  | view id n =>
    simp only [step, Option.map_eq_some', Prod.exists, exists_eq_right] at hstep
    obtain ⟨r, hview⟩ := hstep
    obtain ⟨_, _, h3, h4, h5⟩ := view_frame s s' id n r hview
    refine order_invariant_registry s s' clock count hinv h3 h4 ?_ ?_
    · rcases h5 with h5 | ⟨e, _, h5⟩
      · rw [h5]
        exact hinv.2.1
      · rw [h5]
        exact map_write_ok _ _ _ hinv.2.1
    · intro p hp
      rcases h5 with h5 | ⟨e, he, h5⟩
      · rw [h5] at hp
        exact Or.inr (Or.inr hp)
      · rw [h5] at hp
        rcases mem_map_write _ _ _ p hp with ⟨h, _⟩ | h
        · exact Or.inl ⟨e, he, h⟩
        · exact Or.inr (Or.inr h)

/-! ## The cursor of a viewer along a run -/

theorem cursor_le_refl (a : Option artifact_index) : cursor_le a a := by
  cases a with
  | none => trivial
  | some c => exact artifact_index.lt_irrefl c

theorem cursor_le_none (a : Option artifact_index) : cursor_le a none := by
  cases a <;> trivial

theorem cursor_le_trans {a b c : Option artifact_index} (h : cursor_le a b)
    (h' : cursor_le b c) : cursor_le a c := by
  cases c with
  | none => exact cursor_le_none a
  | some z =>
    cases b with
    | none => exact False.elim h'
    | some y =>
      cases a with
      | none => exact False.elim h
      | some x =>
        simp only [cursor_le] at *
        rw [Bool.eq_false_iff, Ne, artifact_index.lt_iff] at *
        omega

theorem cursor_congr (s s' : passage) (id : Nat) (h : s'.viewer_map = s.viewer_map) :
    cursor s' id = cursor s id := by
  rw [cursor_eq_head, cursor_eq_head, h]

theorem cursor_mem (s : passage) (id : Nat) (c : artifact_index)
    (h : cursor s id = some c) : ∃ p ∈ s.viewer_map, p.2 = c := by
  unfold cursor at h
  split at h
  · simp at h
  · rename_i viewer tail hv
    simp only [Option.some.injEq] at h
    obtain ⟨pre, hpre⟩ := map_find_suffix id_lt id s.viewer_map
    rw [hv] at hpre
    exact ⟨viewer, by rw [hpre]; simp, h⟩

theorem start_split {m : List (artifact_index × artifact)}
    (hok : map_ok artifact_index.lt m) {c : artifact_index} (h : cursor_placed c m) :
    ∃ pre, m = pre ++ (match map_find artifact_index.lt c m with
        | [] => m
        | _ :: after => after) ∧
      (∀ x ∈ pre, c.lt x.1 = false) ∧
      (∀ x ∈ (match map_find artifact_index.lt c m with
        | [] => m
        | _ :: after => after), c.lt x.1 = true) ∧
      ((match map_find artifact_index.lt c m with
        | [] => m
        | _ :: after => after) = [] → m.getLast?.map Prod.fst = some c ∨ m = []) := by
  rcases h with h | h
  · obtain ⟨pre, v, post, hm, hpre, hpost⟩ := sorted_split hok h
    have hfind : map_find artifact_index.lt c m = (c, v) :: post := by
      rw [hm]
      apply map_find_split artifact_index.equiv_iff
      intro x hx hxc
      have := hpre x hx
      rw [hxc, artifact_index.lt_irrefl] at this
      exact Bool.noConfusion this
    rw [hfind]
    refine ⟨pre ++ [(c, v)], by simp [hm], ?_, hpost, ?_⟩
    · intro x hx
      rcases List.mem_append.1 hx with hx | hx
      · exact artifact_index.lt_asymm (hpre x hx)
      · rw [List.mem_singleton.1 hx]
        exact artifact_index.lt_irrefl c
    · intro hpost'
      dsimp only at hpost'
      left
      rw [hm, hpost']
      simp
  · have hfind : map_find artifact_index.lt c m = [] := by
      rw [map_find_eq_nil artifact_index.equiv_iff]
      intro x hx hxc
      have := h x hx
      rw [hxc, artifact_index.lt_irrefl] at this
      exact Bool.noConfusion this
    rw [hfind]
    exact ⟨[], rfl, fun x hx => absurd hx (List.not_mem_nil _), h, fun hm => Or.inr hm⟩

theorem view_new_cursor (s s' : passage) (id n : Nat) (r : List artifact)
    (h : view s id n = some (r, s')) :
    s' = s ∨ ∃ c e, cursor s id = some c ∧
      e ∈ (match map_find artifact_index.lt c s.artifact_map with
        | [] => s.artifact_map
        | _ :: after => after) ∧
      s' = { s with viewer_map := map_write id_lt id e.1 s.viewer_map } := by
  unfold view at h
  split at h
  · simp only [Option.some.injEq, Prod.mk.injEq] at h
    exact Or.inl h.2.symm
  · split at h
    · exact Option.noConfusion h
    · split_ifs at h with heq
      · simp only [Option.some.injEq, Prod.mk.injEq] at h
        exact Or.inl h.2.symm
      · rename_i viewer tail hv opt newest hlast
        have hcur : cursor s id = some viewer.2 := by
          rw [cursor_eq_head, hv]
          rfl
        dsimp only at h
        right
        refine ⟨viewer.2, ?_⟩
        generalize (match map_find artifact_index.lt viewer.2 s.artifact_map with
          | [] => s.artifact_map
          | _ :: after => after) = it at h
        cases it with
        | nil => exact Option.noConfusion h
        | cons e rest =>
          simp only [Option.some.injEq, Prod.mk.injEq] at h
          obtain ⟨x, hx, hx'⟩ := view_loop_key_mem rest e n []
          exact ⟨x, hcur, hx, by rw [← h.2, hx']⟩

theorem map_find_erase_same (id : Nat) (m : List (Nat × artifact_index))
    (hok : map_ok id_lt m) : map_find id_lt id (map_erase id_lt id m) = [] := by
  induction m with
  | nil => rfl
  | cons e rest ih =>
    obtain ⟨he, hrest⟩ := List.pairwise_cons.1 hok
    simp only [map_erase]
    split_ifs with h
    · rw [map_find_eq_nil id_equiv_iff]
      intro x hx hxid
      have := he x hx
      rw [(id_equiv_iff e.1 id).1 h, hxid] at this
      simp [id_lt] at this
    · simp only [map_find, h, if_false]
      exact ih hrest

theorem step_cursor_le (s s' : passage) (op : operation) (clock count id : Nat)
    (hinv : order_invariant s clock count) (hstep : step s op = some s')
    (hop : op ≠ operation.subscribe id) : cursor_le (cursor s id) (cursor s' id) := by
  have hsame : ∀ t : passage, t.viewer_map = s.viewer_map →
      cursor_le (cursor s id) (cursor t id) := by
    intro t h
    rw [cursor_congr s t id h]
    exact cursor_le_refl _
  cases op with
  | decorate art now acquired =>
    exact hsame s' (decorate_frame s s' art now acquired hstep).2.2.1
  | dismantle =>
    simp only [step, Option.some.injEq] at hstep
    rw [← hstep]
    exact hsame _ rfl
  | clear_all_viewed =>
    simp only [step, Option.some.injEq] at hstep
    rw [← hstep]
    apply hsame
    unfold clear_all_viewed
    split_ifs <;> rfl
  | subscribe id' =>
    simp only [step, Option.some.injEq] at hstep
    rw [← hstep]
    have hne : id' ≠ id := fun h => hop (by rw [h])
    have : cursor (subscribe s id') id = cursor s id := by
      rw [cursor_eq_head, cursor_eq_head]
      simp only [subscribe]
      rw [map_find_assign_other id_equiv_iff id' id _ hne]
    rw [this]
    exact cursor_le_refl _
  | unsubscribe id' =>
    simp only [step, Option.some.injEq] at hstep
    rw [← hstep]
    by_cases hne : id' = id
    · have : cursor (unsubscribe s id') id = none := by
        rw [cursor_eq_head, hne]
        simp only [unsubscribe]
        rw [map_find_erase_same id _ hinv.2.1]
        rfl
      rw [this]
      exact cursor_le_none _
    · have : cursor (unsubscribe s id') id = cursor s id := by
        rw [cursor_eq_head, cursor_eq_head]
        simp only [unsubscribe]
        rw [map_find_erase_other id_equiv_iff id' id hne]
      rw [this]
      exact cursor_le_refl _
  | view id' n =>
    simp only [step, Option.map_eq_some', Prod.exists, exists_eq_right] at hstep
    obtain ⟨r, hview⟩ := hstep
    rcases view_new_cursor s s' id' n r hview with h | ⟨c, e, hc, he, h⟩
    · rw [h]
      exact cursor_le_refl _
    · rw [h]
      by_cases hne : id' = id
      · rw [hne] at hc ⊢
        rw [cursor_write s id e.1 (by simp [hc]), hc]
        obtain ⟨p, hp, hpc⟩ := cursor_mem s id c hc
        have hplaced := hinv.2.2.2 p hp
        rw [hpc] at hplaced
        obtain ⟨_, _, _, habove, _⟩ := start_split hinv.1 hplaced
        exact artifact_index.lt_asymm (habove e he)
      · have : cursor { s with viewer_map := map_write id_lt id' e.1 s.viewer_map } id
            = cursor s id := by
          rw [cursor_eq_head, cursor_eq_head]
          simp only
          rw [map_find_write_other id_equiv_iff id' id _ hne]
        rw [this]
        exact cursor_le_refl _

theorem readings_cons (op : operation) (rest : List operation) :
    readings (op :: rest) = readings [op] ++ readings rest := by
  cases op <;> simp [readings]

theorem readings_append (a b : List operation) :
    readings (a ++ b) = readings a ++ readings b := by
  induction a with
  | nil => simp [readings]
  | cons op rest ih =>
    rw [List.cons_append, readings_cons, ih, readings_cons op rest, List.append_assoc]

theorem readings_single (op : operation) :
    readings [op] = [] ∨ ∃ art now acquired, op = operation.decorate art now acquired := by
  cases op with
  | decorate art now acquired => exact Or.inr ⟨art, now, acquired, rfl⟩
  | _ => exact Or.inl rfl

theorem run_order_invariant (ops : List operation) :
    ∀ (s s' : passage) (clock count : Nat), order_invariant s clock count →
      (clock :: readings ops).Pairwise (fun a b => a ≤ b) →
      (∀ t ∈ readings ops, t < U64) →
      count + (readings ops).length < U64 →
      run s ops = some s' →
      (∃ clock', clock' ∈ clock :: readings ops ∧
        order_invariant s' clock' (count + (readings ops).length)) ∧
      ∀ id, operation.subscribe id ∉ ops → cursor_le (cursor s id) (cursor s' id) := by
  induction ops with
  | nil =>
    intro s s' clock count hinv _ _ _ hrun
    simp only [run, Option.some.injEq] at hrun
    rw [← hrun]
    exact ⟨⟨clock, List.mem_cons_self _ _, by simpa [readings] using hinv⟩,
      fun id _ => cursor_le_refl _⟩
  | cons op rest ih =>
    intro s s' clock count hinv hclock hrange hcount hrun
    simp only [run] at hrun
    cases hstep : step s op with
    | none => simp [hstep] at hrun
    | some s1 =>
      simp only [hstep] at hrun
      have hle : ∀ id, operation.subscribe id ∉ op :: rest →
          cursor_le (cursor s id) (cursor s1 id) := by
        intro id hid
        exact step_cursor_le s s1 op clock count id hinv hstep
          (fun h => hid (by rw [h]; exact List.mem_cons_self _ _))
      rcases readings_single op with hop | ⟨art, now, acquired, hop⟩
      · have hr : readings (op :: rest) = readings rest := by
          rw [readings_cons, hop, List.nil_append]
        rw [hr] at hclock hrange hcount ⊢
        have hinv1 := other_order_invariant s s1 op clock count hinv hstep hop
        obtain ⟨h1, h2⟩ := ih s1 s' clock count hinv1 hclock hrange hcount hrun
        exact ⟨h1, fun id hid => cursor_le_trans (hle id hid)
          (h2 id (fun h => hid (List.mem_cons_of_mem _ h)))⟩
      · subst hop
        have hr : readings (operation.decorate art now acquired :: rest)
            = now :: readings rest := rfl
        rw [hr] at hclock hrange hcount ⊢
        simp only [List.length_cons] at hcount
        obtain ⟨hc1, hc2⟩ := List.pairwise_cons.1 hclock
        have hinv1 := decorate_order_invariant s s1 art now acquired clock count hinv hstep
          (hc1 now (List.mem_cons_self _ _)) (hrange now (List.mem_cons_self _ _))
          (by omega)
        obtain ⟨⟨clock', hmem, hinv'⟩, h2⟩ := ih s1 s' now (count + 1) hinv1 hc2
          (fun t ht => hrange t (List.mem_cons_of_mem _ ht)) (by omega) hrun
        refine ⟨⟨clock', List.mem_cons_of_mem _ hmem, ?_⟩, fun id hid =>
          cursor_le_trans (hle id hid) (h2 id (fun h => hid (List.mem_cons_of_mem _ h)))⟩
        have : count + ((readings rest).length + 1) = count + 1 + (readings rest).length := by
          omega
        simp only [List.length_cons]
        rw [this]
        exact hinv'

theorem sorted_take_filter (l : List (artifact_index × artifact)) (m : Nat)
    (x : artifact_index × artifact) (hok : map_ok artifact_index.lt l)
    (hlast : (l.take m).getLast? = some x) :
    l.filter (fun e => !x.1.lt e.1) = l.take m := by
  have hsplit := List.take_append_drop m l
  have hok' := hok
  rw [← hsplit] at hok'
  obtain ⟨h1, h2, h3⟩ := List.pairwise_append.1 hok'
  have hx : x ∈ l.take m := List.mem_of_getLast?_eq_some hlast
  calc l.filter (fun e => !x.1.lt e.1)
      = (l.take m ++ l.drop m).filter (fun e => !x.1.lt e.1) := by rw [hsplit]
    _ = (l.take m).filter (fun e => !x.1.lt e.1)
          ++ (l.drop m).filter (fun e => !x.1.lt e.1) := List.filter_append _ _
    _ = l.take m ++ [] := by
        congr 1
        · rw [List.filter_eq_self]
          intro e he
          rcases sorted_le_last h1 hlast e he with heq | hlt
          · rw [← heq, artifact_index.lt_irrefl]
            rfl
          · rw [artifact_index.lt_asymm hlt]
            rfl
        · rw [List.filter_eq_nil_iff]
          intro e he
          rw [h3 x hx e he]
          simp
    _ = l.take m := List.append_nil _

theorem view_none_of_empty (s : passage) (id n : Nat) (c : artifact_index)
    (hcur : cursor s id = some c) (hm : s.artifact_map = []) : view s id n = none := by
  unfold cursor at hcur
  unfold view
  split at hcur
  · simp at hcur
  · simp [hm]

theorem view_between (s s' : passage) (id n : Nat) (r : List artifact) (c : artifact_index)
    (hok : map_ok artifact_index.lt s.artifact_map)
    (hplaced : cursor_placed c s.artifact_map) (hcur : cursor s id = some c)
    (hview : view s id n = some (r, s')) (hn : n < U64) :
    ∃ c', cursor s' id = some c' ∧ c'.lt c = false ∧
      r = (entries_between s c c').map Prod.snd := by
  by_cases hnew : newest_key s = some c
  · rw [view_caught_up s id n c hcur hnew] at hview
    simp only [Option.some.injEq, Prod.mk.injEq] at hview
    rw [← hview.2, ← hview.1]
    refine ⟨c, hcur, artifact_index.lt_irrefl c, ?_⟩
    have : entries_between s c c = [] := by
      unfold entries_between
      rw [List.filter_eq_nil_iff]
      intro e _
      cases c.lt e.1 <;> simp
    rw [this]
    rfl
  · obtain ⟨pre, hm, hpre, habove, hnil⟩ := start_split hok hplaced
    cases hit : (match map_find artifact_index.lt c s.artifact_map with
        | [] => s.artifact_map
        | _ :: after => after) with
    | nil =>
      exfalso
      rcases hnil hit with h | h
      · exact hnew h
      · rw [view_none_of_empty s id n c hcur h] at hview
        exact Option.noConfusion hview
    | cons e rest =>
      rw [hit] at hm habove
      have hne : s.artifact_map ≠ [] := by
        rw [hm]
        simp
      obtain ⟨k, hk, hview', hcur'⟩ := view_from_count s id n c e rest hcur hne hnew hit hn
      rw [hview'] at hview
      simp only [Option.some.injEq, Prod.mk.injEq] at hview
      rw [← hview.2, ← hview.1]
      cases hl : ((e :: rest).take (view_count n)).getLast? with
      | none => simp [hl] at hk
      | some x =>
        simp only [hl, Option.map_some', Option.some.injEq] at hk
        have hxmem : x ∈ e :: rest :=
          List.mem_of_mem_take (List.mem_of_getLast?_eq_some hl)
        have hsorted : map_ok artifact_index.lt (e :: rest) := by
          have := hok
          rw [hm] at this
          exact (List.pairwise_append.1 this).2.1
        refine ⟨k, hcur', ?_, ?_⟩
        · rw [← hk]
          exact artifact_index.lt_asymm (habove x hxmem)
        · unfold entries_between
          rw [hm, List.filter_append]
          have h1 : pre.filter (fun e => c.lt e.1 && !k.lt e.1) = [] := by
            rw [List.filter_eq_nil_iff]
            intro y hy
            rw [hpre y hy]
            simp
          have h2 : (e :: rest).filter (fun e => c.lt e.1 && !k.lt e.1)
              = (e :: rest).filter (fun e => !x.1.lt e.1) := by
            apply List.filter_congr
            intro y hy
            rw [habove y hy, hk]
            simp
          rw [h1, h2, sorted_take_filter (e :: rest) (view_count n) x hsorted hl]
          rfl

theorem construct_order_invariant (display_limit storage_limit now : Nat) :
    order_invariant (passage.construct display_limit storage_limit now) now 0 := by
  refine ⟨by simp [passage.construct, map_assign], by simp [passage.construct, map_ok], ?_, ?_⟩
  · intro last hlast
    simp only [passage.construct, map_assign, List.getLast?_singleton,
      Option.some.injEq] at hlast
    rw [← hlast]
    simp only [passage.construct, List.map_nil, List.nil_append, List.length_nil]
    exact ⟨List.pairwise_pair.2 (Nat.mod_le _ _), Nat.le_refl _⟩
  · intro p hp
    simp [passage.construct] at hp

/-! ## Claim on the keys a viewer is given by successive `view` calls -/

/-- C12 (as amended): take a run from construction through `decorate`, `dismantle`,
`clear_all_viewed`, `subscribe`, `unsubscribe` and `view` calls whose clock readings
(the constructor's first) are non-decreasing `uint64_t` values, with fewer than `2 ^ 64`
`decorate` calls, and in it two `view` calls of a subscribed viewer `id` (counts of type
`size_t`) with no `subscribe(id)` between them. Then the cursor of `id` never decreases
(from before the first call to after the second); each call returns exactly the
artifacts of the entries with a key above the cursor before the call and not above the
cursor after it, in strictly increasing key order; and every key returned by the second
call is strictly above every key returned by the first, so that no entry is returned
twice. -/
theorem viewer_keys_strictly_increase (display_limit storage_limit t0 id n1 n2 : Nat)
    (ops1 ops2 : List operation) (s1 s1' s2 s2' : passage) (r1 r2 : List artifact)
    (c1 c2 : artifact_index)
    (hclock : (t0 :: readings (ops1 ++ ops2)).Pairwise (fun a b => a ≤ b))
    (hrange : ∀ t ∈ readings (ops1 ++ ops2), t < U64)
    (hcount : (readings (ops1 ++ ops2)).length < U64)
    (hn1 : n1 < U64) (hn2 : n2 < U64)
    (hrun1 : run (passage.construct display_limit storage_limit t0) ops1 = some s1)
    (hcur1 : cursor s1 id = some c1)
    (hview1 : view s1 id n1 = some (r1, s1'))
    (hnosub : operation.subscribe id ∉ ops2)
    (hrun2 : run s1' ops2 = some s2)
    (hcur2 : cursor s2 id = some c2)
    (hview2 : view s2 id n2 = some (r2, s2')) :
    ∃ c1' c2', cursor s1' id = some c1' ∧ cursor s2' id = some c2' ∧
      c1'.lt c1 = false ∧ c2.lt c1' = false ∧ c2'.lt c2 = false ∧
      r1 = (entries_between s1 c1 c1').map Prod.snd ∧
      r2 = (entries_between s2 c2 c2').map Prod.snd ∧
      map_ok artifact_index.lt (entries_between s1 c1 c1') ∧
      map_ok artifact_index.lt (entries_between s2 c2 c2') ∧
      (∀ x ∈ entries_between s1 c1 c1', ∀ y ∈ entries_between s2 c2 c2',
        x.1.lt y.1 = true) := by
  rw [readings_append] at hclock hrange hcount
  rw [← List.cons_append] at hclock
  obtain ⟨hp1, hp2, hp3⟩ := List.pairwise_append.1 hclock
  simp only [List.length_append] at hcount
  obtain ⟨⟨clock1, hmem1, hinv1⟩, _⟩ := run_order_invariant ops1 _ s1 t0 0
    (construct_order_invariant display_limit storage_limit t0) hp1
    (fun t ht => hrange t (List.mem_append_left _ ht)) (by omega) hrun1
  obtain ⟨p1, hp1m, hp1c⟩ := cursor_mem s1 id c1 hcur1
  have hplaced1 := hinv1.2.2.2 p1 hp1m
  rw [hp1c] at hplaced1
  obtain ⟨c1', hc1', hle1, hr1⟩ := view_between s1 s1' id n1 r1 c1 hinv1.1 hplaced1 hcur1
    hview1 hn1
  have hinv1' := other_order_invariant s1 s1' (operation.view id n1) clock1 _ hinv1
    (by simp [step, hview1]) rfl
  obtain ⟨⟨clock2, _, hinv2⟩, hmono⟩ := run_order_invariant ops2 s1' s2 clock1 _ hinv1'
    (List.pairwise_cons.2 ⟨fun t ht => hp3 clock1 hmem1 t ht, hp2⟩)
    (fun t ht => hrange t (List.mem_append_right _ ht)) (by omega) hrun2
  have hle12 := hmono id hnosub
  rw [hc1', hcur2] at hle12
  obtain ⟨p2, hp2m, hp2c⟩ := cursor_mem s2 id c2 hcur2
  have hplaced2 := hinv2.2.2.2 p2 hp2m
  rw [hp2c] at hplaced2
  obtain ⟨c2', hc2', hle2, hr2⟩ := view_between s2 s2' id n2 r2 c2 hinv2.1 hplaced2 hcur2
    hview2 hn2
  refine ⟨c1', c2', hc1', hc2', hle1, hle12, hle2, hr1, hr2,
    List.Pairwise.sublist (List.filter_sublist _) hinv1.1,
    List.Pairwise.sublist (List.filter_sublist _) hinv2.1, ?_⟩
  intro x hx y hy
  have hx' := (List.mem_filter.1 hx).2
  have hy' := (List.mem_filter.1 hy).2
  simp only [Bool.and_eq_true, Bool.not_eq_true'] at hx' hy'
  have h12 : c2.lt c1' = false := hle12
  have h1 := hx'.2
  have h2 := hy'.1
  rw [Bool.eq_false_iff, Ne, artifact_index.lt_iff] at h12 h1
  rw [artifact_index.lt_iff] at h2 ⊢
  omega

theorem viewer_keys_strictly_increase_witness :
    run (passage.construct 10 10 100)
        [operation.subscribe 1, operation.decorate (data_artifact 1) 101 true,
          operation.decorate (data_artifact 2) 102 true] = some (sample_run_state 2 0 0) ∧
      view (sample_run_state 2 0 0) 1 2
        = some ([artifact.empty, data_artifact 1], sample_run_state 2 101 1) ∧
      run (sample_run_state 2 101 1)
        [operation.decorate (data_artifact 3) 103 false, operation.dismantle,
          operation.decorate (data_artifact 4) 104 true]
        = some (sample_run_state 4 101 1) ∧
      view (sample_run_state 4 101 1) 1 5
        = some ([data_artifact 2, data_artifact 3, data_artifact 4],
          sample_run_state 4 104 4) ∧
      ∃ c1' c2', cursor (sample_run_state 2 101 1) 1 = some c1' ∧
        cursor (sample_run_state 4 104 4) 1 = some c2' ∧
        ∀ x ∈ entries_between (sample_run_state 2 0 0) zero_cursor c1',
          ∀ y ∈ entries_between (sample_run_state 4 101 1)
            { timestamp := 101, index := 1 } c2', x.1.lt y.1 = true := by
  refine ⟨by decide, by decide, by decide, by decide, ?_⟩
  obtain ⟨c1', c2', h1, h2, _, _, _, _, _, _, _, h⟩ := viewer_keys_strictly_increase
    10 10 100 1 2 5
    [operation.subscribe 1, operation.decorate (data_artifact 1) 101 true,
      operation.decorate (data_artifact 2) 102 true]
    [operation.decorate (data_artifact 3) 103 false, operation.dismantle,
      operation.decorate (data_artifact 4) 104 true]
    (sample_run_state 2 0 0) (sample_run_state 2 101 1)
    (sample_run_state 4 101 1) (sample_run_state 4 104 4)
    [artifact.empty, data_artifact 1] [data_artifact 2, data_artifact 3, data_artifact 4]
    zero_cursor { timestamp := 101, index := 1 }
    (by decide) (by decide) (by decide) (by decide) (by decide)
    (by decide) (by decide) (by decide) (by decide) (by decide) (by decide) (by decide)
  exact ⟨c1', c2', h1, h2, h⟩

/-- C12, the claim as stated fails when the constructor read the clock later than the
`decorate` calls do: after `construct(10, 10)` at reading 100 every `decorate` reads 50
(non-decreasing), so the newest key stays `(100, 0)` and sequence numbers restart at 1
on every flush. Viewer 1 reads the keys `(50, 1)`, `(50, 2)`; after eleven more
artifacts `dismantle` evicts those two keys; one more `decorate` inserts the key
`(50, 1)` again, below the cursor; the next `view(1, 1)` starts at the oldest entry,
returns the key `(50, 1)` a second time and moves the cursor down from `(50, 2)` to
`(50, 1)`. -/
theorem viewer_cursor_falls_after_early_readings :
    (readings (sample_early_calls ++ sample_early_calls_after)).Pairwise
        (fun a b => a ≤ b) ∧
      operation.subscribe 1 ∉ sample_early_calls_after ∧
      ∃ s1 s1' s2 s2',
        run (passage.construct 10 10 100) sample_early_calls = some s1 ∧
        view s1 1 2 = some ([data_artifact 1, data_artifact 2], s1') ∧
        (map_find artifact_index.lt { timestamp := 50, index := 1 } s1.artifact_map).head?
          = some ({ timestamp := 50, index := 1 }, data_artifact 1) ∧
        cursor s1' 1 = some { timestamp := 50, index := 2 } ∧
        run s1' sample_early_calls_after = some s2 ∧
        cursor s2 1 = some { timestamp := 50, index := 2 } ∧
        view s2 1 1 = some ([data_artifact 15], s2') ∧
        s2.artifact_map.head? = some ({ timestamp := 50, index := 1 }, data_artifact 15) ∧
        cursor s2' 1 = some { timestamp := 50, index := 1 } ∧
        artifact_index.lt { timestamp := 50, index := 1 } { timestamp := 50, index := 2 }
          = true :=
  ⟨by decide, by decide, _, _, _, _, rfl, rfl, rfl, rfl, rfl, rfl, rfl, rfl, rfl, rfl⟩

end corridor
